import Mathlib

/-!
# Verification of `deflate-rs` against its specification

Shallow embedding of the sources of the `deflate-rs` repository
(`src/matching.rs`, `src/huffman_lengths.rs`, `src/lib.rs`) together with
spec-modelled definitions for the parts of the crate whose sources are not
available (`chained_hash_table.rs`, `zlib.rs`, `checksum.rs`, `length_encode.rs`,
`huffman_table.rs`, `writer.rs`), and proofs of the claims extracted from the
natural-language specification.

Conventions of the embedding:
* Rust `usize` values are `Nat`; byte values are `Nat` (no claim depends on
  wrap-around of byte values).
* A Rust slice `&[u8]` is a `List Nat`.
* Fallible operations (panicking index / subtraction underflow / `assert!`)
  are modelled with `Option`: `none` means the Rust code panics.
* The chained hash table (whose source is absent) is modelled by its `get_prev`
  observation: an arbitrary function `prev : Nat → Nat` (the real table returns
  a `u16` read from the `prev` array; quantifying over all of `Nat → Nat` covers
  every table state, including the pathological ones the spec warns about).
-/

/-- `huffman_table::MAX_MATCH` : the maximum DEFLATE match length. -/
def MAX_MATCH : Nat := 258

/-- `chained_hash_table::WINDOW_SIZE` : the DEFLATE sliding-window size. -/
def WINDOW_SIZE : Nat := 32768

/-- Checked `usize` subtraction: Rust `a - b` panics on underflow
(in release mode it wraps, and every use below immediately feeds the wrapped
value to a slice index that is then far out of bounds, so the program panics
either way); `none` models the panic. -/
def rSub (a b : Nat) : Option Nat :=
  if b ≤ a then some (a - b) else none

/-- Checked slice `data[a..b]` : Rust panics unless `a ≤ b ∧ b ≤ data.len()`. -/
def rSlice (data : List Nat) (a b : Nat) : Option (List Nat) :=
  if a ≤ b ∧ b ≤ data.length then some ((data.drop a).take (b - a)) else none

/-- `matching.rs::get_match_length` — the number of bytes at and including
`current_pos` that are the same as the ones at `pos_to_check`:
`data[current_pos..].iter().zip(data[pos_to_check..].iter()).take(MAX_MATCH).take_while(|&(&a, &b)| a == b).count()`. -/
def get_match_length (data : List Nat) (current_pos pos_to_check : Nat) : Nat :=
  ((((data.drop current_pos).zip (data.drop pos_to_check)).take MAX_MATCH).takeWhile
    (fun ab => ab.1 = ab.2)).length

/-- Length of the longest common prefix of two lists (specification-side
notion used to state what `get_match_length` computes). -/
def lcpLen : List Nat → List Nat → Nat
  | a :: as_, b :: bs => if a = b then lcpLen as_ bs + 1 else 0
  | _, _ => 0

/-- The two-byte pre-filter of `matching.rs::longest_match` (lines 105–106):
`data[position + best_length - 1..position + best_length + 1] ==
 data[current_head + best_length - 1..current_head + best_length + 1]`,
with the Rust panics (underflow of `- 1`, slice out of bounds) as `none`. -/
def prefilter (data : List Nat) (position currentHead bestLength : Nat) : Option Bool :=
  match rSub (position + bestLength) 1, rSub (currentHead + bestLength) 1 with
  | some p1, some c1 =>
    match rSlice data p1 (position + bestLength + 1),
          rSlice data c1 (currentHead + bestLength + 1) with
    | some s1, some s2 => some (s1 = s2)
    | _, _ => none
  | _, _ => none

/-- The `while` loop of `matching.rs::longest_match` (lines 103–128).
`fuel` is `max_hash_checks - iters` (the loop condition `iters < max_hash_checks`
is `fuel ≠ 0`; `iters` is incremented exactly when the loop does not `break`).
Returns the final `(best_length, best_distance)` pair, or `none` on panic. -/
def lmLoop (data : List Nat) (prev : Nat → Nat) (position limit maxLength : Nat) :
    Nat → Nat → Nat → Nat → Option (Nat × Nat)
  | 0, _, bestLength, bestDistance => some (bestLength, bestDistance)
  | fuel + 1, currentHead, bestLength, bestDistance =>
    if currentHead < limit then some (bestLength, bestDistance)
    else
      match prefilter data position currentHead bestLength with
      | none => none
      | some false =>
        let nextHead := prev currentHead
        if currentHead ≤ nextHead then some (bestLength, bestDistance)
        else lmLoop data prev position limit maxLength fuel nextHead bestLength bestDistance
      | some true =>
        let length := get_match_length data position currentHead
        if bestLength < length then
          if length = maxLength then some (length, position - currentHead)
          else
            let nextHead := prev currentHead
            if currentHead ≤ nextHead then some (length, position - currentHead)
            else lmLoop data prev position limit maxLength fuel nextHead length
              (position - currentHead)
        else
          let nextHead := prev currentHead
          if currentHead ≤ nextHead then some (bestLength, bestDistance)
          else lmLoop data prev position limit maxLength fuel nextHead bestLength bestDistance

/-- `matching.rs::longest_match` (lines 65–137).  The hash table is represented
by its `get_prev` function.  `none` models a panic. -/
def longest_match (data : List Nat) (prev : Nat → Nat) (position prev_length : Nat)
    (max_hash_checks : Nat) : Option (Nat × Nat) :=
  if position = 0 ∨ MAX_MATCH ≤ prev_length ∨ data.length ≤ position + prev_length then
    some (2, 0)
  else
    let limit := if WINDOW_SIZE < position then position - WINDOW_SIZE else 0
    let maxLength := min (data.length - position) MAX_MATCH
    let currentHead := prev position
    if position ≤ currentHead then some (2, 0)
    else
      match lmLoop data prev position limit maxLength max_hash_checks
          currentHead prev_length 0 with
      | none => none
      | some (bestLength, bestDistance) =>
        some (if prev_length < bestLength then bestLength else 2, bestDistance)

/-- The list of chain entries examined by the loop of `longest_match`:
every `current_head` value for which the loop body runs (the control flow of
the loop depends only on `current_head`, `best_length` and the remaining
fuel, never on `best_distance`). -/
def lmExamined (data : List Nat) (prev : Nat → Nat) (position limit maxLength : Nat) :
    Nat → Nat → Nat → List Nat
  | 0, _, _ => []
  | fuel + 1, currentHead, bestLength =>
    if currentHead < limit then []
    else
      currentHead ::
        match prefilter data position currentHead bestLength with
        | none => []
        | some false =>
          let nextHead := prev currentHead
          if currentHead ≤ nextHead then []
          else lmExamined data prev position limit maxLength fuel nextHead bestLength
        | some true =>
          let length := get_match_length data position currentHead
          if bestLength < length then
            if length = maxLength then []
            else
              let nextHead := prev currentHead
              if currentHead ≤ nextHead then []
              else lmExamined data prev position limit maxLength fuel nextHead length
          else
            let nextHead := prev currentHead
            if currentHead ≤ nextHead then []
            else lmExamined data prev position limit maxLength fuel nextHead bestLength

/-- The chain entries examined by a top-level call of `longest_match`
(empty when one of the entry guards returns `(2, 0)` immediately). -/
def lmExaminedTop (data : List Nat) (prev : Nat → Nat) (position prev_length : Nat)
    (max_hash_checks : Nat) : List Nat :=
  if position = 0 ∨ MAX_MATCH ≤ prev_length ∨ data.length ≤ position + prev_length then []
  else
    let limit := if WINDOW_SIZE < position then position - WINDOW_SIZE else 0
    let maxLength := min (data.length - position) MAX_MATCH
    let currentHead := prev position
    if position ≤ currentHead then []
    else lmExamined data prev position limit maxLength max_hash_checks currentHead prev_length

/-- The window limit of `longest_match` (lines 80–84). -/
def lmLimit (position : Nat) : Nat :=
  if WINDOW_SIZE < position then position - WINDOW_SIZE else 0

example : get_match_length [5, 5, 5, 5, 5, 9, 9, 2, 3, 5, 5, 5, 5, 5] 9 0 = 5 := by decide
example : get_match_length [5, 5, 5, 5, 5, 9, 9, 2, 3, 5, 5, 5, 5, 5] 9 7 = 0 := by decide
example : get_match_length [5, 5, 5, 5, 5, 9, 9, 2, 3, 5, 5, 5, 5, 5] 10 0 = 4 := by decide

/-! ### Properties of `get_match_length` -/

theorem takeWhile_take_comm {α : Type} (p : α → Bool) :
    ∀ (l : List α) (n : Nat), (l.take n).takeWhile p = (l.takeWhile p).take n := by
  intro l
  induction l with
  | nil => intro n; simp
  | cons a t ih =>
    intro n
    cases n with
    | zero => simp
    | succ m =>
      by_cases hpa : p a
      · simp [hpa, ih]
      · simp [hpa]

theorem lcpLen_eq_length_takeWhile :
    ∀ xs ys : List Nat,
      ((xs.zip ys).takeWhile (fun ab => ab.1 = ab.2)).length = lcpLen xs ys := by
  intro xs
  induction xs with
  | nil => intro ys; simp [lcpLen]
  | cons a t ih =>
    intro ys
    cases ys with
    | nil => simp [lcpLen]
    | cons b u =>
      by_cases hab : a = b
      · simp [lcpLen, hab, ih]
      · simp [lcpLen, hab]

theorem get_match_length_eq (data : List Nat) (p q : Nat) :
    get_match_length data p q = min MAX_MATCH (lcpLen (data.drop p) (data.drop q)) := by
  unfold get_match_length
  rw [takeWhile_take_comm, List.length_take, lcpLen_eq_length_takeWhile]

theorem lcpLen_le_left : ∀ xs ys : List Nat, lcpLen xs ys ≤ xs.length := by
  intro xs
  induction xs with
  | nil => intro ys; cases ys <;> simp [lcpLen]
  | cons a t ih =>
    intro ys
    cases ys with
    | nil => simp [lcpLen]
    | cons b u =>
      by_cases hab : a = b
      · simpa [lcpLen, hab] using ih u
      · simp [lcpLen, hab]

theorem lcpLen_le_right : ∀ xs ys : List Nat, lcpLen xs ys ≤ ys.length := by
  intro xs
  induction xs with
  | nil => intro ys; cases ys <;> simp [lcpLen]
  | cons a t ih =>
    intro ys
    cases ys with
    | nil => simp [lcpLen]
    | cons b u =>
      by_cases hab : a = b
      · simpa [lcpLen, hab] using ih u
      · simp [lcpLen, hab]

theorem lcpLen_take_eq : ∀ (n : Nat) (xs ys : List Nat),
    n ≤ lcpLen xs ys → xs.take n = ys.take n := by
  intro n
  induction n with
  | zero => intro xs ys _; simp
  | succ m ih =>
    intro xs ys hle
    cases xs with
    | nil => simp [lcpLen] at hle
    | cons a t =>
      cases ys with
      | nil => simp [lcpLen] at hle
      | cons b u =>
        by_cases hab : a = b
        · simp only [lcpLen, if_pos hab] at hle
          simp [hab, ih t u (by omega)]
        · simp [lcpLen, hab] at hle

/-! ### Properties of the pre-filter -/

theorem prefilter_eq (data : List Nat) (position ch bl : Nat)
    (hch : ch < position) (hbl : 1 ≤ bl) (hb : position + bl < data.length) :
    prefilter data position ch bl =
      some (decide ((data.drop (position + bl - 1)).take 2 =
                    (data.drop (ch + bl - 1)).take 2)) := by
  unfold prefilter rSub rSlice
  rw [if_pos (by omega : 1 ≤ position + bl), if_pos (by omega : 1 ≤ ch + bl)]
  simp only []
  rw [if_pos (⟨by omega, by omega⟩ :
        position + bl - 1 ≤ position + bl + 1 ∧ position + bl + 1 ≤ data.length)]
  rw [if_pos (⟨by omega, by omega⟩ :
        ch + bl - 1 ≤ ch + bl + 1 ∧ ch + bl + 1 ≤ data.length)]
  simp only []
  have e1 : position + bl + 1 - (position + bl - 1) = 2 := by omega
  have e2 : ch + bl + 1 - (ch + bl - 1) = 2 := by omega
  rw [e1, e2]

theorem prefilter_true_of_lcp (data : List Nat) (position ch bl : Nat)
    (hch : ch < position) (hbl : 1 ≤ bl) (hb : position + bl < data.length)
    (hlen : bl + 1 ≤ lcpLen (data.drop position) (data.drop ch)) :
    prefilter data position ch bl = some true := by
  rw [prefilter_eq data position ch bl hch hbl hb]
  have htake := lcpLen_take_eq (bl + 1) (data.drop position) (data.drop ch) hlen
  have key : ∀ r : Nat, (data.drop (r + bl - 1)).take 2 = (((data.drop r).take (bl + 1)).drop (bl - 1)) := by
    intro r
    rw [List.drop_take]
    have e3 : bl + 1 - (bl - 1) = 2 := by omega
    rw [e3, List.drop_drop]
    have e4 : r + (bl - 1) = r + bl - 1 := by omega
    rw [e4]
  rw [key position, key ch, htake]
  simp

theorem prefilter_false_le (data : List Nat) (position ch bl : Nat)
    (hch : ch < position) (hbl : 1 ≤ bl) (hb : position + bl < data.length)
    (hf : prefilter data position ch bl = some false) :
    get_match_length data position ch ≤ bl := by
  by_contra hcon
  push_neg at hcon
  have heq := get_match_length_eq data position ch
  have hmm : MAX_MATCH = 258 := rfl
  have hlcp : bl + 1 ≤ lcpLen (data.drop position) (data.drop ch) := by omega
  rw [prefilter_true_of_lcp data position ch bl hch hbl hb hlcp] at hf
  simp at hf

theorem get_match_length_le_drop (data : List Nat) (p q : Nat) :
    get_match_length data p q ≤ data.length - p ∧
    get_match_length data p q ≤ MAX_MATCH := by
  have heq := get_match_length_eq data p q
  have h1 := lcpLen_le_left (data.drop p) (data.drop q)
  rw [List.length_drop] at h1
  omega

/-! ### Weak invariant of the search loop (distances are positive) -/

theorem lmLoop_weak (data : List Nat) (prev : Nat → Nat) (position limit maxLength : Nat) :
    ∀ (fuel ch bl bd bl' bd' : Nat), ch < position →
      lmLoop data prev position limit maxLength fuel ch bl bd = some (bl', bd') →
      (bl' = bl ∧ bd' = bd) ∨ (bl < bl' ∧ 1 ≤ bd') := by
  intro fuel
  induction fuel with
  | zero =>
    intro ch bl bd bl' bd' _ hres
    simp only [lmLoop, Option.some.injEq, Prod.mk.injEq] at hres
    exact Or.inl ⟨hres.1.symm, hres.2.symm⟩
  | succ fuel ih =>
    intro ch bl bd bl' bd' hch hres
    simp only [lmLoop] at hres
    by_cases hlim : ch < limit
    · rw [if_pos hlim] at hres
      simp only [Option.some.injEq, Prod.mk.injEq] at hres
      exact Or.inl ⟨hres.1.symm, hres.2.symm⟩
    · rw [if_neg hlim] at hres
      rcases hpf : prefilter data position ch bl with _ | b
      · rw [hpf] at hres; cases hres
      · rw [hpf] at hres
        cases b with
        | false =>
          simp only [] at hres
          by_cases hnext : ch ≤ prev ch
          · rw [if_pos hnext] at hres
            simp only [Option.some.injEq, Prod.mk.injEq] at hres
            exact Or.inl ⟨hres.1.symm, hres.2.symm⟩
          · rw [if_neg hnext] at hres
            exact ih (prev ch) bl bd bl' bd' (by omega) hres
        | true =>
          simp only [] at hres
          by_cases hup : bl < get_match_length data position ch
          · rw [if_pos hup] at hres
            by_cases hmax : get_match_length data position ch = maxLength
            · rw [if_pos hmax] at hres
              simp only [Option.some.injEq, Prod.mk.injEq] at hres
              exact Or.inr ⟨by omega, by omega⟩
            · rw [if_neg hmax] at hres
              by_cases hnext : ch ≤ prev ch
              · rw [if_pos hnext] at hres
                simp only [Option.some.injEq, Prod.mk.injEq] at hres
                exact Or.inr ⟨by omega, by omega⟩
              · rw [if_neg hnext] at hres
                rcases ih (prev ch) (get_match_length data position ch)
                    (position - ch) bl' bd' (by omega) hres with h | h
                · exact Or.inr ⟨by omega, by omega⟩
                · exact Or.inr ⟨by omega, h.2⟩
          · rw [if_neg hup] at hres
            by_cases hnext : ch ≤ prev ch
            · rw [if_pos hnext] at hres
              simp only [Option.some.injEq, Prod.mk.injEq] at hres
              exact Or.inl ⟨hres.1.symm, hres.2.symm⟩
            · rw [if_neg hnext] at hres
              exact ih (prev ch) bl bd bl' bd' (by omega) hres

/-! ### Structure of the examined chain-entry list -/

theorem lmExamined_struct (data : List Nat) (prev : Nat → Nat)
    (position limit maxLength : Nat) :
    ∀ (fuel ch bl : Nat),
      (lmExamined data prev position limit maxLength fuel ch bl).length ≤ fuel ∧
      ((lmExamined data prev position limit maxLength fuel ch bl) = [] ∨
        (lmExamined data prev position limit maxLength fuel ch bl).head? = some ch) ∧
      List.Chain' (fun a b => b = prev a ∧ b < a)
        (lmExamined data prev position limit maxLength fuel ch bl) ∧
      (∀ h ∈ lmExamined data prev position limit maxLength fuel ch bl,
        limit ≤ h ∧ h ≤ ch) := by
  intro fuel
  induction fuel with
  | zero =>
    intro ch bl
    simp [lmExamined]
  | succ fuel ih =>
    intro ch bl
    by_cases hlim : ch < limit
    · simp [lmExamined, hlim]
    · have hstep : ∀ bl2 : Nat,
        (lmExamined data prev position limit maxLength (fuel + 1) ch bl) =
          ch :: (let nextHead := prev ch;
            if ch ≤ nextHead then []
            else lmExamined data prev position limit maxLength fuel nextHead bl2) →
        (lmExamined data prev position limit maxLength (fuel + 1) ch bl).length ≤ fuel + 1 ∧
        ((lmExamined data prev position limit maxLength (fuel + 1) ch bl) = [] ∨
          (lmExamined data prev position limit maxLength (fuel + 1) ch bl).head? = some ch) ∧
        List.Chain' (fun a b => b = prev a ∧ b < a)
          (lmExamined data prev position limit maxLength (fuel + 1) ch bl) ∧
        (∀ h ∈ lmExamined data prev position limit maxLength (fuel + 1) ch bl,
          limit ≤ h ∧ h ≤ ch) := by
        intro bl2 heq
        by_cases hnext : ch ≤ prev ch
        · rw [heq]
          simp [hnext, hlim]
          omega
        · rw [heq]
          simp only [if_neg hnext]
          rcases ih (prev ch) bl2 with ⟨ihlen, ihhead, ihchain, ihmem⟩
          refine ⟨by simpa using ihlen, Or.inr rfl, ?_, ?_⟩
          · rw [List.chain'_cons']
            constructor
            · intro y hy
              rcases ihhead with hnil | hhead
              · rw [hnil] at hy; cases hy
              · rw [hhead] at hy
                cases hy
                exact ⟨rfl, by omega⟩
            · exact ihchain
          · intro h hmem
            rcases List.mem_cons.mp hmem with rfl | hmem'
            · exact ⟨by omega, le_rfl⟩
            · rcases ihmem h hmem' with ⟨h1, h2⟩
              exact ⟨h1, by omega⟩
      by_cases hcase : ∃ b, prefilter data position ch bl = some b
      · rcases hcase with ⟨b, hpf⟩
        cases b with
        | false =>
          apply hstep bl
          simp only [lmExamined, if_neg hlim, hpf]
        | true =>
          by_cases hup : bl < get_match_length data position ch
          · by_cases hmax : get_match_length data position ch = maxLength
            · have heq : lmExamined data prev position limit maxLength (fuel + 1) ch bl
                  = [ch] := by
                simp only [lmExamined, if_neg hlim, hpf, if_pos hup, if_pos hmax]
              rw [heq]
              simp [hlim]
              omega
            · apply hstep (get_match_length data position ch)
              simp only [lmExamined, if_neg hlim, hpf, if_pos hup, if_neg hmax]
          · apply hstep bl
            simp only [lmExamined, if_neg hlim, hpf, if_neg hup]
      · have hpf : prefilter data position ch bl = none := by
          rcases hx : prefilter data position ch bl with _ | b
          · rfl
          · exact absurd ⟨b, hx⟩ hcase
        have heq : lmExamined data prev position limit maxLength (fuel + 1) ch bl
            = [ch] := by
          simp only [lmExamined, if_neg hlim, hpf]
        rw [heq]
        simp [hlim]
        omega

/-! ### Master invariant of the search loop -/

theorem lmLoop_master (data : List Nat) (prev : Nat → Nat) (position limit maxLength : Nat)
    (hML : maxLength = min (data.length - position) MAX_MATCH) :
    ∀ (fuel ch bl bd : Nat), ch < position → 1 ≤ bl → bl < maxLength →
    ∃ bl' bd',
      lmLoop data prev position limit maxLength fuel ch bl bd = some (bl', bd') ∧
      bl ≤ bl' ∧
      (∀ h ∈ lmExamined data prev position limit maxLength fuel ch bl, h ≤ ch) ∧
      (∀ h ∈ lmExamined data prev position limit maxLength fuel ch bl,
        get_match_length data position h ≤ bl') ∧
      (bl' = bl → bd' = bd) ∧
      (bl < bl' → ∃ h ∈ lmExamined data prev position limit maxLength fuel ch bl,
        get_match_length data position h = bl' ∧ bd' = position - h ∧
        ∀ h2 ∈ lmExamined data prev position limit maxLength fuel ch bl,
          get_match_length data position h2 = bl' → h2 ≤ h) := by
  intro fuel
  induction fuel with
  | zero =>
    intro ch bl bd _ _ _
    refine ⟨bl, bd, rfl, le_rfl, ?_, ?_, fun _ => rfl, by omega⟩
    · simp [lmExamined]
    · simp [lmExamined]
  | succ fuel ih =>
    intro ch bl bd hch hbl1 hblM
    have hb : position + bl < data.length := by
      have hmm : MAX_MATCH = 258 := rfl
      omega
    by_cases hlim : ch < limit
    · have hloopeq : lmLoop data prev position limit maxLength (fuel + 1) ch bl bd
          = some (bl, bd) := by
        simp only [lmLoop, if_pos hlim]
      have hexeq : lmExamined data prev position limit maxLength (fuel + 1) ch bl = [] := by
        simp only [lmExamined, if_pos hlim]
      rw [hloopeq, hexeq]
      exact ⟨bl, bd, rfl, le_rfl, by simp, by simp, fun _ => rfl, by omega⟩
    · rcases hpfcase : prefilter data position ch bl with _ | b
      · exact absurd hpfcase (by rw [prefilter_eq data position ch bl hch hbl1 hb]; simp)
      cases b with
      | false =>
        have hle : get_match_length data position ch ≤ bl :=
          prefilter_false_le data position ch bl hch hbl1 hb hpfcase
        by_cases hnext : ch ≤ prev ch
        · have hloopeq : lmLoop data prev position limit maxLength (fuel + 1) ch bl bd
              = some (bl, bd) := by
            simp only [lmLoop, if_neg hlim, hpfcase, if_pos hnext]
          have hexeq : lmExamined data prev position limit maxLength (fuel + 1) ch bl
              = [ch] := by
            simp only [lmExamined, if_neg hlim, hpfcase, if_pos hnext]
          rw [hloopeq, hexeq]
          refine ⟨bl, bd, rfl, le_rfl, by simp, ?_, fun _ => rfl, by omega⟩
          intro h hmem
          rw [List.mem_singleton] at hmem
          subst hmem
          exact hle
        · have hloopeq : lmLoop data prev position limit maxLength (fuel + 1) ch bl bd
              = lmLoop data prev position limit maxLength fuel (prev ch) bl bd := by
            simp only [lmLoop, if_neg hlim, hpfcase, if_neg hnext]
          have hexeq : lmExamined data prev position limit maxLength (fuel + 1) ch bl
              = ch :: lmExamined data prev position limit maxLength fuel (prev ch) bl := by
            simp only [lmExamined, if_neg hlim, hpfcase, if_neg hnext]
          rcases ih (prev ch) bl bd (by omega) hbl1 hblM with
            ⟨bl', bd', hres, hble, hmemle, hmemgml, heqc, hltc⟩
          rw [hloopeq, hexeq]
          refine ⟨bl', bd', hres, hble, ?_, ?_, heqc, ?_⟩
          · intro h hmem
            rcases List.mem_cons.mp hmem with rfl | hmem'
            · exact le_rfl
            · have := hmemle h hmem'
              omega
          · intro h hmem
            rcases List.mem_cons.mp hmem with rfl | hmem'
            · omega
            · exact hmemgml h hmem'
          · intro hlt
            rcases hltc hlt with ⟨hstar, hsmem, hgml, hbd, hmin⟩
            refine ⟨hstar, List.mem_cons_of_mem ch hsmem, hgml, hbd, ?_⟩
            intro h2 hmem2 hgml2
            rcases List.mem_cons.mp hmem2 with rfl | hmem2'
            · omega
            · exact hmin h2 hmem2' hgml2
      | true =>
        have hgmlle : get_match_length data position ch ≤ maxLength := by
          have := get_match_length_le_drop data position ch
          have hmm : MAX_MATCH = 258 := rfl
          omega
        by_cases hup : bl < get_match_length data position ch
        · by_cases hmax : get_match_length data position ch = maxLength
          · have hloopeq : lmLoop data prev position limit maxLength (fuel + 1) ch bl bd
                = some (get_match_length data position ch, position - ch) := by
              simp only [lmLoop, if_neg hlim, hpfcase, if_pos hup, if_pos hmax]
            have hexeq : lmExamined data prev position limit maxLength (fuel + 1) ch bl
                = [ch] := by
              simp only [lmExamined, if_neg hlim, hpfcase, if_pos hup, if_pos hmax]
            rw [hloopeq, hexeq]
            refine ⟨get_match_length data position ch, position - ch, rfl, by omega,
              by simp, ?_, by omega, ?_⟩
            · intro h hmem
              rw [List.mem_singleton] at hmem
              subst hmem
              exact le_rfl
            · intro _
              refine ⟨ch, List.mem_singleton_self ch, rfl, rfl, ?_⟩
              intro h2 hmem2 _
              rw [List.mem_singleton] at hmem2
              omega
          · by_cases hnext : ch ≤ prev ch
            · have hloopeq : lmLoop data prev position limit maxLength (fuel + 1) ch bl bd
                  = some (get_match_length data position ch, position - ch) := by
                simp only [lmLoop, if_neg hlim, hpfcase, if_pos hup, if_neg hmax,
                  if_pos hnext]
              have hexeq : lmExamined data prev position limit maxLength (fuel + 1) ch bl
                  = [ch] := by
                simp only [lmExamined, if_neg hlim, hpfcase, if_pos hup, if_neg hmax,
                  if_pos hnext]
              rw [hloopeq, hexeq]
              refine ⟨get_match_length data position ch, position - ch, rfl, by omega,
                by simp, ?_, by omega, ?_⟩
              · intro h hmem
                rw [List.mem_singleton] at hmem
                subst hmem
                exact le_rfl
              · intro _
                refine ⟨ch, List.mem_singleton_self ch, rfl, rfl, ?_⟩
                intro h2 hmem2 _
                rw [List.mem_singleton] at hmem2
                omega
            · have hloopeq : lmLoop data prev position limit maxLength (fuel + 1) ch bl bd
                  = lmLoop data prev position limit maxLength fuel (prev ch)
                      (get_match_length data position ch) (position - ch) := by
                simp only [lmLoop, if_neg hlim, hpfcase, if_pos hup, if_neg hmax,
                  if_neg hnext]
              have hexeq : lmExamined data prev position limit maxLength (fuel + 1) ch bl
                  = ch :: lmExamined data prev position limit maxLength fuel (prev ch)
                      (get_match_length data position ch) := by
                simp only [lmExamined, if_neg hlim, hpfcase, if_pos hup, if_neg hmax,
                  if_neg hnext]
              rcases ih (prev ch) (get_match_length data position ch) (position - ch)
                  (by omega) (by omega) (by omega) with
                ⟨bl', bd', hres, hble, hmemle, hmemgml, heqc, hltc⟩
              rw [hloopeq, hexeq]
              refine ⟨bl', bd', hres, by omega, ?_, ?_, by omega, ?_⟩
              · intro h hmem
                rcases List.mem_cons.mp hmem with rfl | hmem'
                · exact le_rfl
                · have := hmemle h hmem'
                  omega
              · intro h hmem
                rcases List.mem_cons.mp hmem with rfl | hmem'
                · omega
                · exact hmemgml h hmem'
              · intro _
                rcases Nat.lt_or_ge (get_match_length data position ch) bl' with hc | hc
                · rcases hltc hc with ⟨hstar, hsmem, hgml, hbd, hmin⟩
                  refine ⟨hstar, List.mem_cons_of_mem ch hsmem, hgml, hbd, ?_⟩
                  intro h2 hmem2 hgml2
                  rcases List.mem_cons.mp hmem2 with rfl | hmem2'
                  · omega
                  · exact hmin h2 hmem2' hgml2
                · have hbleq : bl' = get_match_length data position ch := by omega
                  refine ⟨ch, List.mem_cons_self ch _, hbleq.symm, ?_, ?_⟩
                  · exact heqc hbleq
                  · intro h2 hmem2 _
                    rcases List.mem_cons.mp hmem2 with rfl | hmem2'
                    · exact le_rfl
                    · have := hmemle h2 hmem2'
                      omega
        · by_cases hnext : ch ≤ prev ch
          · have hloopeq : lmLoop data prev position limit maxLength (fuel + 1) ch bl bd
                = some (bl, bd) := by
              simp only [lmLoop, if_neg hlim, hpfcase, if_neg hup, if_pos hnext]
            have hexeq : lmExamined data prev position limit maxLength (fuel + 1) ch bl
                = [ch] := by
              simp only [lmExamined, if_neg hlim, hpfcase, if_neg hup, if_pos hnext]
            rw [hloopeq, hexeq]
            refine ⟨bl, bd, rfl, le_rfl, by simp, ?_, fun _ => rfl, by omega⟩
            intro h hmem
            rw [List.mem_singleton] at hmem
            subst hmem
            omega
          · have hloopeq : lmLoop data prev position limit maxLength (fuel + 1) ch bl bd
                = lmLoop data prev position limit maxLength fuel (prev ch) bl bd := by
              simp only [lmLoop, if_neg hlim, hpfcase, if_neg hup, if_neg hnext]
            have hexeq : lmExamined data prev position limit maxLength (fuel + 1) ch bl
                = ch :: lmExamined data prev position limit maxLength fuel (prev ch) bl := by
              simp only [lmExamined, if_neg hlim, hpfcase, if_neg hup, if_neg hnext]
            rcases ih (prev ch) bl bd (by omega) hbl1 hblM with
              ⟨bl', bd', hres, hble, hmemle, hmemgml, heqc, hltc⟩
            rw [hloopeq, hexeq]
            refine ⟨bl', bd', hres, hble, ?_, ?_, heqc, ?_⟩
            · intro h hmem
              rcases List.mem_cons.mp hmem with rfl | hmem'
              · exact le_rfl
              · have := hmemle h hmem'
                omega
            · intro h hmem
              rcases List.mem_cons.mp hmem with rfl | hmem'
              · omega
              · exact hmemgml h hmem'
            · intro hlt
              rcases hltc hlt with ⟨hstar, hsmem, hgml, hbd, hmin⟩
              refine ⟨hstar, List.mem_cons_of_mem ch hsmem, hgml, hbd, ?_⟩
              intro h2 hmem2 hgml2
              rcases List.mem_cons.mp hmem2 with rfl | hmem2'
              · omega
              · exact hmin h2 hmem2' hgml2

/-! ### Top-level characterizations of `longest_match` -/

theorem longest_match_guard (data : List Nat) (prev : Nat → Nat)
    (position prev_length max_hash_checks : Nat)
    (hg : position = 0 ∨ MAX_MATCH ≤ prev_length ∨ data.length ≤ position + prev_length) :
    longest_match data prev position prev_length max_hash_checks = some (2, 0) := by
  simp only [longest_match, if_pos hg]

theorem longest_match_chain_end (data : List Nat) (prev : Nat → Nat)
    (position prev_length max_hash_checks : Nat)
    (hg : ¬(position = 0 ∨ MAX_MATCH ≤ prev_length ∨ data.length ≤ position + prev_length))
    (hh : position ≤ prev position) :
    longest_match data prev position prev_length max_hash_checks = some (2, 0) := by
  simp only [longest_match, if_neg hg, if_pos hh]

theorem longest_match_of_loop (data : List Nat) (prev : Nat → Nat)
    (position prev_length max_hash_checks bl bd : Nat)
    (hg : ¬(position = 0 ∨ MAX_MATCH ≤ prev_length ∨ data.length ≤ position + prev_length))
    (hh : ¬ position ≤ prev position)
    (hL : lmLoop data prev position (lmLimit position)
        (min (data.length - position) MAX_MATCH) max_hash_checks
        (prev position) prev_length 0 = some (bl, bd)) :
    longest_match data prev position prev_length max_hash_checks =
      some (if prev_length < bl then bl else 2, bd) := by
  simp only [lmLimit] at hL
  simp only [longest_match, if_neg hg, if_neg hh, hL]

theorem longest_match_loop_none (data : List Nat) (prev : Nat → Nat)
    (position prev_length max_hash_checks : Nat)
    (hg : ¬(position = 0 ∨ MAX_MATCH ≤ prev_length ∨ data.length ≤ position + prev_length))
    (hh : ¬ position ≤ prev position)
    (hL : lmLoop data prev position (lmLimit position)
        (min (data.length - position) MAX_MATCH) max_hash_checks
        (prev position) prev_length 0 = none) :
    longest_match data prev position prev_length max_hash_checks = none := by
  simp only [lmLimit] at hL
  simp only [longest_match, if_neg hg, if_neg hh, hL]

theorem lmExaminedTop_guard (data : List Nat) (prev : Nat → Nat)
    (position prev_length max_hash_checks : Nat)
    (hg : position = 0 ∨ MAX_MATCH ≤ prev_length ∨ data.length ≤ position + prev_length) :
    lmExaminedTop data prev position prev_length max_hash_checks = [] := by
  simp only [lmExaminedTop, if_pos hg]

theorem lmExaminedTop_chain_end (data : List Nat) (prev : Nat → Nat)
    (position prev_length max_hash_checks : Nat)
    (hg : ¬(position = 0 ∨ MAX_MATCH ≤ prev_length ∨ data.length ≤ position + prev_length))
    (hh : position ≤ prev position) :
    lmExaminedTop data prev position prev_length max_hash_checks = [] := by
  simp only [lmExaminedTop, if_neg hg, if_pos hh]

theorem lmExaminedTop_eq_main (data : List Nat) (prev : Nat → Nat)
    (position prev_length max_hash_checks : Nat)
    (hg : ¬(position = 0 ∨ MAX_MATCH ≤ prev_length ∨ data.length ≤ position + prev_length))
    (hh : ¬ position ≤ prev position) :
    lmExaminedTop data prev position prev_length max_hash_checks =
      lmExamined data prev position (lmLimit position)
        (min (data.length - position) MAX_MATCH) max_hash_checks
        (prev position) prev_length := by
  simp only [lmExaminedTop, lmLimit, if_neg hg, if_neg hh]

/-! ### Claims C5, C7, C8, C10 -/

/-- C5: `longest_match` terminates on every data slice, hash table (including
pathological tables whose prev links do not strictly decrease), position and
prev_length: the chain walk examines at most `max_hash_checks` chain entries,
the examined entries form a chain linked by `get_prev` along which positions
strictly decrease (the walker stops as soon as the next entry fails to
strictly decrease), and no entry below the window limit
`max(0, position - 32768)` is ever examined. -/
theorem longest_match_chain_walk_bounded (data : List Nat) (prev : Nat → Nat)
    (position prev_length max_hash_checks : Nat) :
    (lmExaminedTop data prev position prev_length max_hash_checks).length ≤ max_hash_checks ∧
    List.Chain' (fun a b => b = prev a ∧ b < a)
      (lmExaminedTop data prev position prev_length max_hash_checks) ∧
    (∀ h ∈ lmExaminedTop data prev position prev_length max_hash_checks,
      lmLimit position ≤ h) := by
  by_cases hg : position = 0 ∨ MAX_MATCH ≤ prev_length ∨ data.length ≤ position + prev_length
  · rw [lmExaminedTop_guard data prev position prev_length max_hash_checks hg]
    simp
  · by_cases hh : position ≤ prev position
    · rw [lmExaminedTop_chain_end data prev position prev_length max_hash_checks hg hh]
      simp
    · rw [lmExaminedTop_eq_main data prev position prev_length max_hash_checks hg hh]
      rcases lmExamined_struct data prev position (lmLimit position)
          (min (data.length - position) MAX_MATCH) max_hash_checks
          (prev position) prev_length with ⟨h1, _, h3, h4⟩
      exact ⟨h1, h3, fun h hm => (h4 h hm).1⟩

/-- Witness for C5 at a concrete input: the walk over `[7,9,9]` with the
table `prev n = n - 1` from position 2 examines one entry. -/
theorem longest_match_chain_walk_bounded_witness :
    (lmExaminedTop [7,9,9] (fun n => n - 1) 2 0 1).length ≤ 1 ∧
    List.Chain' (fun a b => b = (fun n => n - 1) a ∧ b < a)
      (lmExaminedTop [7,9,9] (fun n => n - 1) 2 0 1) ∧
    (∀ h ∈ lmExaminedTop [7,9,9] (fun n => n - 1) 2 0 1, lmLimit 2 ≤ h) :=
  longest_match_chain_walk_bounded [7,9,9] (fun n => n - 1) 2 0 1

/-- C7: `longest_match` never returns a pair whose distance component is 0
unless its length component is exactly 2 (the sentinel); equivalently,
whenever the returned length exceeds 2 the returned distance is at least 1. -/
theorem longest_match_sentinel_distance (data : List Nat) (prev : Nat → Nat)
    (position prev_length max_hash_checks l d : Nat)
    (hres : longest_match data prev position prev_length max_hash_checks = some (l, d)) :
    (d = 0 → l = 2) ∧ (2 < l → 1 ≤ d) := by
  by_cases hg : position = 0 ∨ MAX_MATCH ≤ prev_length ∨ data.length ≤ position + prev_length
  · rw [longest_match_guard data prev position prev_length max_hash_checks hg] at hres
    simp only [Option.some.injEq, Prod.mk.injEq] at hres
    omega
  · by_cases hh : position ≤ prev position
    · rw [longest_match_chain_end data prev position prev_length max_hash_checks hg hh] at hres
      simp only [Option.some.injEq, Prod.mk.injEq] at hres
      omega
    · rcases hL : lmLoop data prev position (lmLimit position)
          (min (data.length - position) MAX_MATCH) max_hash_checks
          (prev position) prev_length 0 with _ | ⟨bl, bd⟩
      · rw [longest_match_loop_none data prev position prev_length max_hash_checks hg hh hL]
          at hres
        cases hres
      · rw [longest_match_of_loop data prev position prev_length max_hash_checks bl bd
          hg hh hL] at hres
        rcases lmLoop_weak data prev position (lmLimit position)
            (min (data.length - position) MAX_MATCH) max_hash_checks
            (prev position) prev_length 0 bl bd (by omega) hL with ⟨h1, h2⟩ | ⟨h1, h2⟩
        · rw [if_neg (by omega)] at hres
          simp only [Option.some.injEq, Prod.mk.injEq] at hres
          omega
        · rw [if_pos h1] at hres
          simp only [Option.some.injEq, Prod.mk.injEq] at hres
          omega

/-- Witness for C7 at a concrete input: `longest_match` on `[65,65,65,65,65,65,65]`
from position 2 returns `(5, 1)`. -/
theorem longest_match_sentinel_distance_witness :
    ((1 : Nat) = 0 → (5 : Nat) = 2) ∧ ((2 : Nat) < 5 → (1 : Nat) ≤ 1) :=
  longest_match_sentinel_distance [65,65,65,65,65,65,65] (fun n => n - 1) 2 0 4096 5 1
    (by decide)

/-- C8: `get_match_length data p q` is the length of the longest common prefix
of `data[p..]` and `data[q..]` capped at 258, hence bounded by
`min(258, |data| - p, |data| - q)`. -/
theorem get_match_length_spec (data : List Nat) (p q : Nat)
    (_hp : p ≤ data.length) (_hq : q ≤ data.length) :
    get_match_length data p q = min (lcpLen (data.drop p) (data.drop q)) 258 ∧
    get_match_length data p q ≤ min 258 (min (data.length - p) (data.length - q)) := by
  have heq := get_match_length_eq data p q
  have h1 := lcpLen_le_left (data.drop p) (data.drop q)
  have h2 := lcpLen_le_right (data.drop p) (data.drop q)
  rw [List.length_drop] at h1 h2
  have hmm : MAX_MATCH = 258 := rfl
  constructor
  · rw [heq, hmm, Nat.min_comm]
  · omega

/-- Witness for C8 at a concrete input (the unit test vector of `matching.rs`). -/
theorem get_match_length_spec_witness :
    get_match_length [5,5,5,5,5,9,9,2,3,5,5,5,5,5] 9 0 =
      min (lcpLen (List.drop 9 [5,5,5,5,5,9,9,2,3,5,5,5,5,5])
          (List.drop 0 [5,5,5,5,5,9,9,2,3,5,5,5,5,5])) 258 ∧
    get_match_length [5,5,5,5,5,9,9,2,3,5,5,5,5,5] 9 0 ≤
      min 258 (min ((14 : Nat) - 9) ((14 : Nat) - 0)) :=
  get_match_length_spec [5,5,5,5,5,9,9,2,3,5,5,5,5,5] 9 0 (by decide) (by decide)

/-- C10 counterexample: the claim that every slice access of `longest_match`
is in bounds for every `prev_length` is false: with `prev_length = 0`,
`data = [0,0]`, `position = 1` and a table whose chain at 1 points to 0, the
pre-filter computes `current_head + best_length - 1 = 0 + 0 - 1`, which
underflows, so the function panics (modelled as `none`). -/
theorem longest_match_panic_counterexample :
    longest_match [0, 0] (fun _ => 0) 1 0 1 = none := by decide

/-- C10 (amended): whenever `prev_length ≥ 1`, every slice access performed by
`longest_match` is in bounds and the function is total and panic-free.
(The claim as stated, for arbitrary `prev_length`, fails at `prev_length = 0`:
see the counterexample.) -/
theorem longest_match_no_panic (data : List Nat) (prev : Nat → Nat)
    (position prev_length max_hash_checks : Nat) (hpl : 1 ≤ prev_length) :
    longest_match data prev position prev_length max_hash_checks ≠ none := by
  by_cases hg : position = 0 ∨ MAX_MATCH ≤ prev_length ∨ data.length ≤ position + prev_length
  · rw [longest_match_guard data prev position prev_length max_hash_checks hg]
    simp
  · by_cases hh : position ≤ prev position
    · rw [longest_match_chain_end data prev position prev_length max_hash_checks hg hh]
      simp
    · have hmm : MAX_MATCH = 258 := rfl
      rcases lmLoop_master data prev position (lmLimit position)
          (min (data.length - position) MAX_MATCH) rfl max_hash_checks
          (prev position) prev_length 0 (by omega) hpl (by omega) with
        ⟨bl, bd, hL, _⟩
      rw [longest_match_of_loop data prev position prev_length max_hash_checks bl bd
        hg hh hL]
      simp

/-- Witness for C10 (amended) at a concrete input. -/
theorem longest_match_no_panic_witness :
    longest_match [65,65,65,65,65,65,65] (fun n => n - 1) 2 1 4096 ≠ none :=
  longest_match_no_panic [65,65,65,65,65,65,65] (fun n => n - 1) 2 1 4096 (by decide)

/-! ### Claims C4 and C6 -/

/-- C4 counterexample: with `prev_length = 0` the claim fails.  On
`data = [7,9,9]`, table `prev n = n - 1`, `position = 2`, `max_checks = 1`,
the single examined chain entry 1 yields a match of length 1, which is
strictly longer than `prev_length = 0`, yet the function returns the sentinel
`(2, 0)`: no examined entry achieves the returned length 2 and the returned
distance 0 is not `position - h` for any examined `h` (the pre-filter compares
the bytes at offsets `best_length - 1 = -1+1..` — i.e. the byte *before* the
match start when `best_length = 0` — and so skips the candidate). -/
theorem longest_match_best_counterexample :
    longest_match [7,9,9] (fun n => n - 1) 2 0 1 = some (2, 0) ∧
    lmExaminedTop [7,9,9] (fun n => n - 1) 2 0 1 = [1] ∧
    0 < get_match_length [7,9,9] 2 1 ∧
    ¬ ∃ h ∈ lmExaminedTop [7,9,9] (fun n => n - 1) 2 0 1,
        get_match_length [7,9,9] 2 h = 2 ∧ (0 : Nat) = 2 - h := by decide

/-- C4 (amended): restricted to `prev_length ≥ 1` (the claim as stated fails
for `prev_length = 0`, see the counterexample).  `longest_match` returns
`(2, 0)` whenever `position = 0`, `prev_length ≥ 258`, or the hash chain at
`position` is empty (`get_prev(position) ≥ position`); in every other case,
whenever it returns `(l, d)`: if some examined chain entry yields a match
longer than `prev_length` then `l` exceeds `prev_length`, is achieved by an
examined entry at distance `d`, and bounds the match length of every examined
entry; and if no examined entry beats `prev_length` the result is `(2, 0)`. -/
theorem longest_match_best_of_examined (data : List Nat) (prev : Nat → Nat)
    (position prev_length max_hash_checks : Nat) (hpl : 1 ≤ prev_length) :
    ((position = 0 ∨ 258 ≤ prev_length ∨ position ≤ prev position) →
      longest_match data prev position prev_length max_hash_checks = some (2, 0)) ∧
    (∀ l d, longest_match data prev position prev_length max_hash_checks = some (l, d) →
      ((∃ h ∈ lmExaminedTop data prev position prev_length max_hash_checks,
          prev_length < get_match_length data position h) →
        prev_length < l ∧
        (∃ h ∈ lmExaminedTop data prev position prev_length max_hash_checks,
          get_match_length data position h = l ∧ d = position - h) ∧
        (∀ h ∈ lmExaminedTop data prev position prev_length max_hash_checks,
          get_match_length data position h ≤ l)) ∧
      ((∀ h ∈ lmExaminedTop data prev position prev_length max_hash_checks,
          get_match_length data position h ≤ prev_length) →
        (l, d) = (2, 0))) := by
  have hmm : MAX_MATCH = 258 := rfl
  constructor
  · intro hcase
    by_cases hg : position = 0 ∨ MAX_MATCH ≤ prev_length ∨
        data.length ≤ position + prev_length
    · exact longest_match_guard data prev position prev_length max_hash_checks hg
    · rcases hcase with h0 | h258 | hchain
      · exact absurd (Or.inl h0) hg
      · exact absurd (Or.inr (Or.inl (by omega))) hg
      · exact longest_match_chain_end data prev position prev_length max_hash_checks
          hg hchain
  · intro l d hres
    by_cases hg : position = 0 ∨ MAX_MATCH ≤ prev_length ∨
        data.length ≤ position + prev_length
    · rw [longest_match_guard data prev position prev_length max_hash_checks hg] at hres
      rw [lmExaminedTop_guard data prev position prev_length max_hash_checks hg]
      simp only [Option.some.injEq, Prod.mk.injEq] at hres
      constructor
      · intro hex
        rcases hex with ⟨h, hm, _⟩
        simp at hm
      · intro _
        simp [← hres.1, ← hres.2]
    · by_cases hh : position ≤ prev position
      · rw [longest_match_chain_end data prev position prev_length max_hash_checks hg hh]
          at hres
        rw [lmExaminedTop_chain_end data prev position prev_length max_hash_checks hg hh]
        simp only [Option.some.injEq, Prod.mk.injEq] at hres
        constructor
        · intro hex
          rcases hex with ⟨h, hm, _⟩
          simp at hm
        · intro _
          simp [← hres.1, ← hres.2]
      · rcases lmLoop_master data prev position (lmLimit position)
            (min (data.length - position) MAX_MATCH) rfl max_hash_checks
            (prev position) prev_length 0 (by omega) hpl (by omega) with
          ⟨bl, bd, hL, hble, hmemle, hmemgml, heqc, hltc⟩
        rw [longest_match_of_loop data prev position prev_length max_hash_checks bl bd
          hg hh hL] at hres
        rw [lmExaminedTop_eq_main data prev position prev_length max_hash_checks hg hh]
        constructor
        · intro hex
          rcases hex with ⟨h, hm, hgt⟩
          have hlt : prev_length < bl := by
            rcases Nat.lt_or_ge prev_length bl with h' | h'
            · exact h'
            · have := hmemgml h hm
              omega
          rw [if_pos hlt] at hres
          simp only [Option.some.injEq, Prod.mk.injEq] at hres
          rcases hltc hlt with ⟨hstar, hsmem, hgml, hbd, _⟩
          refine ⟨by omega, ⟨hstar, hsmem, by omega, by omega⟩, ?_⟩
          intro h2 hm2
          have := hmemgml h2 hm2
          omega
        · intro hall
          have hble2 : bl = prev_length := by
            rcases Nat.lt_or_ge prev_length bl with h' | h'
            · rcases hltc h' with ⟨hstar, hsmem, hgml, _, _⟩
              have := hall hstar hsmem
              omega
            · omega
          rw [if_neg (by omega)] at hres
          simp only [Option.some.injEq, Prod.mk.injEq] at hres
          have hbd0 : bd = 0 := heqc hble2
          simp [← hres.1, ← hres.2, hbd0]

/-- Witness for C4 (amended) at a concrete input. -/
theorem longest_match_best_of_examined_witness :
    (((2 : Nat) = 0 ∨ 258 ≤ 1 ∨ 2 ≤ (fun n => n - 1 : Nat → Nat) 2) →
      longest_match [65,65,65,65,65,65,65] (fun n => n - 1) 2 1 4096 = some (2, 0)) ∧
    (∀ l d, longest_match [65,65,65,65,65,65,65] (fun n => n - 1) 2 1 4096 = some (l, d) →
      ((∃ h ∈ lmExaminedTop [65,65,65,65,65,65,65] (fun n => n - 1) 2 1 4096,
          1 < get_match_length [65,65,65,65,65,65,65] 2 h) →
        1 < l ∧
        (∃ h ∈ lmExaminedTop [65,65,65,65,65,65,65] (fun n => n - 1) 2 1 4096,
          get_match_length [65,65,65,65,65,65,65] 2 h = l ∧ d = 2 - h) ∧
        (∀ h ∈ lmExaminedTop [65,65,65,65,65,65,65] (fun n => n - 1) 2 1 4096,
          get_match_length [65,65,65,65,65,65,65] 2 h ≤ l)) ∧
      ((∀ h ∈ lmExaminedTop [65,65,65,65,65,65,65] (fun n => n - 1) 2 1 4096,
          get_match_length [65,65,65,65,65,65,65] 2 h ≤ 1) →
        (l, d) = (2, 0))) :=
  longest_match_best_of_examined [65,65,65,65,65,65,65] (fun n => n - 1) 2 1 4096
    (by decide)

/-- C6 counterexample: with `prev_length = 0` the tie-break claim fails.  On
`data = [7,1,9,1,7,1]` with the chain `5 → 3 → 1`, both examined entries 3 and
1 yield matches of length 1 (the returned length), but the function returns
distance 4 (entry 1) instead of the minimum distance 2 (entry 3): the
pre-filter at `best_length = 0` compares the byte before the match start and
wrongly skips entry 3. -/
theorem longest_match_tie_counterexample :
    longest_match [7,1,9,1,7,1]
        (fun n => if n = 5 then 3 else if n = 3 then 1 else 0) 5 0 4096 = some (1, 4) ∧
    lmExaminedTop [7,1,9,1,7,1]
        (fun n => if n = 5 then 3 else if n = 3 then 1 else 0) 5 0 4096 = [3, 1] ∧
    get_match_length [7,1,9,1,7,1] 5 3 = 1 ∧
    get_match_length [7,1,9,1,7,1] 5 1 = 1 ∧
    ¬ (4 : Nat) ≤ 5 - 3 := by decide

/-- C6 (amended): restricted to `prev_length ≥ 1` and to results that are
actual matches (`d ≠ 0`, i.e. not the `(2, 0)` sentinel; the claim as stated
fails for `prev_length = 0`, see the counterexample).  The returned distance
is the minimum distance among examined window positions achieving the
returned length. -/
theorem longest_match_tie_smallest_distance (data : List Nat) (prev : Nat → Nat)
    (position prev_length max_hash_checks l d : Nat) (hpl : 1 ≤ prev_length)
    (hres : longest_match data prev position prev_length max_hash_checks = some (l, d))
    (hd : d ≠ 0) :
    prev_length < l ∧
    (∃ h ∈ lmExaminedTop data prev position prev_length max_hash_checks,
      get_match_length data position h = l ∧ d = position - h) ∧
    (∀ h ∈ lmExaminedTop data prev position prev_length max_hash_checks,
      get_match_length data position h = l → d ≤ position - h) := by
  have hmm : MAX_MATCH = 258 := rfl
  by_cases hg : position = 0 ∨ MAX_MATCH ≤ prev_length ∨
      data.length ≤ position + prev_length
  · rw [longest_match_guard data prev position prev_length max_hash_checks hg] at hres
    simp only [Option.some.injEq, Prod.mk.injEq] at hres
    omega
  · by_cases hh : position ≤ prev position
    · rw [longest_match_chain_end data prev position prev_length max_hash_checks hg hh]
        at hres
      simp only [Option.some.injEq, Prod.mk.injEq] at hres
      omega
    · rcases lmLoop_master data prev position (lmLimit position)
          (min (data.length - position) MAX_MATCH) rfl max_hash_checks
          (prev position) prev_length 0 (by omega) hpl (by omega) with
        ⟨bl, bd, hL, hble, hmemle, hmemgml, heqc, hltc⟩
      rw [longest_match_of_loop data prev position prev_length max_hash_checks bl bd
        hg hh hL] at hres
      rw [lmExaminedTop_eq_main data prev position prev_length max_hash_checks hg hh]
      have hlt : prev_length < bl := by
        rcases Nat.lt_or_ge prev_length bl with h' | h'
        · exact h'
        · have hble2 : bl = prev_length := by omega
          have hbd0 : bd = 0 := heqc hble2
          rw [if_neg (by omega)] at hres
          simp only [Option.some.injEq, Prod.mk.injEq] at hres
          omega
      rw [if_pos hlt] at hres
      simp only [Option.some.injEq, Prod.mk.injEq] at hres
      rcases hltc hlt with ⟨hstar, hsmem, hgml, hbd, hmin⟩
      refine ⟨by omega, ⟨hstar, hsmem, by omega, by omega⟩, ?_⟩
      intro h2 hm2 hgml2
      have hach : get_match_length data position h2 = bl := by omega
      have := hmin h2 hm2 hach
      have := hmemle h2 hm2
      omega

/-- Witness for C6 (amended): on all-equal data the single examined entry at
distance 1 achieves the returned length 5 and 1 is the minimal distance. -/
theorem longest_match_tie_smallest_distance_witness :
    (1 : Nat) < 5 ∧
    (∃ h ∈ lmExaminedTop [65,65,65,65,65,65,65] (fun n => n - 1) 2 1 4096,
      get_match_length [65,65,65,65,65,65,65] 2 h = 5 ∧ (1 : Nat) = 2 - h) ∧
    (∀ h ∈ lmExaminedTop [65,65,65,65,65,65,65] (fun n => n - 1) 2 1 4096,
      get_match_length [65,65,65,65,65,65,65] 2 h = 5 → (1 : Nat) ≤ 2 - h) :=
  longest_match_tie_smallest_distance [65,65,65,65,65,65,65] (fun n => n - 1) 2 1 4096
    5 1 (by decide) (by decide) (by decide)

/-! ### The zlib wrapper (claim C2) -/

/-- `zlib.rs::CompressionLevel` (source file absent).  Modelled from the spec:
§6 enumerates the encoder effort levels `{Fast, Default, Best}`. -/
inductive CompressionLevel
  | Fast
  | Default
  | Best
deriving DecidableEq

/-- Modelled from the spec: `zlib.rs` is absent from the sources.  §6: the
second zlib header byte is chosen from `{0x01, 0x5E, 0x9C, 0xDA}` to match
the encoder's effort level such that `(0x78 * 256 + byte1) mod 31 = 0`
(these are the FCHECK-completed FLG bytes for FLEVEL 0, 1, 2 and 3;
fastest = 0x01, default = 0x9C, best = 0xDA). -/
def zlibLevelByte : CompressionLevel → Nat
  | CompressionLevel.Fast => 0x01
  | CompressionLevel.Default => 0x9C
  | CompressionLevel.Best => 0xDA

/-- Modelled from the spec: `zlib::write_zlib_header` (source file absent).
§6: 2-byte header, byte0 = `0x78` (32K window, method 8), byte1 the level
byte; no preset dictionary bit. -/
def write_zlib_header (level : CompressionLevel) : List Nat :=
  [0x78, zlibLevelByte level]

/-- `lz77::MatchingType` (source file absent).  Spec §4.F: `{Greedy, Lazy}`. -/
inductive MatchingType
  | Greedy
  | Lazy
deriving DecidableEq

/-- `compression_options::CompressionOptions` (source file absent).  Modelled
from the spec, §6: a matching variant, `max_hash_checks` in 1..=4096 and a
lazy threshold in 0..=258. -/
structure CompressionOptions where
  matching_type : MatchingType
  max_hash_checks : Nat
  lazy_if_less_than : Nat
deriving DecidableEq

/-- Modelled from the spec: `compression_options.rs` is absent.  §6: each
effort level maps to a `(matching_variant, max_hash_checks, lazy_threshold)`
triple; the spec fixes only the ranges, and no claim depends on the exact
numbers chosen here. -/
def CompressionLevel.toOptions : CompressionLevel → CompressionOptions
  | CompressionLevel.Fast => ⟨MatchingType.Greedy, 1, 0⟩
  | CompressionLevel.Default => ⟨MatchingType.Lazy, 128, 32⟩
  | CompressionLevel.Best => ⟨MatchingType.Lazy, 4096, 258⟩

/-- One step of the adler-32 state update.  Modelled from the spec
(`checksum.rs` is absent), §4.B: `s1 = (s1 + b) mod 65521;
s2 = (s2 + s1) mod 65521`. -/
def adler32Step (p : Nat × Nat) (b : Nat) : Nat × Nat :=
  ((p.1 + b) % 65521, (p.2 + (p.1 + b) % 65521) % 65521)

/-- Modelled from the spec: adler-32 over a byte sequence (§4.B):
`s1 = 1, s2 = 0`, update per byte, `hash = (s2 << 16) | s1`. -/
def adler32 (input : List Nat) : Nat :=
  let s := input.foldl adler32Step (1, 0)
  s.2 * 65536 + s.1

/-- Big-endian byte serialization of a 32-bit value
(`byteorder::BigEndian::write_u32`). -/
def u32be (v : Nat) : List Nat :=
  [v / 16777216 % 256, v / 65536 % 256, v / 256 % 256, v % 256]

/-- `lib.rs::deflate_bytes_zlib_conf` (lines 149–164).  The output of the
compression core (`compress_data_dynamic_n`, whose source is absent) is
abstracted as a function `core` of the configuration and the input.  The
source writes the zlib header with `zlib::CompressionLevel::Default`
regardless of `options` (line 153), then the bare DEFLATE stream, then the
big-endian adler-32 of the uncompressed input (`compress_data_dynamic`
updates the checksum with the whole input slice, line 88, so the checksum
does not depend on `core`). -/
def deflate_bytes_zlib_conf (core : CompressionOptions → List Nat → List Nat)
    (options : CompressionOptions) (input : List Nat) : List Nat :=
  write_zlib_header CompressionLevel.Default ++ core options input ++ u32be (adler32 input)

/-- `lib.rs::deflate_bytes_zlib` (lines 181–183): the default-level wrapper. -/
def deflate_bytes_zlib (core : CompressionOptions → List Nat → List Nat)
    (input : List Nat) : List Nat :=
  deflate_bytes_zlib_conf core CompressionLevel.Default.toOptions input

/-- C2 counterexample: the claim that the second header byte matches the
encoder's effort level is false: at the configuration of effort level `Best`
the second output byte is `0x9C` (the `Default` level byte), not
`0xDA = zlibLevelByte Best`, because `lib.rs` line 153 passes
`CompressionLevel::Default` unconditionally — for any compression core. -/
theorem zlib_header_level_counterexample :
    (deflate_bytes_zlib_conf (fun _ _ => []) CompressionLevel.Best.toOptions []).get? 1
      = some 0x9C ∧
    zlibLevelByte CompressionLevel.Best = 0xDA ∧ (0x9C : Nat) ≠ 0xDA := by decide

/-- C2 (amended): for every configuration and input (and every compression
core), the output of `deflate_bytes_zlib_conf` is the 2-byte header
`0x78 0x9C` — byte1 is always `0x9C`, the `Default`-level byte, regardless of
the configured effort level — which is drawn from `{0x01, 0x5E, 0x9C, 0xDA}`
and satisfies `(byte0 * 256 + byte1) mod 31 = 0`; then the bare DEFLATE
stream; then the 4-byte big-endian adler-32 of the uncompressed input
(so for empty input the trailer is `00 00 00 01`). -/
theorem zlib_stream_structure (core : CompressionOptions → List Nat → List Nat)
    (options : CompressionOptions) (input : List Nat) :
    deflate_bytes_zlib_conf core options input =
      0x78 :: 0x9C :: (core options input ++ u32be (adler32 input)) ∧
    (0x78 * 256 + 0x9C) % 31 = 0 ∧
    0x9C ∈ [0x01, 0x5E, 0x9C, 0xDA] ∧
    u32be (adler32 []) = [0, 0, 0, 1] :=
  ⟨rfl, by decide, by decide, by decide⟩

/-! ### Dynamic-block header (claim C9): spec-modelled length encoding -/

/-- `huffman_table::NUM_LITERALS_AND_LENGTHS`. -/
def NUM_LITERALS_AND_LENGTHS : Nat := 286

/-- `huffman_table::NUM_DISTANCE_CODES`. -/
def NUM_DISTANCE_CODES : Nat := 30

/-- `length_encode::COPY_PREVIOUS` (meta symbol 16). -/
def COPY_PREVIOUS : Nat := 16

/-- `length_encode::REPEAT_ZERO_3_BITS` (meta symbol 17). -/
def REPEAT_ZERO_3_BITS : Nat := 17

/-- `length_encode::REPEAT_ZERO_7_BITS` (meta symbol 18). -/
def REPEAT_ZERO_7_BITS : Nat := 18

/-- `huffman_lengths.rs::HLIT_BITS`. -/
def HLIT_BITS : Nat := 5

/-- `huffman_lengths.rs::HDIST_BITS`. -/
def HDIST_BITS : Nat := 5

/-- `huffman_lengths.rs::HCLEN_BITS`. -/
def HCLEN_BITS : Nat := 4

/-- `huffman_lengths.rs::MAX_HUFFMAN_CODE_LENGTH`. -/
def MAX_HUFFMAN_CODE_LENGTH : Nat := 7

/-- `huffman_lengths.rs::HUFFMAN_LENGTH_ORDER` (lines 9–10): the fixed output
permutation of the meta code lengths. -/
def HUFFMAN_LENGTH_ORDER : List Nat :=
  [16, 17, 18, 0, 8, 7, 9, 6, 10, 5, 11, 4, 12, 3, 13, 2, 14, 1, 15]

/-- `length_encode::EncodedLength` (source file absent).  Modelled from the
spec, §4.I: a literal code length 0..=15, repeat-previous (16, 2 extra bits),
repeat-zero 3..=10 (17, 3 extra bits), repeat-zero 11..=138 (18, 7 extra bits). -/
inductive EncodedLength
  | Length (n : Nat)
  | CopyPrevious (n : Nat)
  | RepeatZero3Bits (n : Nat)
  | RepeatZero7Bits (n : Nat)
deriving DecidableEq

/-- The meta-alphabet symbol index of an encoded length. -/
def elSymbol : EncodedLength → Nat
  | EncodedLength.Length n => n
  | EncodedLength.CopyPrevious _ => COPY_PREVIOUS
  | EncodedLength.RepeatZero3Bits _ => REPEAT_ZERO_3_BITS
  | EncodedLength.RepeatZero7Bits _ => REPEAT_ZERO_7_BITS

/-- Split a list into maximal runs, as (value, run length) pairs. -/
def splitRuns : List Nat → List (Nat × Nat)
  | [] => []
  | a :: t =>
    match splitRuns t with
    | [] => [(a, 1)]
    | (b, k) :: rest => if a = b then (b, k + 1) :: rest else (a, 1) :: (b, k) :: rest

/-- Modelled from the spec (§4.I): encode a run of `r` zeros — one symbol 17
for 3..=10 zeros, one symbol 18 for 11..=138, greedy 138-sized chunks of
symbol 18 for longer runs, literal zeros below 3. -/
def emitZeroRun (r : Nat) : List EncodedLength :=
  if r < 3 then List.replicate r (EncodedLength.Length 0)
  else
    List.replicate (r / 138) (EncodedLength.RepeatZero7Bits 138) ++
      (if r % 138 = 0 then []
       else if r % 138 < 3 then List.replicate (r % 138) (EncodedLength.Length 0)
       else if r % 138 ≤ 10 then [EncodedLength.RepeatZero3Bits (r % 138)]
       else [EncodedLength.RepeatZero7Bits (r % 138)])

/-- Modelled from the spec (§4.I): encode a run of `r` copies of the nonzero
length `v` — the first occurrence as a literal, the remainder as greedy
symbol-16 chunks of 3..=6 repeats, trailing `< 3` leftovers as literals. -/
def emitNonzeroRun (v r : Nat) : List EncodedLength :=
  EncodedLength.Length v ::
    (List.replicate ((r - 1) / 6) (EncodedLength.CopyPrevious 6) ++
      (if 3 ≤ (r - 1) % 6 then [EncodedLength.CopyPrevious ((r - 1) % 6)]
       else List.replicate ((r - 1) % 6) (EncodedLength.Length v)))

/-- Encode one run per §4.I. -/
def encodeRun (p : Nat × Nat) : List EncodedLength :=
  if p.1 = 0 then emitZeroRun p.2 else emitNonzeroRun p.1 p.2

/-- Modelled from the spec: `length_encode::encode_lengths` (source file
absent), §4.I: run-length encode a code-length vector over the 19-symbol
meta-alphabet and accumulate the frequencies of the meta symbols. -/
def encode_lengths (l : List Nat) : List EncodedLength × List Nat :=
  let syms := (splitRuns l).flatMap encodeRun
  (syms, (List.range 19).map (fun s => syms.countP (fun e => elSymbol e = s)))

/-- Pair up adjacent packages (package step of package-merge). -/
def pairUp : List (Nat × List Nat) → List (Nat × List Nat)
  | a :: b :: t => (a.1 + b.1, a.2 ++ b.2) :: pairUp t
  | _ => []

/-- The iterated merge-and-package lists of the package-merge construction. -/
def pmLevels (base : List (Nat × List Nat)) : Nat → List (Nat × List Nat)
  | 0 => base
  | k + 1 => (base ++ pairUp (pmLevels base k)).mergeSort (fun a b => a.1 ≤ b.1)

/-- Modelled from the spec: `length_encode::huffman_lengths_from_frequency`
(source file absent), §4.H: length-limited Huffman code lengths from a
frequency vector via package-merge at limit `maxLen`; zero-frequency symbols
get length 0; fewer than two nonzero symbols are handled by forcing a code
of length 1.  The output vector has the same size as the input. -/
def huffman_lengths_from_frequency (freqs : List Nat) (maxLen : Nat) : List Nat :=
  match (List.range freqs.length).filter (fun i => freqs.getD i 0 ≠ 0) with
  | [] => List.replicate freqs.length 0
  | [i] => (List.range freqs.length).map (fun j => if j = i then 1 else 0)
  | i :: j :: t =>
    let items := i :: j :: t
    let base := (items.map (fun i2 => (freqs.getD i2 0, [i2]))).mergeSort
      (fun a b => a.1 ≤ b.1)
    let chosen := (pmLevels base (maxLen - 1)).take (2 * items.length - 2)
    (List.range freqs.length).map (fun s => chosen.countP (fun p => s ∈ p.2))

/-- Reverse the low `n` bits of `v` (§4.A: codes are stored bit-reversed). -/
def bitReverse : Nat → Nat → Nat
  | _, 0 => 0
  | v, n + 1 => v % 2 * 2 ^ n + bitReverse (v / 2) n

/-- A stored Huffman code: the (already bit-reversed) bit pattern and its
length (`huffman_table::HuffmanCode`, source file absent; §3). -/
structure HuffmanCode where
  code : Nat
  length : Nat
deriving DecidableEq

/-- Canonical code assignment walk (§4.H step 4): symbols in `(len, index)`
order; codes start at 0, increment per symbol, shift left on length increase.
This produces the raw (not yet bit-reversed) code values. -/
def canonCodes (lengths : List Nat) : List Nat → Nat → Nat → List Nat
  | [], _, _ => []
  | i :: rest, nextCode, prevLen =>
    let len := lengths.getD i 0
    let code := nextCode * 2 ^ (len - prevLen)
    code :: canonCodes lengths rest (code + 1) len

/-- The comparison used to sort assigned symbols: by code length, ties by
symbol index. -/
def symLE (lengths : List Nat) (a b : Nat) : Bool :=
  decide (lengths.getD a 0 < lengths.getD b 0 ∨
    (lengths.getD a 0 = lengths.getD b 0 ∧ a ≤ b))

/-- The assigned symbols of a length vector, in canonical `(len, index)`
order. -/
def sortedSyms (lengths : List Nat) : List Nat :=
  ((List.range lengths.length).filter (fun i => lengths.getD i 0 ≠ 0)).mergeSort
    (symLE lengths)

/-- Modelled from the spec: `huffman_table::create_codes` (source file
absent), §4.H step 4: canonical codes from a length vector (symbols with
length 0 get the empty code); each code is stored bit-reversed. -/
def create_codes (lengths : List Nat) : List HuffmanCode :=
  let syms := sortedSyms lengths
  let assigned := syms.zip (canonCodes lengths syms 0 0)
  (List.range lengths.length).map
    (fun i =>
      match assigned.lookup i with
      | some c => { code := bitReverse c (lengths.getD i 0), length := lengths.getD i 0 }
      | none => { code := 0, length := 0 })

/-- The emission loop of `huffman_lengths.rs::write_huffman_lengths`
(lines 69–102): write the code for each encoded length, with the extra bits
for the repeat symbols; the `assert!(n >= 3)` / `assert!(n >= 11)` panics and
a panicking out-of-bounds `codes[...]` index are modelled as `none`. -/
def writeLengthCodes (codes : List HuffmanCode) : List EncodedLength → Option (List (Nat × Nat))
  | [] => some []
  | EncodedLength.Length n :: rest =>
    match codes[n]?, writeLengthCodes codes rest with
    | some c, some ws => some ((c.code, c.length) :: ws)
    | _, _ => none
  | EncodedLength.CopyPrevious n :: rest =>
    match codes[COPY_PREVIOUS]?, writeLengthCodes codes rest with
    | some c, some ws =>
      if 3 ≤ n then some ((c.code, c.length) :: (n - 3, 2) :: ws) else none
    | _, _ => none
  | EncodedLength.RepeatZero3Bits n :: rest =>
    match codes[REPEAT_ZERO_3_BITS]?, writeLengthCodes codes rest with
    | some c, some ws =>
      if 3 ≤ n then some ((c.code, c.length) :: (n - 3, 3) :: ws) else none
    | _, _ => none
  | EncodedLength.RepeatZero7Bits n :: rest =>
    match codes[REPEAT_ZERO_7_BITS]?, writeLengthCodes codes rest with
    | some c, some ws =>
      if 11 ≤ n then some ((c.code, c.length) :: (n - 11, 7) :: ws) else none
    | _, _ => none

/-- The meta-length emission loop of `write_huffman_lengths` (lines 58–63):
3 bits per length, in the fixed permutation; a panicking out-of-bounds index
is modelled as `none`. -/
def writePermutedLengths (htl : List Nat) : Option (List (Nat × Nat)) :=
  if ∀ n ∈ HUFFMAN_LENGTH_ORDER, n < htl.length then
    some (HUFFMAN_LENGTH_ORDER.map (fun n => (htl.getD n 0, 3)))
  else none

/-- The merged meta-symbol frequencies of `write_huffman_lengths`
(lines 41–44): elementwise sum of the two 19-entry frequency tables. -/
def mergedFreqs (ll dl : List Nat) : List Nat :=
  ((encode_lengths ll).2.zip (encode_lengths dl).2).map (fun p => p.1 + p.2)

/-- The meta code-length vector of `write_huffman_lengths` (lines 46–47). -/
def metaLengths (ll dl : List Nat) : List Nat :=
  huffman_lengths_from_frequency (mergedFreqs ll dl) MAX_HUFFMAN_CODE_LENGTH

/-- `huffman_lengths.rs::write_huffman_lengths` (lines 20–103), modelled as
the ordered list of `(value, bit width)` writes performed on the bit writer
(`bitstream.rs` is absent from the sources; only the sequence of
`write_bits` calls matters for the header-structure claim).  The `assert!`
failures, the `usize` underflows of `len() - 257` / `len() - 1` /
`len() - 4`, and out-of-bounds indexing are modelled as `none`. -/
def write_huffman_lengths (literal_len_lengths distance_lenghts : List Nat) :
    Option (List (Nat × Nat)) :=
  if literal_len_lengths.length ≤ NUM_LITERALS_AND_LENGTHS ∧
      distance_lenghts.length ≤ NUM_DISTANCE_CODES then
    match rSub literal_len_lengths.length 257, rSub distance_lenghts.length 1 with
    | some hlit, some hdist =>
      match rSub (metaLengths literal_len_lengths distance_lenghts).length 4 with
      | some hclen =>
        match writePermutedLengths (metaLengths literal_len_lengths distance_lenghts),
            writeLengthCodes
              (create_codes (metaLengths literal_len_lengths distance_lenghts))
              ((encode_lengths literal_len_lengths).1 ++
               (encode_lengths distance_lenghts).1) with
        | some permWrites, some encWrites =>
          some ((hlit, HLIT_BITS) :: (hdist, HDIST_BITS) :: (hclen, HCLEN_BITS) ::
            (permWrites ++ encWrites))
        | _, _ => none
      | none => none
    | _, _ => none
  else none

/-- The conditions under which the emission loop of `write_huffman_lengths`
cannot panic on an encoded length: literal symbols are valid code lengths
(≤ 15 < 19) and the repeat symbols carry the minimum counts their `assert!`s
require. -/
def elOK : EncodedLength → Prop
  | EncodedLength.Length n => n ≤ 15
  | EncodedLength.CopyPrevious n => 3 ≤ n
  | EncodedLength.RepeatZero3Bits n => 3 ≤ n
  | EncodedLength.RepeatZero7Bits n => 11 ≤ n

theorem splitRuns_val_mem : ∀ (l : List Nat) (p : Nat × Nat), p ∈ splitRuns l → p.1 ∈ l := by
  intro l
  induction l with
  | nil => intro p hp; simp [splitRuns] at hp
  | cons a t ih =>
    intro p hp
    simp only [splitRuns] at hp
    rcases hsr : splitRuns t with _ | ⟨⟨b, k⟩, rest⟩
    · rw [hsr] at hp
      simp at hp
      simp [hp]
    · rw [hsr] at hp
      have hp2 : p ∈ (if a = b then (b, k + 1) :: rest else (a, 1) :: (b, k) :: rest) := hp
      by_cases hab : a = b
      · rw [if_pos hab] at hp2
        rcases List.mem_cons.mp hp2 with rfl | hp'
        · simp [hab]
        · have : p ∈ splitRuns t := by rw [hsr]; exact List.mem_cons_of_mem _ hp'
          exact List.mem_cons_of_mem a (ih p this)
      · rw [if_neg hab] at hp2
        rcases List.mem_cons.mp hp2 with rfl | hp'
        · simp
        · have : p ∈ splitRuns t := by rw [hsr]; exact hp'
          exact List.mem_cons_of_mem a (ih p this)

theorem emitZeroRun_elOK (r : Nat) : ∀ e ∈ emitZeroRun r, elOK e := by
  intro e he
  unfold emitZeroRun at he
  by_cases h3 : r < 3
  · rw [if_pos h3] at he
    rw [List.eq_of_mem_replicate he]
    simp [elOK]
  · rw [if_neg h3] at he
    rcases List.mem_append.mp he with h | h
    · rw [List.eq_of_mem_replicate h]
      simp [elOK]
    · by_cases h0 : r % 138 = 0
      · rw [if_pos h0] at h; simp at h
      · rw [if_neg h0] at h
        by_cases hlt : r % 138 < 3
        · rw [if_pos hlt] at h
          rw [List.eq_of_mem_replicate h]
          simp [elOK]
        · rw [if_neg hlt] at h
          by_cases hle : r % 138 ≤ 10
          · rw [if_pos hle] at h
            rw [List.mem_singleton] at h
            subst h
            simp [elOK]
            omega
          · rw [if_neg hle] at h
            rw [List.mem_singleton] at h
            subst h
            simp [elOK]
            omega

theorem emitNonzeroRun_elOK (v r : Nat) (hv : v ≤ 15) :
    ∀ e ∈ emitNonzeroRun v r, elOK e := by
  intro e he
  unfold emitNonzeroRun at he
  rcases List.mem_cons.mp he with rfl | he'
  · simpa [elOK] using hv
  · rcases List.mem_append.mp he' with h | h
    · rw [List.eq_of_mem_replicate h]
      simp [elOK]
    · by_cases hge : 3 ≤ (r - 1) % 6
      · rw [if_pos hge] at h
        rw [List.mem_singleton] at h
        subst h
        simpa [elOK] using hge
      · rw [if_neg hge] at h
        rw [List.eq_of_mem_replicate h]
        simpa [elOK] using hv

theorem encode_lengths_elOK (l : List Nat) (hl : ∀ v ∈ l, v ≤ 15) :
    ∀ e ∈ (encode_lengths l).1, elOK e := by
  intro e he
  simp only [encode_lengths] at he
  rcases List.mem_flatMap.mp he with ⟨p, hp, hep⟩
  have hv : p.1 ≤ 15 := hl p.1 (splitRuns_val_mem l p hp)
  unfold encodeRun at hep
  by_cases h0 : p.1 = 0
  · rw [if_pos h0] at hep
    exact emitZeroRun_elOK p.2 e hep
  · rw [if_neg h0] at hep
    exact emitNonzeroRun_elOK p.1 p.2 hv e hep

theorem encode_lengths_freq_length (l : List Nat) :
    ((encode_lengths l).2).length = 19 := by
  simp [encode_lengths]

theorem hlff_length (freqs : List Nat) (maxLen : Nat) :
    (huffman_lengths_from_frequency freqs maxLen).length = freqs.length := by
  unfold huffman_lengths_from_frequency
  rcases hi : (List.range freqs.length).filter (fun i => freqs.getD i 0 ≠ 0) with
    _ | ⟨i, _ | ⟨j, t⟩⟩ <;> simp

theorem mergedFreqs_length (ll dl : List Nat) : (mergedFreqs ll dl).length = 19 := by
  simp [mergedFreqs, encode_lengths_freq_length]

theorem metaLengths_length (ll dl : List Nat) : (metaLengths ll dl).length = 19 := by
  rw [metaLengths, hlff_length, mergedFreqs_length]

theorem create_codes_length (lengths : List Nat) :
    (create_codes lengths).length = lengths.length := by
  simp [create_codes]

theorem writeLengthCodes_isSome (codes : List HuffmanCode) (hc : 19 ≤ codes.length) :
    ∀ syms : List EncodedLength, (∀ e ∈ syms, elOK e) →
      ∃ ws, writeLengthCodes codes syms = some ws := by
  intro syms
  induction syms with
  | nil => intro _; exact ⟨[], rfl⟩
  | cons e rest ih =>
    intro hOK
    rcases ih (fun x hx => hOK x (List.mem_cons_of_mem e hx)) with ⟨ws, hws⟩
    have hOKe := hOK e (List.mem_cons_self e rest)
    have hget : ∀ n : Nat, n < 19 → ∃ c, codes[n]? = some c := by
      intro n hn
      rcases hg : codes[n]? with _ | c
      · have := List.getElem?_eq_none_iff.mp hg
        omega
      · exact ⟨c, rfl⟩
    cases e with
    | Length n =>
      have hn : n ≤ 15 := hOKe
      rcases hget n (by omega) with ⟨c, hcg⟩
      exact ⟨(c.code, c.length) :: ws, by simp [writeLengthCodes, hcg, hws]⟩
    | CopyPrevious n =>
      have hn : 3 ≤ n := hOKe
      rcases hget COPY_PREVIOUS (by simp [COPY_PREVIOUS]) with ⟨c, hcg⟩
      exact ⟨(c.code, c.length) :: (n - 3, 2) :: ws,
        by simp [writeLengthCodes, hcg, hws, if_pos hn]⟩
    | RepeatZero3Bits n =>
      have hn : 3 ≤ n := hOKe
      rcases hget REPEAT_ZERO_3_BITS (by simp [REPEAT_ZERO_3_BITS]) with ⟨c, hcg⟩
      exact ⟨(c.code, c.length) :: (n - 3, 3) :: ws,
        by simp [writeLengthCodes, hcg, hws, if_pos hn]⟩
    | RepeatZero7Bits n =>
      have hn : 11 ≤ n := hOKe
      rcases hget REPEAT_ZERO_7_BITS (by simp [REPEAT_ZERO_7_BITS]) with ⟨c, hcg⟩
      exact ⟨(c.code, c.length) :: (n - 11, 7) :: ws,
        by simp [writeLengthCodes, hcg, hws, if_pos hn]⟩

theorem writePermutedLengths_eq (htl : List Nat) (hlen : htl.length = 19) :
    writePermutedLengths htl =
      some (HUFFMAN_LENGTH_ORDER.map (fun n => (htl.getD n 0, 3))) := by
  unfold writePermutedLengths
  rw [if_pos]
  rw [hlen]
  decide

/-- C9: for every literal/length code-length vector of size 257..=286 and
distance code-length vector of size 1..=30 (their entries being DEFLATE code
lengths, i.e. at most 15), `write_huffman_lengths` emits, in order:
HLIT = (number of literal/length lengths) - 257 in 5 bits,
HDIST = (number of distance lengths) - 1 in 5 bits,
HCLEN = (number of meta code lengths) - 4 in 4 bits, then exactly HCLEN + 4
meta code lengths of 3 bits each in the fixed permutation
`[16,17,18,0,8,7,9,6,10,5,11,4,12,3,13,2,14,1,15]`, before emitting the
encoded length sequence. -/
theorem write_huffman_lengths_header (ll dl : List Nat)
    (h1 : 257 ≤ ll.length) (h2 : ll.length ≤ 286)
    (h3 : 1 ≤ dl.length) (h4 : dl.length ≤ 30)
    (h5 : ∀ v ∈ ll, v ≤ 15) (h6 : ∀ v ∈ dl, v ≤ 15) :
    ∃ rest,
      write_huffman_lengths ll dl =
        some ((ll.length - 257, 5) :: (dl.length - 1, 5) ::
          ((metaLengths ll dl).length - 4, 4) ::
          (HUFFMAN_LENGTH_ORDER.map (fun n => ((metaLengths ll dl).getD n 0, 3)) ++ rest)) ∧
      (metaLengths ll dl).length - 4 + 4 = HUFFMAN_LENGTH_ORDER.length ∧
      (metaLengths ll dl).length = 19 := by
  have hml := metaLengths_length ll dl
  have e1 : rSub ll.length 257 = some (ll.length - 257) := by
    unfold rSub
    rw [if_pos h1]
  have e2 : rSub dl.length 1 = some (dl.length - 1) := by
    unfold rSub
    rw [if_pos h3]
  have e3 : rSub (metaLengths ll dl).length 4 =
      some ((metaLengths ll dl).length - 4) := by
    unfold rSub
    rw [if_pos (by omega)]
  have e4 := writePermutedLengths_eq (metaLengths ll dl) hml
  have hcodes : 19 ≤ (create_codes (metaLengths ll dl)).length := by
    rw [create_codes_length]
    omega
  have hOK : ∀ e ∈ (encode_lengths ll).1 ++ (encode_lengths dl).1, elOK e := by
    intro e he
    rcases List.mem_append.mp he with h | h
    · exact encode_lengths_elOK ll h5 e h
    · exact encode_lengths_elOK dl h6 e h
  rcases writeLengthCodes_isSome (create_codes (metaLengths ll dl)) hcodes
    ((encode_lengths ll).1 ++ (encode_lengths dl).1) hOK with ⟨ws, hws⟩
  refine ⟨ws, ?_, by rw [hml]; decide, hml⟩
  unfold write_huffman_lengths
  rw [if_pos (⟨by have : NUM_LITERALS_AND_LENGTHS = 286 := rfl; omega,
    by have : NUM_DISTANCE_CODES = 30 := rfl; omega⟩ :
      ll.length ≤ NUM_LITERALS_AND_LENGTHS ∧ dl.length ≤ NUM_DISTANCE_CODES)]
  rw [e1, e2, e3]
  simp only [e4, hws]
  rfl

/-- Witness for C9 at a concrete input: 257 literal/length code lengths of
value 8 and one distance code length 5. -/
theorem write_huffman_lengths_header_witness :
    ∃ rest,
      write_huffman_lengths (List.replicate 257 8) [5] =
        some (((List.replicate 257 8).length - 257, 5) :: (([5] : List Nat).length - 1, 5) ::
          ((metaLengths (List.replicate 257 8) [5]).length - 4, 4) ::
          (HUFFMAN_LENGTH_ORDER.map
            (fun n => ((metaLengths (List.replicate 257 8) [5]).getD n 0, 3)) ++ rest)) ∧
      (metaLengths (List.replicate 257 8) [5]).length - 4 + 4 = HUFFMAN_LENGTH_ORDER.length ∧
      (metaLengths (List.replicate 257 8) [5]).length = 19 :=
  write_huffman_lengths_header (List.replicate 257 8) [5]
    (by rw [List.length_replicate]) (by rw [List.length_replicate]; decide)
    (by decide) (by decide)
    (by intro v hv; rw [List.eq_of_mem_replicate hv]; decide)
    (by intro v hv; rw [List.mem_singleton] at hv; rw [hv]; decide)

/-! ### Streaming encoder and chunking invariance (claim C3) -/

/-- Modelled from the spec: `input_buffer::BUFFER_SIZE` (source file absent),
§4.D: the input buffer holds up to `2 * WINDOW_SIZE` bytes; when it would
overflow, the compressor consumes it (§4.K). -/
def BUFFER_SIZE : Nat := 2 * WINDOW_SIZE

/-- Modelled from the spec: the state of a streaming `ZlibEncoder`
(`writer.rs` / `deflate_state.rs` are absent from the sources; §4.K): the
bytes already consumed by the compressor (its window context), the buffered
bytes not yet compressed, and the bits emitted so far.  Output is kept as
bits because DEFLATE blocks are not byte-aligned; zero-padding to a byte
boundary happens only on finish (§4.A). -/
structure EncState where
  history : List Nat
  buffered : List Nat
  out : List Bool
deriving DecidableEq

/-- Modelled from the spec (§4.K): while a full buffer's worth of input is
pending, hand one `BUFFER_SIZE` block to the per-block compressor `blockC`
(abstracting the LZ77 driver, Huffman coder and block writer, whose sources
are absent), which receives the configuration, the already-compressed
history (its window context) and the block; append the produced bits.
`fuel ≥ st.buffered.length` lets the pass run to completion. -/
def drain (blockC : CompressionOptions → List Nat → List Nat → List Bool)
    (opts : CompressionOptions) : Nat → EncState → EncState
  | 0, st => st
  | fuel + 1, st =>
    if BUFFER_SIZE ≤ st.buffered.length then
      drain blockC opts fuel
        { history := st.history ++ st.buffered.take BUFFER_SIZE,
          buffered := st.buffered.drop BUFFER_SIZE,
          out := st.out ++ blockC opts st.history (st.buffered.take BUFFER_SIZE) }
    else st

/-- `ZlibEncoder::write` (modelled from the spec, §4.K): append the chunk to
the input buffer, then compress any full blocks. -/
def encWrite (blockC : CompressionOptions → List Nat → List Nat → List Bool)
    (opts : CompressionOptions) (st : EncState) (chunk : List Nat) : EncState :=
  drain blockC opts (st.buffered.length + chunk.length)
    { st with buffered := st.buffered ++ chunk }

/-- A fresh encoder state. -/
def encInit : EncState := ⟨[], [], []⟩

/-- The value of a (LSB-first) bit sequence, as packed by the bit writer. -/
def byteVal (bits : List Bool) : Nat :=
  bits.foldr (fun b acc => (if b then 1 else 0) + 2 * acc) 0

/-- Pack a bit stream into bytes LSB-first, zero-padding the last partial
byte (§4.A). -/
def bitsToBytes : List Bool → List Nat
  | [] => []
  | b0 :: b1 :: b2 :: b3 :: b4 :: b5 :: b6 :: b7 :: rest =>
    byteVal [b0, b1, b2, b3, b4, b5, b6, b7] :: bitsToBytes rest
  | rest => [byteVal rest]

/-- The bare DEFLATE stream produced on a whole input by the modelled
encoder: drain all full blocks, compress the remainder with the final-block
compressor `finalC`, pack to bytes.  This is the compression core induced by
the abstract per-block compressors, used as the `core` of
`deflate_bytes_zlib_conf` for the single-shot call. -/
def coreOfBlocks (blockC finalC : CompressionOptions → List Nat → List Nat → List Bool)
    (opts : CompressionOptions) (input : List Nat) : List Nat :=
  let st := encWrite blockC opts encInit input
  bitsToBytes (st.out ++ finalC opts st.history st.buffered)

/-- `ZlibEncoder::finish` (modelled from the spec, §4.K / §6): compress the
remaining buffered bytes as the final block, zero-pad to a byte boundary, and
emit the header, the stream and the big-endian adler-32 over all bytes
written. -/
def zlibFinish (finalC : CompressionOptions → List Nat → List Nat → List Bool)
    (opts : CompressionOptions) (st : EncState) : List Nat :=
  write_zlib_header CompressionLevel.Default ++
    bitsToBytes (st.out ++ finalC opts st.history st.buffered) ++
    u32be (adler32 (st.history ++ st.buffered))

/-- Write a sequence of chunks to a fresh `ZlibEncoder`, then `finish`. -/
def zlibEncodeChunks (blockC finalC : CompressionOptions → List Nat → List Nat → List Bool)
    (opts : CompressionOptions) (chunks : List (List Nat)) : List Nat :=
  zlibFinish finalC opts (chunks.foldl (encWrite blockC opts) encInit)

/-- The canonical encoder state after consuming total input `t`: the
block-aligned prefix is compressed (one block per `BUFFER_SIZE` bytes, each
seeing the input before it as history), the remainder is buffered. -/
def stateOf (blockC : CompressionOptions → List Nat → List Nat → List Bool)
    (opts : CompressionOptions) (t : List Nat) : EncState :=
  { history := t.take (BUFFER_SIZE * (t.length / BUFFER_SIZE)),
    buffered := t.drop (BUFFER_SIZE * (t.length / BUFFER_SIZE)),
    out := (List.range (t.length / BUFFER_SIZE)).flatMap
      (fun i => blockC opts (t.take (BUFFER_SIZE * i))
        ((t.drop (BUFFER_SIZE * i)).take BUFFER_SIZE)) }

theorem flatMap_congr {α β : Type} (l : List α) (f g : α → List β)
    (h : ∀ x ∈ l, f x = g x) : l.flatMap f = l.flatMap g := by
  induction l with
  | nil => rfl
  | cons a t ih =>
    simp only [List.flatMap_cons]
    rw [h a (List.mem_cons_self a t), ih (fun x hx => h x (List.mem_cons_of_mem a hx))]

theorem drain_eq_stateOf (blockC : CompressionOptions → List Nat → List Nat → List Bool)
    (opts : CompressionOptions) :
    ∀ (fuel : Nat) (a r : List Nat) (w : List Bool), r.length ≤ fuel →
      drain blockC opts fuel { history := a, buffered := r, out := w } =
        { history := a ++ r.take (BUFFER_SIZE * (r.length / BUFFER_SIZE)),
          buffered := r.drop (BUFFER_SIZE * (r.length / BUFFER_SIZE)),
          out := w ++ (List.range (r.length / BUFFER_SIZE)).flatMap
            (fun i => blockC opts (a ++ r.take (BUFFER_SIZE * i))
              ((r.drop (BUFFER_SIZE * i)).take BUFFER_SIZE)) } := by
  intro fuel
  induction fuel with
  | zero =>
    intro a r w hle
    have hr : r = [] := List.eq_nil_of_length_eq_zero (by omega)
    subst hr
    simp [drain]
  | succ fuel ih =>
    intro a r w hle
    have hB : (0 : Nat) < BUFFER_SIZE := by decide
    by_cases hfull : BUFFER_SIZE ≤ r.length
    · have hdiv : r.length / BUFFER_SIZE = (r.length - BUFFER_SIZE) / BUFFER_SIZE + 1 :=
        Nat.div_eq_sub_div hB hfull
      have hdroplen : (r.drop BUFFER_SIZE).length = r.length - BUFFER_SIZE := by
        simp
      simp only [drain, if_pos hfull]
      rw [ih (a ++ r.take BUFFER_SIZE) (r.drop BUFFER_SIZE)
        (w ++ blockC opts a (r.take BUFFER_SIZE)) (by omega)]
      rw [hdroplen, hdiv]
      have hmul : ∀ j : Nat, BUFFER_SIZE * (j + 1) = BUFFER_SIZE + BUFFER_SIZE * j := by
        intro j
        ring
      simp only [EncState.mk.injEq]
      refine ⟨?_, ?_, ?_⟩
      · rw [hmul, List.take_add r BUFFER_SIZE, List.append_assoc]
      · rw [List.drop_drop, hmul, Nat.add_comm]
      · rw [List.range_succ_eq_map, List.flatMap_cons]
        simp only [Nat.mul_zero, List.take_zero, List.drop_zero, List.append_nil]
        rw [List.append_assoc]
        congr 1
        congr 1
        rw [List.flatMap_map]
        apply flatMap_congr
        intro i _
        rw [Nat.succ_eq_add_one, hmul, List.take_add r BUFFER_SIZE, List.append_assoc,
          List.drop_drop]
    · have hdiv : r.length / BUFFER_SIZE = 0 := Nat.div_eq_of_lt (by omega)
      simp only [drain, if_neg hfull]
      rw [hdiv]
      simp

theorem encWrite_stateOf (blockC : CompressionOptions → List Nat → List Nat → List Bool)
    (opts : CompressionOptions) (t c : List Nat) :
    encWrite blockC opts (stateOf blockC opts t) c = stateOf blockC opts (t ++ c) := by
  have hB : (0 : Nat) < BUFFER_SIZE := by decide
  have hle : BUFFER_SIZE * (t.length / BUFFER_SIZE) ≤ t.length := by
    rw [Nat.mul_comm]
    exact Nat.div_mul_le_self t.length BUFFER_SIZE
  have hmulmem : ∀ i : Nat, i < t.length / BUFFER_SIZE →
      BUFFER_SIZE * i + BUFFER_SIZE ≤ t.length := by
    intro i hi
    have h1 : BUFFER_SIZE * (i + 1) ≤ BUFFER_SIZE * (t.length / BUFFER_SIZE) :=
      Nat.mul_le_mul_left BUFFER_SIZE (by omega)
    have h2 : BUFFER_SIZE * i + BUFFER_SIZE = BUFFER_SIZE * (i + 1) := by ring
    omega
  unfold encWrite
  have hst : ({ stateOf blockC opts t with
      buffered := (stateOf blockC opts t).buffered ++ c } : EncState) =
      { history := t.take (BUFFER_SIZE * (t.length / BUFFER_SIZE)),
        buffered := t.drop (BUFFER_SIZE * (t.length / BUFFER_SIZE)) ++ c,
        out := (List.range (t.length / BUFFER_SIZE)).flatMap
          (fun i => blockC opts (t.take (BUFFER_SIZE * i))
            ((t.drop (BUFFER_SIZE * i)).take BUFFER_SIZE)) } := rfl
  rw [hst]
  rw [drain_eq_stateOf blockC opts _ _ _ _ (by simp [stateOf])]
  unfold stateOf
  simp only [EncState.mk.injEq]
  set A := t.take (BUFFER_SIZE * (t.length / BUFFER_SIZE)) with hA
  set b := t.drop (BUFFER_SIZE * (t.length / BUFFER_SIZE)) with hbdef
  have hAlen : A.length = BUFFER_SIZE * (t.length / BUFFER_SIZE) := by
    rw [hA, List.length_take, Nat.min_eq_left hle]
  have hAb : A ++ b = t := by
    rw [hA, hbdef]
    exact List.take_append_drop _ t
  have hblen : b.length = t.length - BUFFER_SIZE * (t.length / BUFFER_SIZE) := by
    rw [hbdef]
    exact List.length_drop _ _
  have htc : t ++ c = A ++ (b ++ c) := by
    rw [← List.append_assoc, hAb]
  have hq : (t ++ c).length / BUFFER_SIZE =
      t.length / BUFFER_SIZE + (b ++ c).length / BUFFER_SIZE := by
    have hsplit : (t ++ c).length =
        (b ++ c).length + BUFFER_SIZE * (t.length / BUFFER_SIZE) := by
      rw [List.length_append, List.length_append, hblen]
      omega
    rw [hsplit, Nat.add_mul_div_left _ _ hB, Nat.add_comm]
  refine ⟨?_, ?_, ?_⟩
  · rw [hq, htc, Nat.mul_add, ← hAlen, List.take_append]
  · rw [hq, htc, Nat.mul_add, ← hAlen, List.drop_append]
  · rw [hq, List.range_add, List.flatMap_append, List.flatMap_map]
    congr 1
    · apply flatMap_congr
      intro i hi
      have hilt := List.mem_range.mp hi
      have hfit := hmulmem i hilt
      have hile : BUFFER_SIZE * i ≤ t.length := by omega
      rw [List.take_append_of_le_length hile,
        List.drop_append_of_le_length hile,
        List.take_append_of_le_length (by rw [List.length_drop]; omega)]
    · apply flatMap_congr
      intro j _
      rw [htc, Nat.mul_add, ← hAlen, List.take_append, List.drop_append]

theorem stateOf_nil (blockC : CompressionOptions → List Nat → List Nat → List Bool)
    (opts : CompressionOptions) : stateOf blockC opts [] = encInit := by
  simp [stateOf, encInit]

theorem foldl_encWrite_stateOf (blockC : CompressionOptions → List Nat → List Nat → List Bool)
    (opts : CompressionOptions) :
    ∀ (chunks : List (List Nat)) (t : List Nat),
      chunks.foldl (encWrite blockC opts) (stateOf blockC opts t) =
        stateOf blockC opts (t ++ chunks.flatten) := by
  intro chunks
  induction chunks with
  | nil => intro t; simp
  | cons c cs ih =>
    intro t
    simp only [List.foldl_cons, List.flatten_cons]
    rw [encWrite_stateOf, ih, List.append_assoc]

/-- C3: for every configuration, every per-block compression behavior
(abstracting the LZ77/Huffman core, whose sources are absent) and every
partition of the input into chunks, writing the chunks sequentially to a
`ZlibEncoder` and then calling finish yields output byte-identical to the
single-shot `deflate_bytes_zlib_conf` on the concatenated input at the same
configuration. -/
theorem zlib_chunking_invariance
    (blockC finalC : CompressionOptions → List Nat → List Nat → List Bool)
    (opts : CompressionOptions) (chunks : List (List Nat)) :
    zlibEncodeChunks blockC finalC opts chunks =
      deflate_bytes_zlib_conf (coreOfBlocks blockC finalC) opts chunks.flatten := by
  have h1 : ∀ input : List Nat, encWrite blockC opts encInit input =
      stateOf blockC opts input := by
    intro input
    rw [← stateOf_nil blockC opts, encWrite_stateOf]
    simp
  have h2 : chunks.foldl (encWrite blockC opts) encInit =
      stateOf blockC opts chunks.flatten := by
    rw [← stateOf_nil blockC opts, foldl_encWrite_stateOf]
    simp
  have h3 : (stateOf blockC opts chunks.flatten).history ++
      (stateOf blockC opts chunks.flatten).buffered = chunks.flatten := by
    simp [stateOf]
  unfold zlibEncodeChunks zlibFinish deflate_bytes_zlib_conf coreOfBlocks
  rw [h2, h1, h3]

/-! ### Bit-level infrastructure for the DEFLATE stream (claim C1)

The compression core (`compress.rs`, `lz77.rs`, `encoder_state.rs`,
`bitstream.rs`, `huffman_table.rs`) is absent from the sources; it is
modelled from the spec below, and a conformant DEFLATE decoder is defined to
state the round-trip property. -/

/-- The low `n` bits of `v`, least significant first (§4.A: the bit writer
packs bits LSB-first; a `write_bits(v, n)` call contributes exactly these
bits). -/
def natBitsLSB : Nat → Nat → List Bool
  | _, 0 => []
  | v, n + 1 => (v % 2 = 1) :: natBitsLSB (v / 2) n

/-- The bit stream of a sequence of `write_bits` events. -/
def writeEvents (ws : List (Nat × Nat)) : List Bool :=
  ws.flatMap (fun w => natBitsLSB w.1 w.2)

/-- Read `n` bits LSB-first. -/
def readBits : Nat → List Bool → Option (Nat × List Bool)
  | 0, bits => some (0, bits)
  | _ + 1, [] => none
  | n + 1, b :: rest =>
    match readBits n rest with
    | some (v, rem) => some ((if b then 1 else 0) + 2 * v, rem)
    | none => none

theorem natBitsLSB_length (n : Nat) : ∀ v : Nat, (natBitsLSB v n).length = n := by
  induction n with
  | zero => intro v; rfl
  | succ m ih => intro v; simp [natBitsLSB, ih]

theorem readBits_natBitsLSB (n : Nat) :
    ∀ (v : Nat) (rest : List Bool),
      readBits n (natBitsLSB v n ++ rest) = some (v % 2 ^ n, rest) := by
  induction n with
  | zero => intro v rest; simp [natBitsLSB, readBits, Nat.mod_one]
  | succ m ih =>
    intro v rest
    simp only [natBitsLSB, List.cons_append, readBits, ih (v / 2) rest]
    have hv : v % 2 ^ (m + 1) = v % 2 + 2 * (v / 2 % 2 ^ m) := by
      rw [Nat.pow_succ, Nat.mul_comm (2 ^ m) 2]
      exact Nat.mod_mul
    rw [hv]
    rcases Nat.mod_two_eq_zero_or_one v with h | h <;> rw [h] <;>
      simp only [List.append_eq] <;> rw [ih (v / 2) rest] <;> simp

/-- The bit stream of a byte stream, LSB-first within each byte. -/
def bytesToBits (bytes : List Nat) : List Bool :=
  bytes.flatMap (fun b => natBitsLSB b 8)

theorem natBitsLSB_zero (n : Nat) : natBitsLSB 0 n = List.replicate n false := by
  induction n with
  | zero => rfl
  | succ m ih => simp [natBitsLSB, ih, List.replicate]

theorem bytesToBits_length (bytes : List Nat) :
    (bytesToBits bytes).length = 8 * bytes.length := by
  induction bytes with
  | nil => rfl
  | cons a t ih =>
    unfold bytesToBits at *
    simp only [List.flatMap_cons, List.length_append, natBitsLSB_length, ih, List.length_cons]
    omega

theorem natBitsLSB_byteVal : ∀ (bits : List Bool) (n : Nat), bits.length ≤ n →
    natBitsLSB (byteVal bits) n = bits ++ List.replicate (n - bits.length) false := by
  intro bits
  induction bits with
  | nil =>
    intro n _
    simp [byteVal, natBitsLSB_zero]
  | cons b t ih =>
    intro n hn
    cases n with
    | zero => simp at hn
    | succ m =>
      have hb : byteVal (b :: t) = (if b then 1 else 0) + 2 * byteVal t := by
        simp [byteVal]
      have hmod : byteVal (b :: t) % 2 = (if b then 1 else 0) := by
        rw [hb]
        cases b <;> simp [Nat.mul_add_mod]
      have hdiv : byteVal (b :: t) / 2 = byteVal t := by
        rw [hb]
        cases b
        · simp
        · simp
          omega
      simp only [natBitsLSB, hmod, hdiv]
      rw [ih m (by simpa using hn)]
      cases b <;> simp [List.replicate]

theorem bytesToBits_bitsToBytes : ∀ bs : List Bool,
    ∃ pad : List Bool, bytesToBits (bitsToBytes bs) = bs ++ pad := by
  intro bs
  induction bs using bitsToBytes.induct with
  | case1 =>
    exact ⟨[], rfl⟩
  | case2 b0 b1 b2 b3 b4 b5 b6 b7 rest ih =>
    rcases ih with ⟨pad, hpad⟩
    refine ⟨pad, ?_⟩
    simp only [bytesToBits] at hpad
    simp only [bitsToBytes, bytesToBits, List.flatMap_cons]
    rw [hpad]
    rw [natBitsLSB_byteVal [b0, b1, b2, b3, b4, b5, b6, b7] 8 (by simp)]
    simp
  | case3 rest h1 h2 =>
    refine ⟨List.replicate (8 - rest.length) false, ?_⟩
    have hlen : rest.length ≤ 8 := by
      rcases rest with _ | ⟨a0, _ | ⟨a1, _ | ⟨a2, _ | ⟨a3, _ | ⟨a4, _ | ⟨a5, _ | ⟨a6, _ | ⟨a7, t⟩⟩⟩⟩⟩⟩⟩⟩
      · simp
      · simp
      · simp
      · simp
      · simp
      · simp
      · simp
      · simp
      · exact absurd rfl (by intro h; exact h2 a0 a1 a2 a3 a4 a5 a6 a7 t h)
    simp only [bitsToBytes, bytesToBits, List.flatMap_cons, List.flatMap_nil]
    rw [natBitsLSB_byteVal rest 8 hlen]
    simp

theorem bitReverse_lt : ∀ (n v : Nat), bitReverse v n < 2 ^ n := by
  intro n
  induction n with
  | zero => intro v; simp [bitReverse]
  | succ m ih =>
    intro v
    have h1 := ih (v / 2)
    have h2 : v % 2 ≤ 1 := by omega
    have h3 : (2 : Nat) ^ (m + 1) = 2 ^ m + 2 ^ m := by
      rw [Nat.pow_succ]
      ring
    simp only [bitReverse]
    have h4 : v % 2 * 2 ^ m ≤ 1 * 2 ^ m := Nat.mul_le_mul_right (2 ^ m) h2
    omega

theorem natBitsLSB_mul_pow_add : ∀ (n a r : Nat), a ≤ 1 → r < 2 ^ n →
    natBitsLSB (a * 2 ^ n + r) (n + 1) = natBitsLSB r n ++ [decide (a = 1)] := by
  intro n
  induction n with
  | zero =>
    intro a r _ hr
    have hr0 : r = 0 := by omega
    subst hr0
    simp only [natBitsLSB, Nat.pow_zero, Nat.mul_one, Nat.add_zero]
    interval_cases a <;> simp
  | succ m ih =>
    intro a r ha hr
    have hpw : (2 : Nat) ^ (m + 1) = 2 * 2 ^ m := by
      rw [Nat.pow_succ]
      ring
    have hrw : a * 2 ^ (m + 1) = 2 * (a * 2 ^ m) := by
      rw [hpw]
      ring
    have hmod : (a * 2 ^ (m + 1) + r) % 2 = r % 2 := by
      rw [hrw]
      omega
    have hdiv : (a * 2 ^ (m + 1) + r) / 2 = a * 2 ^ m + r / 2 := by
      rw [hrw]
      omega
    have hr2 : r / 2 < 2 ^ m := by
      rw [hpw] at hr
      omega
    rw [show natBitsLSB (a * 2 ^ (m + 1) + r) (m + 1 + 1) =
      decide ((a * 2 ^ (m + 1) + r) % 2 = 1) ::
        natBitsLSB ((a * 2 ^ (m + 1) + r) / 2) (m + 1) from rfl]
    rw [hmod, hdiv, ih a (r / 2) ha hr2]
    rfl

theorem natBitsLSB_bitReverse : ∀ (n v : Nat),
    natBitsLSB (bitReverse v n) n = (natBitsLSB v n).reverse := by
  intro n
  induction n with
  | zero => intro v; rfl
  | succ m ih =>
    intro v
    simp only [bitReverse]
    rw [natBitsLSB_mul_pow_add m (v % 2) (bitReverse (v / 2) m) (by omega)
      (bitReverse_lt m (v / 2))]
    rw [ih (v / 2)]
    simp [natBitsLSB]

theorem natBitsLSB_inj (n v w : Nat) (hv : v < 2 ^ n) (hw : w < 2 ^ n)
    (h : natBitsLSB v n = natBitsLSB w n) : v = w := by
  have h1 := readBits_natBitsLSB n v []
  have h2 := readBits_natBitsLSB n w []
  rw [h] at h1
  rw [h1] at h2
  simp only [Option.some.injEq, Prod.mk.injEq] at h2
  rw [Nat.mod_eq_of_lt hv, Nat.mod_eq_of_lt hw] at h2
  exact h2.1

theorem bitReverse_inj (n v w : Nat) (hv : v < 2 ^ n) (hw : w < 2 ^ n)
    (h : bitReverse v n = bitReverse w n) : v = w := by
  apply natBitsLSB_inj n v w hv hw
  have h1 := natBitsLSB_bitReverse n v
  have h2 := natBitsLSB_bitReverse n w
  rw [h] at h1
  rw [h1] at h2
  exact List.reverse_injective h2

/-! ### Length and distance code tables (§3: fixed by the format) -/

/-- The DEFLATE length-code table for codes 257..=284 as (extra bits, base);
code 285 stands alone for length 258. -/
def LENGTH_TABLE : List (Nat × Nat) :=
  [(0,3),(0,4),(0,5),(0,6),(0,7),(0,8),(0,9),(0,10),
   (1,11),(1,13),(1,15),(1,17),(2,19),(2,23),(2,27),(2,31),
   (3,35),(3,43),(3,51),(3,59),(4,67),(4,83),(4,99),(4,115),
   (5,131),(5,163),(5,195),(5,227)]

/-- The DEFLATE distance-code table for codes 0..=29 as (extra bits, base). -/
def DISTANCE_TABLE : List (Nat × Nat) :=
  [(0,1),(0,2),(0,3),(0,4),(1,5),(1,7),(2,9),(2,13),(3,17),(3,25),
   (4,33),(4,49),(5,65),(5,97),(6,129),(6,193),(7,257),(7,385),(8,513),(8,769),
   (9,1025),(9,1537),(10,2049),(10,3073),(11,4097),(11,6145),(12,8193),(12,12289),
   (13,16385),(13,24577)]

/-- Find the table entry whose range `[base, base + 2^extra)` contains `v`;
returns `(code index, extra bits, extra value)`. -/
def tblFind : List (Nat × Nat) → Nat → Nat → Option (Nat × Nat × Nat)
  | [], _, _ => none
  | (e, b) :: rest, idx, v =>
    if v < b + 2 ^ e then (if b ≤ v then some (idx, e, v - b) else none)
    else tblFind rest (idx + 1) v

/-- The bases of a code table are contiguous starting at `nb`. -/
def chained : Nat → List (Nat × Nat) → Prop
  | _, [] => True
  | nb, (e, b) :: rest => b = nb ∧ chained (b + 2 ^ e) rest

instance chained_decidable : ∀ (nb : Nat) (tbl : List (Nat × Nat)), Decidable (chained nb tbl)
  | _, [] => isTrue trivial
  | nb, (e, b) :: rest =>
    match chained_decidable (b + 2 ^ e) rest with
    | isTrue h => if hb : b = nb then isTrue ⟨hb, h⟩ else isFalse (fun hc => hb hc.1)
    | isFalse h => isFalse (fun hc => h hc.2)

/-- One past the largest value covered by a chained table. -/
def endOf : Nat → List (Nat × Nat) → Nat
  | nb, [] => nb
  | _, (e, b) :: rest => endOf (b + 2 ^ e) rest

theorem tblFind_spec : ∀ (tbl : List (Nat × Nat)) (nb idx v : Nat),
    chained nb tbl → nb ≤ v → v < endOf nb tbl →
    ∃ i e b, tblFind tbl idx v = some (idx + i, e, v - b) ∧
      tbl.getD i (0, 0) = (e, b) ∧ i < tbl.length ∧ b ≤ v ∧ v - b < 2 ^ e := by
  intro tbl
  induction tbl with
  | nil =>
    intro nb idx v _ h1 h2
    simp [endOf] at h2
    omega
  | cons hd rest ih =>
    intro nb idx v hch hlo hhi
    rcases hd with ⟨e, b⟩
    rcases hch with ⟨hb, hch'⟩
    subst hb
    by_cases hin : v < b + 2 ^ e
    · refine ⟨0, e, b, ?_, rfl, by simp, hlo, by omega⟩
      simp [tblFind, hin, hlo]
    · have hrec := ih (b + 2 ^ e) (idx + 1) v hch' (by omega) hhi
      rcases hrec with ⟨i, e2, b2, hfind, hget, hlt, hble, hev⟩
      refine ⟨i + 1, e2, b2, ?_, ?_, by simpa using hlt, hble, hev⟩
      · simp only [tblFind, if_neg hin]
        rw [show idx + (i + 1) = idx + 1 + i from by omega]
        exact hfind
      · simpa using hget

theorem getElem?_eq_some_getD {α : Type} (l : List α) (d : α) (i : Nat)
    (h : i < l.length) : l[i]? = some (l.getD i d) := by
  rw [List.getD_eq_getElem?_getD, List.getElem?_eq_getElem h]
  rfl

/-- Map a match length 3..=258 to (length symbol, extra bit count, extra
value) (§3). -/
def lengthToSym (l : Nat) : Option (Nat × Nat × Nat) :=
  if l = 258 then some (285, 0, 0)
  else
    match tblFind LENGTH_TABLE 0 l with
    | some (i, e, ev) => some (257 + i, e, ev)
    | none => none

/-- Map a match distance 1..=32768 to (distance code, extra bit count, extra
value) (§3). -/
def distToSym (d : Nat) : Option (Nat × Nat × Nat) := tblFind DISTANCE_TABLE 0 d

/-- Decoder-side (extra bits, base) of a length symbol 257..=285. -/
def lenSymInfo (s : Nat) : Option (Nat × Nat) :=
  if s = 285 then some (0, 258)
  else if 257 ≤ s then LENGTH_TABLE[s - 257]? else none

/-- Decoder-side (extra bits, base) of a distance code 0..=29. -/
def distSymInfo (s : Nat) : Option (Nat × Nat) := DISTANCE_TABLE[s]?

theorem lengthToSym_spec (l : Nat) (h3 : 3 ≤ l) (h258 : l ≤ 258) :
    ∃ s e b ev, lengthToSym l = some (s, e, ev) ∧ lenSymInfo s = some (e, b) ∧
      b + ev = l ∧ ev < 2 ^ e ∧ 257 ≤ s ∧ s ≤ 285 := by
  by_cases h : l = 258
  · subst h
    exact ⟨285, 0, 258, 0, rfl, rfl, rfl, by omega, by omega, by omega⟩
  · have hch : chained 3 LENGTH_TABLE := by decide
    have hend : endOf 3 LENGTH_TABLE = 259 := rfl
    rcases tblFind_spec LENGTH_TABLE 3 0 l hch h3 (by omega) with
      ⟨i, e, b, hfind, hget, hlen, hble, hev⟩
    have hlen28 : LENGTH_TABLE.length = 28 := rfl
    refine ⟨257 + i, e, b, l - b, ?_, ?_, by omega, hev, by omega, by omega⟩
    · unfold lengthToSym
      rw [if_neg h, hfind]
      simp
    · unfold lenSymInfo
      rw [if_neg (by omega), if_pos (by omega)]
      rw [show 257 + i - 257 = i from by omega]
      rw [getElem?_eq_some_getD LENGTH_TABLE (0, 0) i (by omega), hget]

theorem distToSym_spec (d : Nat) (h1 : 1 ≤ d) (h2 : d ≤ 32768) :
    ∃ s e b ev, distToSym d = some (s, e, ev) ∧ distSymInfo s = some (e, b) ∧
      b + ev = d ∧ ev < 2 ^ e ∧ s ≤ 29 := by
  have hch : chained 1 DISTANCE_TABLE := by decide
  have hend : endOf 1 DISTANCE_TABLE = 32769 := rfl
  rcases tblFind_spec DISTANCE_TABLE 1 0 d hch h1 (by omega) with
    ⟨i, e, b, hfind, hget, hlen, hble, hev⟩
  have hlen30 : DISTANCE_TABLE.length = 30 := rfl
  refine ⟨i, e, b, d - b, ?_, ?_, by omega, hev, by omega⟩
  · unfold distToSym
    rw [hfind]
    rw [show (0 : Nat) + i = i from by omega]
  · unfold distSymInfo
    rw [getElem?_eq_some_getD DISTANCE_TABLE (0, 0) i (by omega), hget]

/-! ### LZ77 stage (modelled from the spec, §4.C / §4.F) -/

/-- An LZ77 output symbol: a literal byte or a (length, distance)
back-reference (§3). -/
inductive LZSym
  | Literal (b : Nat)
  | MatchSym (len dist : Nat)
deriving DecidableEq

/-- Modelled from the spec: the chained hash table (`chained_hash_table.rs`
is absent from the sources), §4.C, represented by its two observation maps;
positions are kept absolute (the window limit is enforced by
`longest_match`, and the spec's slide is a memory optimisation that does not
change the observations the matcher uses). -/
structure ChainedHashTable where
  head : Nat → Nat
  prevA : Nat → Nat

/-- Modelled from the spec (§3): a hash of a 3-byte prefix; the only
requirement is that identical 3-byte prefixes produce the same bucket. -/
def hash3 (a b c : Nat) : Nat := (a * 65536 + b * 256 + c) % 32768

/-- `add(position, hash)` (§4.C): link the position into its bucket chain. -/
def add_hash_value (t : ChainedHashTable) (p h : Nat) : ChainedHashTable :=
  { head := fun x => if x = h then p else t.head x,
    prevA := fun x => if x = p then t.head h else t.prevA x }

/-- Insert position `p` when at least 3 bytes of input remain there (§4.C). -/
def insertHash (data : List Nat) (t : ChainedHashTable) (p : Nat) : ChainedHashTable :=
  if p + 2 < data.length then
    add_hash_value t p (hash3 (data.getD p 0) (data.getD (p + 1) 0) (data.getD (p + 2) 0))
  else t

/-- Insert `cnt` consecutive positions starting at `start` (§4.F step 3:
skipped positions are hashed along the way). -/
def insertHashes (data : List Nat) (t : ChainedHashTable) (start cnt : Nat) :
    ChainedHashTable :=
  (List.range cnt).foldl (fun tb i => insertHash data tb (start + i)) t

/-- Modelled from the spec (§4.F): the hash-check budget shrinks once the
pending match reaches the lazy threshold. -/
def budget (opts : CompressionOptions) (prevLen : Nat) : Nat :=
  if prevLen < opts.lazy_if_less_than then opts.max_hash_checks
  else opts.max_hash_checks / 4

/-- Modelled from the spec: the lazy-matching LZ77 driver (§4.F).  State:
position, pending match `(prevLen, prevDist)` (initially `(2, 0)`; a pending
match exists iff `prevLen ≥ 3` and then refers to the previous position),
accumulated symbols.  Each iteration advances the position, so
`data.length + 1` fuel runs the driver to completion. -/
def lz77Lazy (data : List Nat) (opts : CompressionOptions) :
    Nat → ChainedHashTable → Nat → Nat → Nat → List LZSym → List LZSym
  | 0, _, _, _, _, acc => acc
  | fuel + 1, table, p, prevLen, prevDist, acc =>
    if data.length ≤ p then acc
    else
      let table1 := insertHash data table p
      match longest_match data table1.prevA p prevLen (budget opts prevLen) with
      | none => acc
      | some (curLen, curDist) =>
        if 3 ≤ prevLen ∧ curLen ≤ prevLen then
          lz77Lazy data opts fuel
            (insertHashes data table1 (p + 1) (prevLen - 2))
            (p + prevLen - 1) 2 0
            (acc ++ [LZSym.MatchSym prevLen prevDist])
        else if 3 ≤ curLen then
          if 3 ≤ prevLen then
            lz77Lazy data opts fuel table1 (p + 1) curLen curDist
              (acc ++ [LZSym.Literal (data.getD (p - 1) 0)])
          else
            lz77Lazy data opts fuel table1 (p + 1) curLen curDist acc
        else
          lz77Lazy data opts fuel table1 (p + 1) 2 0
            (acc ++ [LZSym.Literal (data.getD p 0)])

/-- Modelled from the spec: the greedy LZ77 driver (§4.F, `Greedy` variant:
no lazy hold; a useful match is emitted at once). -/
def lz77Greedy (data : List Nat) (opts : CompressionOptions) :
    Nat → ChainedHashTable → Nat → List LZSym → List LZSym
  | 0, _, _, acc => acc
  | fuel + 1, table, p, acc =>
    if data.length ≤ p then acc
    else
      let table1 := insertHash data table p
      match longest_match data table1.prevA p 2 opts.max_hash_checks with
      | none => acc
      | some (curLen, curDist) =>
        if 3 ≤ curLen then
          lz77Greedy data opts fuel (insertHashes data table1 (p + 1) (curLen - 1))
            (p + curLen) (acc ++ [LZSym.MatchSym curLen curDist])
        else
          lz77Greedy data opts fuel table1 (p + 1) (acc ++ [LZSym.Literal (data.getD p 0)])

/-- A fresh hash table (all chains empty: every entry at the 0 sentinel). -/
def emptyTable : ChainedHashTable := ⟨fun _ => 0, fun _ => 0⟩

/-- Modelled from the spec: `lz77::lz77_compress` (source file absent),
§4.F: run the configured matching variant over the whole input. -/
def lz77_compress (data : List Nat) (opts : CompressionOptions) : List LZSym :=
  match opts.matching_type with
  | MatchingType.Greedy => lz77Greedy data opts (data.length + 1) emptyTable 0 []
  | MatchingType.Lazy => lz77Lazy data opts (data.length + 1) emptyTable 0 2 0 []

/-- Copy `l` bytes from distance `d` back, byte by byte (overlap allowed) —
what a conformant decoder does for a back-reference. -/
def copyMatch (d : Nat) : Nat → List Nat → List Nat
  | 0, out => out
  | k + 1, out => copyMatch d k (out ++ [out.getD (out.length - d) 0])

/-- Resolve an LZ77 symbol stream against the output produced so far —
the LZ77 half of a conformant decoder. -/
def resolveSyms : List LZSym → List Nat → List Nat
  | [], out => out
  | LZSym.Literal b :: rest, out => resolveSyms rest (out ++ [b])
  | LZSym.MatchSym l d :: rest, out => resolveSyms rest (copyMatch d l out)

/-- The number of input bytes an LZ77 symbol covers. -/
def symBytes : LZSym → Nat
  | LZSym.Literal _ => 1
  | LZSym.MatchSym l _ => l

/-- Well-formedness of an emitted symbol: literals are bytes, matches are in
the DEFLATE ranges. -/
def symOK : LZSym → Prop
  | LZSym.Literal b => b < 256
  | LZSym.MatchSym l d => 3 ≤ l ∧ l ≤ 258 ∧ 1 ≤ d ∧ d ≤ 32768

theorem longest_match_total (data : List Nat) (prev : Nat → Nat)
    (position prev_length max_hash_checks : Nat) (hpl : 1 ≤ prev_length) :
    ∃ r, longest_match data prev position prev_length max_hash_checks = some r := by
  by_cases hg : position = 0 ∨ MAX_MATCH ≤ prev_length ∨ data.length ≤ position + prev_length
  · exact ⟨(2, 0), longest_match_guard data prev position prev_length max_hash_checks hg⟩
  · by_cases hh : position ≤ prev position
    · exact ⟨(2, 0), longest_match_chain_end data prev position prev_length max_hash_checks hg hh⟩
    · have hmm : MAX_MATCH = 258 := rfl
      rcases lmLoop_master data prev position (lmLimit position)
          (min (data.length - position) MAX_MATCH) rfl max_hash_checks
          (prev position) prev_length 0 (by omega) hpl (by omega) with
        ⟨bl, bd, hL, _⟩
      exact ⟨(if prev_length < bl then bl else 2, bd),
        longest_match_of_loop data prev position prev_length max_hash_checks bl bd hg hh hL⟩

theorem longest_match_valid (data : List Nat) (prev : Nat → Nat)
    (position prev_length max_hash_checks l d : Nat) (hpl : 1 ≤ prev_length)
    (hres : longest_match data prev position prev_length max_hash_checks = some (l, d))
    (hl : 3 ≤ l) :
    1 ≤ d ∧ d ≤ position ∧ d ≤ 32768 ∧ l ≤ 258 ∧ position + l ≤ data.length ∧
      (data.drop position).take l = (data.drop (position - d)).take l := by
  have hmm : MAX_MATCH = 258 := rfl
  have hW : WINDOW_SIZE = 32768 := rfl
  by_cases hg : position = 0 ∨ MAX_MATCH ≤ prev_length ∨ data.length ≤ position + prev_length
  · rw [longest_match_guard data prev position prev_length max_hash_checks hg] at hres
    simp only [Option.some.injEq, Prod.mk.injEq] at hres
    omega
  · by_cases hh : position ≤ prev position
    · rw [longest_match_chain_end data prev position prev_length max_hash_checks hg hh] at hres
      simp only [Option.some.injEq, Prod.mk.injEq] at hres
      omega
    · rcases lmLoop_master data prev position (lmLimit position)
          (min (data.length - position) MAX_MATCH) rfl max_hash_checks
          (prev position) prev_length 0 (by omega) hpl (by omega) with
        ⟨bl, bd, hL, hble, hmemle, hmemgml, heqc, hltc⟩
      rw [longest_match_of_loop data prev position prev_length max_hash_checks bl bd
        hg hh hL] at hres
      by_cases hlt : prev_length < bl
      · rw [if_pos hlt] at hres
        simp only [Option.some.injEq, Prod.mk.injEq] at hres
        rcases hltc hlt with ⟨h, hmem, hgml, hbd, _⟩
        have hhp : h ≤ prev position := hmemle h hmem
        rcases lmExamined_struct data prev position (lmLimit position)
            (min (data.length - position) MAX_MATCH) max_hash_checks
            (prev position) prev_length with ⟨_, _, _, hmem4⟩
        have hlim : lmLimit position ≤ h := (hmem4 h hmem).1
        have hgeq := get_match_length_eq data position h
        have hlcp1 := lcpLen_le_left (data.drop position) (data.drop h)
        rw [List.length_drop] at hlcp1
        have hLdef : lmLimit position =
            if WINDOW_SIZE < position then position - WINDOW_SIZE else 0 := rfl
        have hdW : d ≤ 32768 := by
          by_cases hwp : WINDOW_SIZE < position
          · rw [hLdef, if_pos hwp] at hlim
            omega
          · omega
        refine ⟨by omega, by omega, hdW, by omega, by omega, ?_⟩
        have hlcp : l ≤ lcpLen (data.drop position) (data.drop h) := by omega
        have := lcpLen_take_eq l (data.drop position) (data.drop h) hlcp
        rw [show position - d = h from by omega]
        exact this
      · rw [if_neg hlt] at hres
        simp only [Option.some.injEq, Prod.mk.injEq] at hres
        omega

theorem resolveSyms_append (a b : List LZSym) :
    ∀ out, resolveSyms (a ++ b) out = resolveSyms b (resolveSyms a out) := by
  induction a with
  | nil => intro out; rfl
  | cons s t ih =>
    intro out
    cases s <;> simp only [List.cons_append, resolveSyms] <;> exact ih _

theorem take_succ_getD (data : List Nat) (q : Nat) (hq : q < data.length) :
    data.take (q + 1) = data.take q ++ [data.getD q 0] := by
  rw [List.take_succ]
  congr 1
  rw [List.getElem?_eq_getElem hq]
  simp [List.getD_eq_getElem?_getD, List.getElem?_eq_getElem hq]

theorem copyMatch_take (data : List Nat) :
    ∀ (l q d : Nat), 1 ≤ d → d ≤ q → q + l ≤ data.length →
      (data.drop q).take l = (data.drop (q - d)).take l →
      copyMatch d l (data.take q) = data.take (q + l) := by
  intro l
  induction l with
  | zero => intro q d _ _ _ _; simp [copyMatch]
  | succ k ih =>
    intro q d hd hdq hql hagree
    have hqlen : q < data.length := by omega
    have hqdlen : q - d < data.length := by omega
    have hlen_take : (data.take q).length = q := by
      rw [List.length_take]
      omega
    have hgetD : (data.take q).getD (q - d) 0 = data.getD (q - d) 0 := by
      rw [List.getD_eq_getElem?_getD, List.getD_eq_getElem?_getD]
      rw [List.getElem?_take, if_pos (show q - d < q by omega)]
    have hdropq : data.drop q = data.getD q 0 :: data.drop (q + 1) := by
      rw [List.drop_eq_getElem_cons hqlen]
      congr 1
      rw [List.getD_eq_getElem?_getD, List.getElem?_eq_getElem hqlen]
      rfl
    have hdropqd : data.drop (q - d) = data.getD (q - d) 0 :: data.drop (q - d + 1) := by
      rw [List.drop_eq_getElem_cons hqdlen]
      congr 1
      rw [List.getD_eq_getElem?_getD, List.getElem?_eq_getElem hqdlen]
      rfl
    rw [hdropq, hdropqd] at hagree
    simp only [List.take_succ_cons, List.cons.injEq] at hagree
    rcases hagree with ⟨hhead, htail⟩
    simp only [copyMatch]
    rw [hlen_take, hgetD, ← hhead]
    rw [← take_succ_getD data q hqlen]
    rw [ih (q + 1) d hd (by omega) (by omega) (by rw [show q + 1 - d = q - d + 1 from by omega]; exact htail)]
    congr 1
    omega

theorem getD_mem_of_lt (data : List Nat) (i : Nat) (h : i < data.length) :
    data.getD i 0 ∈ data := by
  rw [List.getD_eq_getElem?_getD, List.getElem?_eq_getElem h]
  exact List.getElem_mem h

theorem lz77Lazy_spec (data : List Nat) (opts : CompressionOptions)
    (hbytes : ∀ b ∈ data, b < 256) :
    ∀ (fuel : Nat) (table : ChainedHashTable) (p prevLen prevDist : Nat) (acc : List LZSym),
      data.length + 1 - p ≤ fuel → p ≤ data.length →
      ((prevLen = 2 ∧ prevDist = 0 ∧ resolveSyms acc [] = data.take p) ∨
       (3 ≤ prevLen ∧ prevLen ≤ 258 ∧ 1 ≤ p ∧ 1 ≤ prevDist ∧ prevDist ≤ p - 1 ∧
        prevDist ≤ 32768 ∧ p - 1 + prevLen ≤ data.length ∧
        (data.drop (p - 1)).take prevLen = (data.drop (p - 1 - prevDist)).take prevLen ∧
        resolveSyms acc [] = data.take (p - 1))) →
      (∀ s ∈ acc, symOK s) →
      resolveSyms (lz77Lazy data opts fuel table p prevLen prevDist acc) [] = data ∧
      (∀ s ∈ lz77Lazy data opts fuel table p prevLen prevDist acc, symOK s) := by
  intro fuel
  induction fuel with
  | zero =>
    intro table p prevLen prevDist acc hfuel hple _ _
    omega
  | succ fuel ih =>
    intro table p prevLen prevDist acc hfuel hple hinv hsymok
    by_cases hp : data.length ≤ p
    · have hpe : p = data.length := by omega
      simp only [lz77Lazy, if_pos hp]
      rcases hinv with ⟨_, _, hres⟩ | ⟨h3, _, _, _, _, _, hbound, _, _⟩
      · subst hpe
        rw [List.take_length] at hres
        exact ⟨hres, hsymok⟩
      · omega
    · have hpl1 : 1 ≤ prevLen := by rcases hinv with ⟨h, _⟩ | ⟨h, _⟩ <;> omega
      rcases longest_match_total data (insertHash data table p).prevA p prevLen
        (budget opts prevLen) hpl1 with ⟨⟨curLen, curDist⟩, hLM⟩
      by_cases ha : 3 ≤ prevLen ∧ curLen ≤ prevLen
      · have hstep : lz77Lazy data opts (fuel + 1) table p prevLen prevDist acc =
            lz77Lazy data opts fuel
              (insertHashes data (insertHash data table p) (p + 1) (prevLen - 2))
              (p + prevLen - 1) 2 0 (acc ++ [LZSym.MatchSym prevLen prevDist]) := by
          simp only [lz77Lazy, if_neg hp, hLM, if_pos ha]
        rw [hstep]
        rcases hinv with ⟨h2, _, _⟩ | ⟨h3, h258, hp1, hd1, hdp, hdW, hbound, hagree, hres⟩
        · omega
        · apply ih
          · omega
          · omega
          · left
            refine ⟨rfl, rfl, ?_⟩
            rw [resolveSyms_append, hres]
            simp only [resolveSyms]
            rw [copyMatch_take data prevLen (p - 1) prevDist hd1 hdp (by omega) hagree]
            congr 1
            omega
          · intro s hs
            rcases List.mem_append.mp hs with h | h
            · exact hsymok s h
            · rw [List.mem_singleton] at h
              subst h
              exact ⟨h3, h258, hd1, hdW⟩
      · by_cases hb : 3 ≤ curLen
        · rcases longest_match_valid data (insertHash data table p).prevA p prevLen
            (budget opts prevLen) curLen curDist hpl1 hLM hb with
            ⟨hcd1, hcdp, hcdW, hcl258, hclbound, hcagree⟩
          by_cases hheld : 3 ≤ prevLen
          · have hstep : lz77Lazy data opts (fuel + 1) table p prevLen prevDist acc =
                lz77Lazy data opts fuel (insertHash data table p) (p + 1) curLen curDist
                  (acc ++ [LZSym.Literal (data.getD (p - 1) 0)]) := by
              simp only [lz77Lazy, if_neg hp, hLM, if_neg ha, if_pos hb, if_pos hheld]
            rw [hstep]
            rcases hinv with ⟨h2, _, _⟩ | ⟨h3, h258, hp1, hd1, hdp, hdW, hbound, hagree, hres⟩
            · omega
            · apply ih
              · omega
              · omega
              · right
                refine ⟨hb, hcl258, by omega, hcd1, by omega, hcdW, by omega, ?_, ?_⟩
                · rw [show p + 1 - 1 = p from by omega]
                  exact hcagree
                · rw [resolveSyms_append, hres]
                  simp only [resolveSyms]
                  rw [show p + 1 - 1 = p from by omega,
                    ← take_succ_getD data (p - 1) (by omega)]
                  congr 1
                  omega
              · intro s hs
                rcases List.mem_append.mp hs with h | h
                · exact hsymok s h
                · rw [List.mem_singleton] at h
                  subst h
                  exact hbytes _ (getD_mem_of_lt data (p - 1) (by omega))
          · have hstep : lz77Lazy data opts (fuel + 1) table p prevLen prevDist acc =
                lz77Lazy data opts fuel (insertHash data table p) (p + 1) curLen curDist
                  acc := by
              simp only [lz77Lazy, if_neg hp, hLM, if_neg ha, if_pos hb, if_neg hheld]
            rw [hstep]
            rcases hinv with ⟨h2, hpd0, hres⟩ | ⟨h3, _⟩
            · apply ih
              · omega
              · omega
              · right
                refine ⟨hb, hcl258, by omega, hcd1, by omega, hcdW, by omega, ?_, ?_⟩
                · rw [show p + 1 - 1 = p from by omega]
                  exact hcagree
                · rw [hres]
                  congr 1
              · exact hsymok
            · omega
        · have hstep : lz77Lazy data opts (fuel + 1) table p prevLen prevDist acc =
              lz77Lazy data opts fuel (insertHash data table p) (p + 1) 2 0
                (acc ++ [LZSym.Literal (data.getD p 0)]) := by
            simp only [lz77Lazy, if_neg hp, hLM, if_neg ha, if_neg hb]
          rw [hstep]
          rcases hinv with ⟨h2, hpd0, hres⟩ | ⟨h3, _⟩
          · apply ih
            · omega
            · omega
            · left
              refine ⟨rfl, rfl, ?_⟩
              rw [resolveSyms_append, hres]
              simp only [resolveSyms]
              rw [← take_succ_getD data p (by omega)]
            · intro s hs
              rcases List.mem_append.mp hs with h | h
              · exact hsymok s h
              · rw [List.mem_singleton] at h
                subst h
                exact hbytes _ (getD_mem_of_lt data p (by omega))
          · omega

theorem lz77Greedy_spec (data : List Nat) (opts : CompressionOptions)
    (hbytes : ∀ b ∈ data, b < 256) :
    ∀ (fuel : Nat) (table : ChainedHashTable) (p : Nat) (acc : List LZSym),
      data.length + 1 - p ≤ fuel → p ≤ data.length →
      resolveSyms acc [] = data.take p →
      (∀ s ∈ acc, symOK s) →
      resolveSyms (lz77Greedy data opts fuel table p acc) [] = data ∧
      (∀ s ∈ lz77Greedy data opts fuel table p acc, symOK s) := by
  intro fuel
  induction fuel with
  | zero =>
    intro table p acc hfuel hple _ _
    omega
  | succ fuel ih =>
    intro table p acc hfuel hple hres hsymok
    by_cases hp : data.length ≤ p
    · have hpe : p = data.length := by omega
      simp only [lz77Greedy, if_pos hp]
      subst hpe
      rw [List.take_length] at hres
      exact ⟨hres, hsymok⟩
    · rcases longest_match_total data (insertHash data table p).prevA p 2
        opts.max_hash_checks (by omega) with ⟨⟨curLen, curDist⟩, hLM⟩
      by_cases hb : 3 ≤ curLen
      · rcases longest_match_valid data (insertHash data table p).prevA p 2
          opts.max_hash_checks curLen curDist (by omega) hLM hb with
          ⟨hcd1, hcdp, hcdW, hcl258, hclbound, hcagree⟩
        have hstep : lz77Greedy data opts (fuel + 1) table p acc =
            lz77Greedy data opts fuel
              (insertHashes data (insertHash data table p) (p + 1) (curLen - 1))
              (p + curLen) (acc ++ [LZSym.MatchSym curLen curDist]) := by
          simp only [lz77Greedy, if_neg hp, hLM, if_pos hb]
        rw [hstep]
        apply ih
        · omega
        · omega
        · rw [resolveSyms_append, hres]
          simp only [resolveSyms]
          exact copyMatch_take data curLen p curDist hcd1 hcdp hclbound hcagree
        · intro s hs
          rcases List.mem_append.mp hs with h | h
          · exact hsymok s h
          · rw [List.mem_singleton] at h
            subst h
            exact ⟨hb, hcl258, hcd1, hcdW⟩
      · have hstep : lz77Greedy data opts (fuel + 1) table p acc =
            lz77Greedy data opts fuel (insertHash data table p) (p + 1)
              (acc ++ [LZSym.Literal (data.getD p 0)]) := by
          simp only [lz77Greedy, if_neg hp, hLM, if_neg hb]
        rw [hstep]
        apply ih
        · omega
        · omega
        · rw [resolveSyms_append, hres]
          simp only [resolveSyms]
          rw [← take_succ_getD data p (by omega)]
        · intro s hs
          rcases List.mem_append.mp hs with h | h
          · exact hsymok s h
          · rw [List.mem_singleton] at h
            subst h
            exact hbytes _ (getD_mem_of_lt data p (by omega))

theorem lz77_compress_spec (data : List Nat) (opts : CompressionOptions)
    (hbytes : ∀ b ∈ data, b < 256) :
    resolveSyms (lz77_compress data opts) [] = data ∧
    (∀ s ∈ lz77_compress data opts, symOK s) := by
  unfold lz77_compress
  cases opts.matching_type
  · exact lz77Greedy_spec data opts hbytes (data.length + 1) emptyTable 0 []
      (by omega) (by omega) (by simp [resolveSyms]) (by simp)
  · exact lz77Lazy_spec data opts hbytes (data.length + 1) emptyTable 0 2 0 []
      (by omega) (by omega) (Or.inl ⟨rfl, rfl, by simp [resolveSyms]⟩) (by simp)

/-! ### Canonical Huffman codes: Kraft condition and decoding (claim C1) -/

/-- The Kraft sum of a code-length vector at width `L`: `Σ 2^(L − len)` over
the nonzero entries (§4.H). -/
def kraftSum (lengths : List Nat) (L : Nat) : Nat :=
  ((lengths.filter (fun v => v ≠ 0)).map (fun v => 2 ^ (L - v))).sum

/-- Decodability of a code-length vector at width `L` (§4.H guarantees the
stronger Kraft equality for builder outputs; only boundedness is needed for
unique decoding). -/
def lensOK (lengths : List Nat) (L : Nat) : Prop :=
  (∀ v ∈ lengths, v ≤ L) ∧ kraftSum lengths L ≤ 2 ^ L

instance lensOK_dec (lengths : List Nat) (L : Nat) : Decidable (lensOK lengths L) := by
  unfold lensOK
  infer_instance

/-- The symbol (if any) whose stored code is the `ℓ` read bits with MSB-first
value `v` — the table search of a conformant canonical decoder (§3: stored
codes are bit-reversed, so the stored pattern of a canonical code `c` of
length `ℓ` is `bitReverse c ℓ`). -/
def findSymIdx (codes : List HuffmanCode) (v ℓ : Nat) : Option Nat :=
  (List.range codes.length).find? (fun t =>
    decide ((codes.getD t ⟨0, 0⟩).length = ℓ ∧ (codes.getD t ⟨0, 0⟩).code = bitReverse v ℓ))

/-- Read one Huffman-coded symbol: accumulate bits into an MSB-first value
and stop at the first bit count at which the accumulated value is a stored
code of that length. -/
def readSym (codes : List HuffmanCode) : Nat → Nat → Nat → List Bool → Option (Nat × List Bool)
  | 0, _, _, _ => none
  | fuel + 1, v, ℓ, bits =>
    match bits with
    | [] => none
    | b :: rest =>
      match findSymIdx codes (2 * v + (if b then 1 else 0)) (ℓ + 1) with
      | some s => some (s, rest)
      | none => readSym codes fuel (2 * v + (if b then 1 else 0)) (ℓ + 1) rest

theorem lookup_zip_getD (keys : List Nat) : ∀ (vals : List Nat), keys.Nodup →
    keys.length = vals.length → ∀ i, i < keys.length →
    (keys.zip vals).lookup (keys.getD i 0) = some (vals.getD i 0) := by
  induction keys with
  | nil =>
    intro vals _ _ i hi
    simp at hi
  | cons k ks ih =>
    intro vals hnd hlen i hi
    cases vals with
    | nil => simp at hlen
    | cons v vs =>
      cases i with
      | zero => simp
      | succ j =>
        have hj : j < ks.length := by simpa using hi
        have hne : ks.getD j 0 ≠ k := by
          intro h
          have hmem : ks.getD j 0 ∈ ks := getD_mem_of_lt ks j hj
          rw [h] at hmem
          exact (List.nodup_cons.mp hnd).1 hmem
        simp only [List.zip_cons_cons, List.getD_cons_succ]
        rw [List.lookup_cons]
        have hbeq : (ks.getD j 0 == k) = false := by
          simpa using hne
        rw [hbeq]
        exact ih vs (List.nodup_cons.mp hnd).2 (by simpa using hlen) j hj

theorem find?_unique {p : Nat → Bool} : ∀ (l : List Nat) (x : Nat), x ∈ l → p x →
    (∀ y ∈ l, p y → y = x) → l.find? p = some x := by
  intro l
  induction l with
  | nil =>
    intro x hx
    simp at hx
  | cons a t ih =>
    intro x hx hpx huniq
    by_cases hpa : p a
    · rw [List.find?_cons_of_pos t hpa]
      rw [huniq a (List.mem_cons_self a t) hpa]
    · rw [List.find?_cons_of_neg t hpa]
      have hxt : x ∈ t := by
        rcases List.mem_cons.mp hx with h | h
        · rw [h] at hpx
          exact absurd hpx hpa
        · exact h
      exact ih x hxt hpx (fun y hy hpy => huniq y (List.mem_cons_of_mem a hy) hpy)

theorem map_getD_range (l : List Nat) :
    (List.range l.length).map (fun i => l.getD i 0) = l := by
  apply List.ext_getElem
  · simp
  · intro i h1 h2
    simp only [List.getElem_map, List.getElem_range, List.getD_eq_getElem?_getD,
      List.getElem?_eq_getElem h2]
    rfl

theorem canonCodes_length (lengths : List Nat) : ∀ (syms : List Nat) (nc pl : Nat),
    (canonCodes lengths syms nc pl).length = syms.length := by
  intro syms
  induction syms with
  | nil => intro nc pl; rfl
  | cons i rest ih =>
    intro nc pl
    simp only [canonCodes, List.length_cons]
    rw [ih]

theorem symLE_trans (lengths : List Nat) (a b c : Nat) (h1 : symLE lengths a b)
    (h2 : symLE lengths b c) : symLE lengths a c := by
  simp only [symLE, decide_eq_true_eq] at *
  omega

theorem symLE_total (lengths : List Nat) (a b : Nat) :
    symLE lengths a b || symLE lengths b a := by
  simp only [symLE, Bool.or_eq_true, decide_eq_true_eq]
  omega

theorem sortedSyms_pairwise (lengths : List Nat) :
    List.Pairwise (fun a b => symLE lengths a b = true) (sortedSyms lengths) := by
  unfold sortedSyms
  exact List.sorted_mergeSort (symLE_trans lengths) (symLE_total lengths) _

theorem sortedSyms_mem (lengths : List Nat) (t : Nat) :
    t ∈ sortedSyms lengths ↔ t < lengths.length ∧ lengths.getD t 0 ≠ 0 := by
  unfold sortedSyms
  simp

theorem sortedSyms_nodup (lengths : List Nat) : (sortedSyms lengths).Nodup := by
  unfold sortedSyms
  exact (List.mergeSort_perm _ _).symm.nodup (List.Nodup.filter _ (List.nodup_range _))

theorem canonCodes_start (lengths : List Nat) : ∀ (syms : List Nat) (nc pl : Nat),
    (∀ i ∈ syms, pl ≤ lengths.getD i 0) →
    List.Pairwise (fun a b => lengths.getD a 0 ≤ lengths.getD b 0) syms →
    ∀ k, k < syms.length →
      nc * 2 ^ (lengths.getD (syms.getD k 0) 0 - pl) ≤
        (canonCodes lengths syms nc pl).getD k 0 := by
  intro syms
  induction syms with
  | nil =>
    intro nc pl _ _ k hk
    simp at hk
  | cons i rest ih =>
    intro nc pl hpl hpw k hk
    rcases List.pairwise_cons.mp hpw with ⟨hhead, htail⟩
    cases k with
    | zero =>
      simp only [canonCodes, List.getD_cons_zero]
      exact Nat.le_refl _
    | succ j =>
      have hj : j < rest.length := by simpa using hk
      simp only [canonCodes, List.getD_cons_succ]
      have hih := ih (nc * 2 ^ (lengths.getD i 0 - pl) + 1) (lengths.getD i 0)
        (fun x hx => hhead x hx) htail j hj
      refine le_trans ?_ hih
      have h1 : pl ≤ lengths.getD i 0 := hpl i (List.mem_cons_self i rest)
      have h2 : lengths.getD i 0 ≤ lengths.getD (rest.getD j 0) 0 :=
        hhead _ (getD_mem_of_lt rest j hj)
      have hsplit : lengths.getD (rest.getD j 0) 0 - pl =
          (lengths.getD i 0 - pl) + (lengths.getD (rest.getD j 0) 0 - lengths.getD i 0) := by
        omega
      rw [hsplit, pow_add, ← Nat.mul_assoc]
      exact Nat.mul_le_mul_right _ (Nat.le_add_right _ 1)

theorem canonCodes_fit (lengths : List Nat) (L : Nat) : ∀ (syms : List Nat) (nc pl : Nat),
    (∀ i ∈ syms, pl ≤ lengths.getD i 0) →
    (∀ i ∈ syms, lengths.getD i 0 ≤ L) →
    pl ≤ L →
    nc * 2 ^ (L - pl) + (syms.map (fun i => 2 ^ (L - lengths.getD i 0))).sum ≤ 2 ^ L →
    List.Pairwise (fun a b => lengths.getD a 0 ≤ lengths.getD b 0) syms →
    ∀ k, k < syms.length →
      (canonCodes lengths syms nc pl).getD k 0 <
        2 ^ lengths.getD (syms.getD k 0) 0 := by
  intro syms
  induction syms with
  | nil =>
    intro nc pl _ _ _ _ _ k hk
    simp at hk
  | cons i rest ih =>
    intro nc pl hpl hL hplL hbud hpw k hk
    rcases List.pairwise_cons.mp hpw with ⟨hhead, htail⟩
    have h1 : pl ≤ lengths.getD i 0 := hpl i (List.mem_cons_self i rest)
    have h2 : lengths.getD i 0 ≤ L := hL i (List.mem_cons_self i rest)
    have hexp : (lengths.getD i 0 - pl) + (L - lengths.getD i 0) = L - pl := by omega
    have key : nc * 2 ^ (lengths.getD i 0 - pl) * 2 ^ (L - lengths.getD i 0) =
        nc * 2 ^ (L - pl) := by
      rw [Nat.mul_assoc, ← pow_add, hexp]
    simp only [List.map_cons, List.sum_cons] at hbud
    cases k with
    | zero =>
      simp only [canonCodes, List.getD_cons_zero]
      have hb2 : nc * 2 ^ (lengths.getD i 0 - pl) * 2 ^ (L - lengths.getD i 0) +
          2 ^ (L - lengths.getD i 0) ≤ 2 ^ L := by
        rw [key]
        omega
      have hpow : (2 : Nat) ^ lengths.getD i 0 * 2 ^ (L - lengths.getD i 0) = 2 ^ L := by
        rw [← pow_add]
        congr 1
        omega
      have hmul : (nc * 2 ^ (lengths.getD i 0 - pl) + 1) * 2 ^ (L - lengths.getD i 0) ≤
          2 ^ lengths.getD i 0 * 2 ^ (L - lengths.getD i 0) := by
        rw [Nat.add_mul, Nat.one_mul, hpow]
        omega
      have hle := Nat.le_of_mul_le_mul_right hmul (Nat.two_pow_pos (L - lengths.getD i 0))
      omega
    | succ j =>
      have hj : j < rest.length := by simpa using hk
      simp only [canonCodes, List.getD_cons_succ]
      refine ih (nc * 2 ^ (lengths.getD i 0 - pl) + 1) (lengths.getD i 0)
        (fun x hx => hhead x hx) (fun x hx => hL x (List.mem_cons_of_mem i hx)) h2
        ?_ htail j hj
      rw [Nat.add_mul, Nat.one_mul, key]
      omega

theorem canonCodes_sep (lengths : List Nat) : ∀ (syms : List Nat) (nc pl : Nat),
    (∀ i ∈ syms, pl ≤ lengths.getD i 0) →
    List.Pairwise (fun a b => lengths.getD a 0 ≤ lengths.getD b 0) syms →
    ∀ k1 k2, k1 < k2 → k2 < syms.length →
      (canonCodes lengths syms nc pl).getD k1 0 + 1 ≤
        (canonCodes lengths syms nc pl).getD k2 0 /
          2 ^ (lengths.getD (syms.getD k2 0) 0 - lengths.getD (syms.getD k1 0) 0) := by
  intro syms
  induction syms with
  | nil =>
    intro nc pl _ _ k1 k2 _ hk2
    simp at hk2
  | cons i rest ih =>
    intro nc pl hpl hpw k1 k2 hlt hk2
    rcases List.pairwise_cons.mp hpw with ⟨hhead, htail⟩
    cases k1 with
    | zero =>
      cases k2 with
      | zero => omega
      | succ j =>
        have hj : j < rest.length := by simpa using hk2
        simp only [canonCodes, List.getD_cons_zero, List.getD_cons_succ]
        rw [Nat.le_div_iff_mul_le (Nat.two_pow_pos _)]
        exact canonCodes_start lengths rest (nc * 2 ^ (lengths.getD i 0 - pl) + 1)
          (lengths.getD i 0) (fun x hx => hhead x hx) htail j hj
    | succ j1 =>
      cases k2 with
      | zero => omega
      | succ j2 =>
        have hj2 : j2 < rest.length := by simpa using hk2
        simp only [canonCodes, List.getD_cons_succ]
        exact ih (nc * 2 ^ (lengths.getD i 0 - pl) + 1) (lengths.getD i 0)
          (fun x hx => hhead x hx) htail j1 j2 (by omega) hj2

theorem getD_map_range {α : Type} (n : Nat) (f : Nat → α) (d : α) (i : Nat) (hi : i < n) :
    ((List.range n).map f).getD i d = f i := by
  rw [List.getD_eq_getElem ((List.range n).map f) d (by simpa using hi)]
  simp

theorem create_codes_getD_assigned (lengths : List Nat) (k : Nat)
    (hk : k < (sortedSyms lengths).length) :
    (create_codes lengths).getD ((sortedSyms lengths).getD k 0) ⟨0, 0⟩ =
      ⟨bitReverse ((canonCodes lengths (sortedSyms lengths) 0 0).getD k 0)
        (lengths.getD ((sortedSyms lengths).getD k 0) 0),
       lengths.getD ((sortedSyms lengths).getD k 0) 0⟩ := by
  have htmem : (sortedSyms lengths).getD k 0 ∈ sortedSyms lengths :=
    getD_mem_of_lt _ k hk
  have ht := (sortedSyms_mem lengths _).mp htmem
  have hlk := lookup_zip_getD (sortedSyms lengths)
    (canonCodes lengths (sortedSyms lengths) 0 0) (sortedSyms_nodup lengths)
    (by rw [canonCodes_length]) k hk
  simp only [create_codes]
  rw [getD_map_range _ _ _ _ ht.1, hlk]

theorem create_codes_getD_zero (lengths : List Nat) (t : Nat) (ht : t < lengths.length)
    (h0 : lengths.getD t 0 = 0) :
    (create_codes lengths).getD t ⟨0, 0⟩ = ⟨0, 0⟩ := by
  have hnot : t ∉ sortedSyms lengths := by
    rw [sortedSyms_mem]
    intro hc
    exact hc.2 h0
  have hlk : ((sortedSyms lengths).zip
      (canonCodes lengths (sortedSyms lengths) 0 0)).lookup t = none := by
    rw [List.lookup_eq_none_iff]
    intro p hp
    obtain ⟨a, b⟩ := p
    simp only [bne_iff_ne, ne_eq]
    intro he
    apply hnot
    rw [he]
    exact (List.of_mem_zip hp).1
  simp only [create_codes]
  rw [getD_map_range _ _ _ _ ht, hlk]

theorem sortedSyms_lens_le (lengths : List Nat) :
    List.Pairwise (fun a b => lengths.getD a 0 ≤ lengths.getD b 0) (sortedSyms lengths) := by
  refine (sortedSyms_pairwise lengths).imp ?_
  intro a b h
  simp only [symLE, decide_eq_true_eq] at h
  omega

theorem sortedSyms_kraft (lengths : List Nat) (L : Nat) :
    ((sortedSyms lengths).map (fun i => 2 ^ (L - lengths.getD i 0))).sum =
      kraftSum lengths L := by
  have hperm : List.Perm (sortedSyms lengths)
      ((List.range lengths.length).filter (fun i => lengths.getD i 0 ≠ 0)) :=
    List.mergeSort_perm _ _
  rw [(hperm.map _).sum_eq]
  unfold kraftSum
  have h3 : lengths.filter (fun v => v ≠ 0) =
      ((List.range lengths.length).filter (fun i => lengths.getD i 0 ≠ 0)).map
        (fun i => lengths.getD i 0) := by
    conv_lhs => rw [← map_getD_range lengths]
    rw [List.filter_map]
    rfl
  rw [h3, List.map_map]
  rfl

theorem sortedSyms_budget (lengths : List Nat) (L : Nat) (hok : lensOK lengths L) :
    0 * 2 ^ (L - 0) +
      ((sortedSyms lengths).map (fun i => 2 ^ (L - lengths.getD i 0))).sum ≤ 2 ^ L := by
  rw [Nat.zero_mul, Nat.zero_add, sortedSyms_kraft]
  exact hok.2

theorem sortedSyms_lens_bounded (lengths : List Nat) (L : Nat) (hok : lensOK lengths L) :
    ∀ i ∈ sortedSyms lengths, lengths.getD i 0 ≤ L := by
  intro i hi
  have h := (sortedSyms_mem lengths i).mp hi
  exact hok.1 _ (getD_mem_of_lt lengths i h.1)

theorem canonCodes_fit_top (lengths : List Nat) (L : Nat) (hok : lensOK lengths L)
    (k : Nat) (hk : k < (sortedSyms lengths).length) :
    (canonCodes lengths (sortedSyms lengths) 0 0).getD k 0 <
      2 ^ lengths.getD ((sortedSyms lengths).getD k 0) 0 :=
  canonCodes_fit lengths L (sortedSyms lengths) 0 0 (fun _ _ => Nat.zero_le _)
    (sortedSyms_lens_bounded lengths L hok) (Nat.zero_le L)
    (sortedSyms_budget lengths L hok) (sortedSyms_lens_le lengths) k hk

theorem findSymIdx_match (lengths : List Nat) (L : Nat) (hok : lensOK lengths L)
    (w ℓ t : Nat) (hl : 1 ≤ ℓ) (hw : w < 2 ^ ℓ) (ht : t < lengths.length)
    (hlen : ((create_codes lengths).getD t ⟨0, 0⟩).length = ℓ)
    (hcode : ((create_codes lengths).getD t ⟨0, 0⟩).code = bitReverse w ℓ) :
    ∃ k, k < (sortedSyms lengths).length ∧ (sortedSyms lengths).getD k 0 = t ∧
      lengths.getD t 0 = ℓ ∧
      (canonCodes lengths (sortedSyms lengths) 0 0).getD k 0 = w := by
  by_cases h0 : lengths.getD t 0 = 0
  · rw [create_codes_getD_zero lengths t ht h0] at hlen
    have hz : (0 : Nat) = ℓ := hlen
    omega
  · have htmem : t ∈ sortedSyms lengths := (sortedSyms_mem lengths t).mpr ⟨ht, h0⟩
    rcases List.getElem_of_mem htmem with ⟨k, hk, hget⟩
    have hgetD : (sortedSyms lengths).getD k 0 = t := by
      rw [List.getD_eq_getElem _ 0 hk]
      exact hget
    have hass := create_codes_getD_assigned lengths k hk
    rw [hgetD] at hass
    rw [hass] at hlen hcode
    have hlen2 : lengths.getD t 0 = ℓ := hlen
    have hcode2 : bitReverse ((canonCodes lengths (sortedSyms lengths) 0 0).getD k 0)
        (lengths.getD t 0) = bitReverse w ℓ := hcode
    rw [hlen2] at hcode2
    have hfit := canonCodes_fit_top lengths L hok k hk
    rw [hgetD, hlen2] at hfit
    exact ⟨k, hk, hgetD, hlen2, bitReverse_inj ℓ _ w hfit hw hcode2⟩

theorem findSymIdx_none (lengths : List Nat) (L : Nat) (hok : lensOK lengths L)
    (w ℓ : Nat) (hl : 1 ≤ ℓ) (hw : w < 2 ^ ℓ)
    (hno : ∀ k, k < (sortedSyms lengths).length →
      lengths.getD ((sortedSyms lengths).getD k 0) 0 = ℓ →
      (canonCodes lengths (sortedSyms lengths) 0 0).getD k 0 ≠ w) :
    findSymIdx (create_codes lengths) w ℓ = none := by
  unfold findSymIdx
  rw [List.find?_eq_none]
  intro t htr
  have ht : t < lengths.length := by
    rw [List.mem_range, create_codes_length] at htr
    exact htr
  simp only [decide_eq_true_eq]
  rintro ⟨h1, h2⟩
  rcases findSymIdx_match lengths L hok w ℓ t hl hw ht h1 h2 with ⟨k, hk, hgd, hlt, hrw⟩
  refine hno k hk ?_ hrw
  rw [hgd]
  exact hlt

theorem findSymIdx_some (lengths : List Nat) (L : Nat) (hok : lensOK lengths L)
    (ks : Nat) (hks : ks < (sortedSyms lengths).length) :
    findSymIdx (create_codes lengths)
      ((canonCodes lengths (sortedSyms lengths) 0 0).getD ks 0)
      (lengths.getD ((sortedSyms lengths).getD ks 0) 0) =
      some ((sortedSyms lengths).getD ks 0) := by
  have hsmem : (sortedSyms lengths).getD ks 0 ∈ sortedSyms lengths :=
    getD_mem_of_lt _ ks hks
  have hsrange := (sortedSyms_mem lengths _).mp hsmem
  have hn1 : 1 ≤ lengths.getD ((sortedSyms lengths).getD ks 0) 0 := by
    rcases Nat.eq_zero_or_pos (lengths.getD ((sortedSyms lengths).getD ks 0) 0) with h | h
    · exact absurd h hsrange.2
    · exact h
  have hfit := canonCodes_fit_top lengths L hok ks hks
  have hass := create_codes_getD_assigned lengths ks hks
  unfold findSymIdx
  apply find?_unique
  · rw [List.mem_range, create_codes_length]
    exact hsrange.1
  · apply decide_eq_true
    rw [hass]
    exact ⟨rfl, rfl⟩
  · intro t htmem hpt
    rw [List.mem_range, create_codes_length] at htmem
    have hp := of_decide_eq_true hpt
    rcases findSymIdx_match lengths L hok
        ((canonCodes lengths (sortedSyms lengths) 0 0).getD ks 0)
        (lengths.getD ((sortedSyms lengths).getD ks 0) 0) t hn1 hfit htmem hp.1 hp.2 with
      ⟨k, hk, hgd, hlent, hraw⟩
    rcases Nat.lt_trichotomy k ks with hlt | heq | hgt
    · exfalso
      have hsep := canonCodes_sep lengths (sortedSyms lengths) 0 0
        (fun _ _ => Nat.zero_le _) (sortedSyms_lens_le lengths) k ks hlt hks
      rw [hgd, hlent, hraw, Nat.sub_self, pow_zero, Nat.div_one] at hsep
      omega
    · rw [heq] at hgd
      rw [← hgd]
    · exfalso
      have hsep := canonCodes_sep lengths (sortedSyms lengths) 0 0
        (fun _ _ => Nat.zero_le _) (sortedSyms_lens_le lengths) ks k hgt hk
      rw [hgd, hlent, hraw, Nat.sub_self, pow_zero, Nat.div_one] at hsep
      omega

theorem sortedSyms_lt_index (lengths : List Nat) (k1 k2 : Nat)
    (h1 : k1 < (sortedSyms lengths).length) (h2 : k2 < (sortedSyms lengths).length)
    (hlen : lengths.getD ((sortedSyms lengths).getD k1 0) 0 <
      lengths.getD ((sortedSyms lengths).getD k2 0) 0) : k1 < k2 := by

  rcases Nat.lt_trichotomy k1 k2 with h | h | h
  · exact h
  · subst h
    omega
  · exfalso
    have hp := List.pairwise_iff_getElem.mp (sortedSyms_lens_le lengths) k2 k1 h2 h1 h
    rw [List.getD_eq_getElem _ 0 h1, List.getD_eq_getElem _ 0 h2] at hlen
    omega

theorem div_pow_split (c m j : Nat) (hj : j ≤ m) :
    c / 2 ^ (m - j) = c / 2 ^ m * 2 ^ j + c % 2 ^ m / 2 ^ (m - j) := by
  have h1 : (2 : Nat) ^ m = 2 ^ j * 2 ^ (m - j) := by
    rw [← pow_add]
    congr 1
    omega
  have h2 := Nat.div_add_mod c (2 ^ m)
  have h4 : c = c % 2 ^ m + c / 2 ^ m * 2 ^ j * 2 ^ (m - j) := by
    rw [Nat.mul_assoc, ← h1, Nat.mul_comm (c / 2 ^ m) (2 ^ m)]
    omega
  conv_lhs => rw [h4]
  rw [Nat.add_mul_div_right _ _ (Nat.two_pow_pos (m - j))]
  omega

theorem natBitsLSB_succ_top (m c : Nat) (hc : c < 2 ^ (m + 1)) :
    natBitsLSB c (m + 1) = natBitsLSB (c % 2 ^ m) m ++ [decide (c / 2 ^ m = 1)] := by
  have hpw : (2 : Nat) ^ (m + 1) = 2 * 2 ^ m := by
    rw [pow_succ]
    ring
  have ha : c / 2 ^ m ≤ 1 := by
    have hlt : c / 2 ^ m < 2 := (Nat.div_lt_iff_lt_mul (Nat.two_pow_pos m)).mpr (by omega)
    exact Nat.lt_succ_iff.mp hlt
  have key := natBitsLSB_mul_pow_add m (c / 2 ^ m) (c % 2 ^ m) ha
    (Nat.mod_lt c (Nat.two_pow_pos m))
  rw [Nat.div_add_mod'] at key
  exact key

theorem readSym_loop (codes : List HuffmanCode) : ∀ (n : Nat), 1 ≤ n →
    ∀ (fuel v ℓ c : Nat) (rest : List Bool) (s : Nat),
      n ≤ fuel → c < 2 ^ n →
      (∀ j, 1 ≤ j → j < n →
        findSymIdx codes (v * 2 ^ j + c / 2 ^ (n - j)) (ℓ + j) = none) →
      findSymIdx codes (v * 2 ^ n + c) (ℓ + n) = some s →
      readSym codes fuel v ℓ ((natBitsLSB c n).reverse ++ rest) = some (s, rest) := by
  intro n
  induction n with
  | zero =>
    intro h
    omega
  | succ m ih =>
    intro _ fuel v ℓ c rest s hfuel hc hnone hsome
    cases fuel with
    | zero => omega
    | succ f =>
      have hdec : (natBitsLSB c (m + 1)).reverse =
          decide (c / 2 ^ m = 1) :: (natBitsLSB (c % 2 ^ m) m).reverse := by
        rw [natBitsLSB_succ_top m c hc, List.reverse_append]
        rfl
      rw [hdec]
      have ha : c / 2 ^ m = 0 ∨ c / 2 ^ m = 1 := by
        have hpw : (2 : Nat) ^ (m + 1) = 2 * 2 ^ m := by
          rw [pow_succ]
          ring
        have hlt : c / 2 ^ m < 2 := (Nat.div_lt_iff_lt_mul (Nat.two_pow_pos m)).mpr (by omega)
        exact Nat.le_one_iff_eq_zero_or_eq_one.mp (Nat.lt_succ_iff.mp hlt)
      have hscr : 2 * v + (if decide (c / 2 ^ m = 1) then 1 else 0) =
          v * 2 ^ 1 + c / 2 ^ m := by
        rcases ha with h | h <;> rw [h] <;> simp <;> omega
      have hstep : readSym codes (f + 1) v ℓ
          (decide (c / 2 ^ m = 1) :: ((natBitsLSB (c % 2 ^ m) m).reverse ++ rest)) =
          (match findSymIdx codes (2 * v + (if decide (c / 2 ^ m = 1) then 1 else 0))
              (ℓ + 1) with
           | some s2 => some (s2, (natBitsLSB (c % 2 ^ m) m).reverse ++ rest)
           | none => readSym codes f (2 * v + (if decide (c / 2 ^ m = 1) then 1 else 0))
              (ℓ + 1) ((natBitsLSB (c % 2 ^ m) m).reverse ++ rest)) := rfl
      rw [List.cons_append, hstep, hscr]
      cases m with
      | zero =>
        have hone : findSymIdx codes (v * 2 ^ 1 + c / 2 ^ 0) (ℓ + 1) = some s := by
          have h0 : c / 2 ^ 0 = c := by simp
          rw [h0]
          exact hsome
        rw [hone]
        simp [natBitsLSB]
      | succ m2 =>
        have h1 := hnone 1 (by omega) (by omega)
        have hexp1 : m2 + 1 + 1 - 1 = m2 + 1 := rfl
        rw [hexp1, pow_one] at h1
        rw [show v * 2 ^ 1 + c / 2 ^ (m2 + 1) = v * 2 + c / 2 ^ (m2 + 1) from by
          rw [pow_one]]
        rw [h1]
        have hnone2 : ∀ j, 1 ≤ j → j < m2 + 1 →
            findSymIdx codes ((v * 2 + c / 2 ^ (m2 + 1)) * 2 ^ j +
              c % 2 ^ (m2 + 1) / 2 ^ (m2 + 1 - j)) (ℓ + 1 + j) = none := by
          intro j hj1 hj2
          have h := hnone (j + 1) (by omega) (by omega)
          rw [Nat.succ_sub_succ] at h
          rw [div_pow_split c (m2 + 1) j (by omega)] at h
          rw [show (v * 2 + c / 2 ^ (m2 + 1)) * 2 ^ j +
              c % 2 ^ (m2 + 1) / 2 ^ (m2 + 1 - j) =
              v * 2 ^ (j + 1) + (c / 2 ^ (m2 + 1) * 2 ^ j +
                c % 2 ^ (m2 + 1) / 2 ^ (m2 + 1 - j)) from by ring]
          rw [show ℓ + 1 + j = ℓ + (j + 1) from by omega]
          exact h
        have hsome2 : findSymIdx codes ((v * 2 + c / 2 ^ (m2 + 1)) * 2 ^ (m2 + 1) +
            c % 2 ^ (m2 + 1)) (ℓ + 1 + (m2 + 1)) = some s := by
          have hval2 : (v * 2 + c / 2 ^ (m2 + 1)) * 2 ^ (m2 + 1) + c % 2 ^ (m2 + 1) =
              v * 2 ^ (m2 + 1 + 1) + c := by
            conv_rhs => rw [← Nat.div_add_mod' c (2 ^ (m2 + 1))]
            ring
          rw [hval2, show ℓ + 1 + (m2 + 1) = ℓ + (m2 + 1 + 1) from by omega]
          exact hsome
        exact ih (by omega) f (v * 2 + c / 2 ^ (m2 + 1)) (ℓ + 1) (c % 2 ^ (m2 + 1)) rest s
          (by omega) (Nat.mod_lt c (Nat.two_pow_pos (m2 + 1))) hnone2 hsome2

theorem readSym_correct (lengths : List Nat) (L : Nat) (hok : lensOK lengths L)
    (s : Nat) (hs : s < lengths.length) (hn : lengths.getD s 0 ≠ 0)
    (fuel : Nat) (hfuel : lengths.getD s 0 ≤ fuel) (rest : List Bool) :
    readSym (create_codes lengths) fuel 0 0
      (natBitsLSB ((create_codes lengths).getD s ⟨0, 0⟩).code (lengths.getD s 0) ++ rest) =
      some (s, rest) := by
  have hsmem : s ∈ sortedSyms lengths := (sortedSyms_mem lengths s).mpr ⟨hs, hn⟩
  rcases List.getElem_of_mem hsmem with ⟨ks, hks, hget⟩
  have hgd : (sortedSyms lengths).getD ks 0 = s := by
    rw [List.getD_eq_getElem _ 0 hks]
    exact hget
  have hass := create_codes_getD_assigned lengths ks hks
  rw [hgd] at hass
  have hfit := canonCodes_fit_top lengths L hok ks hks
  rw [hgd] at hfit
  have hcode : ((create_codes lengths).getD s ⟨0, 0⟩).code =
      bitReverse ((canonCodes lengths (sortedSyms lengths) 0 0).getD ks 0)
        (lengths.getD s 0) := by
    rw [hass]
  rw [hcode, natBitsLSB_bitReverse]
  apply readSym_loop (create_codes lengths) (lengths.getD s 0) (by omega) fuel 0 0 _ rest s
    hfuel hfit
  · intro j hj1 hj2
    rw [Nat.zero_mul, Nat.zero_add, Nat.zero_add]
    have hwj : (canonCodes lengths (sortedSyms lengths) 0 0).getD ks 0 /
        2 ^ (lengths.getD s 0 - j) < 2 ^ j := by
      rw [Nat.div_lt_iff_lt_mul (Nat.two_pow_pos _)]
      have hpw : (2 : Nat) ^ j * 2 ^ (lengths.getD s 0 - j) = 2 ^ lengths.getD s 0 := by
        rw [← pow_add]
        congr 1
        omega
      rw [hpw]
      exact hfit
    apply findSymIdx_none lengths L hok _ j hj1 hwj
    intro k hk hkj heq
    have hkks : k < ks := by
      apply sortedSyms_lt_index lengths k ks hk hks
      rw [hkj, hgd]
      exact hj2
    have hsep := canonCodes_sep lengths (sortedSyms lengths) 0 0
      (fun _ _ => Nat.zero_le _) (sortedSyms_lens_le lengths) k ks hkks hks
    rw [hgd, hkj, heq] at hsep
    omega
  · rw [Nat.zero_mul, Nat.zero_add, Nat.zero_add]
    have h := findSymIdx_some lengths L hok ks hks
    rw [hgd] at h
    exact h

theorem create_codes_length_field (lengths : List Nat) (s : Nat) (hs : s < lengths.length) :
    ((create_codes lengths).getD s ⟨0, 0⟩).length = lengths.getD s 0 := by
  by_cases h0 : lengths.getD s 0 = 0
  · rw [create_codes_getD_zero lengths s hs h0, h0]
  · have hsmem : s ∈ sortedSyms lengths := (sortedSyms_mem lengths s).mpr ⟨hs, h0⟩
    rcases List.getElem_of_mem hsmem with ⟨ks, hks, hget⟩
    have hgd : (sortedSyms lengths).getD ks 0 = s := by
      rw [List.getD_eq_getElem _ 0 hks]
      exact hget
    have hass := create_codes_getD_assigned lengths ks hks
    rw [hgd] at hass
    rw [hass]

/-- The transmitted bit pattern of symbol `s` under the canonical codes of a
length vector (§4.A: the stored, already bit-reversed code is pushed
LSB-first). -/
def symCode (lens : List Nat) (s : Nat) : List Bool :=
  natBitsLSB ((create_codes lens).getD s ⟨0, 0⟩).code
    ((create_codes lens).getD s ⟨0, 0⟩).length

/-- Modelled from the spec (§4.J step 2): emit one block symbol — the
literal/length code with its length extra bits, then for a match the distance
code with its extra bits; a symbol whose code is absent is a broken invariant
(§7), modelled as `none`. -/
def writeSym (ll dl : List Nat) : LZSym → Option (List Bool)
  | LZSym.Literal b =>
    if b < ll.length ∧ ll.getD b 0 ≠ 0 then some (symCode ll b) else none
  | LZSym.MatchSym l d =>
    match lengthToSym l, distToSym d with
    | some (s, e, ev), some (ds, de, dev) =>
      if s < ll.length ∧ ll.getD s 0 ≠ 0 ∧ ds < dl.length ∧ dl.getD ds 0 ≠ 0 then
        some (symCode ll s ++ natBitsLSB ev e ++ symCode dl ds ++ natBitsLSB dev de)
      else none
    | _, _ => none

/-- Emit a whole block's symbol sequence (§4.J step 2). -/
def writeSyms (ll dl : List Nat) : List LZSym → Option (List Bool)
  | [] => some []
  | x :: rest =>
    match writeSym ll dl x, writeSyms ll dl rest with
    | some a, some b => some (a ++ b)
    | _, _ => none

/-- The symbol loop of a conformant decoder: read literal/length symbols,
expand lengths and distances from their extra bits, stop at the end-of-block
symbol 256. -/
def readSyms (ll dl : List Nat) : Nat → List Bool → List LZSym →
    Option (List LZSym × List Bool)
  | 0, _, _ => none
  | fuel + 1, bits, acc =>
    (readSym (create_codes ll) 16 0 0 bits).bind (fun p1 =>
      if p1.1 < 256 then readSyms ll dl fuel p1.2 (acc ++ [LZSym.Literal p1.1])
      else if p1.1 = 256 then some (acc, p1.2)
      else
        (lenSymInfo p1.1).bind (fun li =>
          (readBits li.1 p1.2).bind (fun p2 =>
            (readSym (create_codes dl) 16 0 0 p2.2).bind (fun p3 =>
              (distSymInfo p3.1).bind (fun di =>
                (readBits di.1 p3.2).bind (fun p4 =>
                  readSyms ll dl fuel p4.2
                    (acc ++ [LZSym.MatchSym (li.2 + p2.1) (di.2 + p4.1)])))))))

theorem symCode_reads (lens : List Nat) (L : Nat) (hok : lensOK lens L) (hL : L ≤ 15)
    (s : Nat) (hs : s < lens.length) (hn : lens.getD s 0 ≠ 0) (rest : List Bool) :
    readSym (create_codes lens) 16 0 0 (symCode lens s ++ rest) = some (s, rest) := by
  unfold symCode
  rw [create_codes_length_field lens s hs]
  have hfuel : lens.getD s 0 ≤ 16 := by
    have := hok.1 _ (getD_mem_of_lt lens s hs)
    omega
  exact readSym_correct lens L hok s hs hn 16 hfuel rest

theorem readSyms_correct (ll dl : List Nat) (Ll Ld : Nat)
    (hokl : lensOK ll Ll) (hokd : lensOK dl Ld) (hLl : Ll ≤ 15) (hLd : Ld ≤ 15)
    (heob1 : 256 < ll.length) (heob2 : ll.getD 256 0 ≠ 0) :
    ∀ (syms : List LZSym) (body : List Bool) (fuel : Nat) (acc : List LZSym)
      (rest : List Bool),
      (∀ s ∈ syms, symOK s) →
      writeSyms ll dl syms = some body →
      syms.length < fuel →
      readSyms ll dl fuel (body ++ (symCode ll 256 ++ rest)) acc =
        some (acc ++ syms, rest) := by
  intro syms
  induction syms with
  | nil =>
    intro body fuel acc rest _ hw hfuel
    have hb : body = [] := by
      unfold writeSyms at hw
      exact (Option.some.injEq _ _).mp hw.symm
    subst hb
    cases fuel with
    | zero => omega
    | succ f =>
      simp only [List.nil_append, readSyms]
      rw [symCode_reads ll Ll hokl hLl 256 heob1 heob2 rest]
      simp

  | cons x t ih =>
    intro body fuel acc rest hOK hw hfuel
    cases fuel with
    | zero => simp at hfuel
    | succ f =>
      unfold writeSyms at hw
      cases hx : writeSym ll dl x with
      | none =>
        rw [hx] at hw
        simp at hw
      | some a =>
        cases ht : writeSyms ll dl t with
        | none =>
          rw [hx, ht] at hw
          simp at hw
        | some b =>
          rw [hx, ht] at hw
          simp only [Option.some.injEq] at hw
          subst hw
          have hih := ih b f
          have hfl : t.length < f := by
            simp only [List.length_cons] at hfuel
            omega
          cases x with
          | Literal bv =>
            simp only [writeSym] at hx
            by_cases hc : bv < ll.length ∧ ll.getD bv 0 ≠ 0
            · rw [if_pos hc] at hx
              simp only [Option.some.injEq] at hx
              subst hx
              have hbv : bv < 256 := hOK (LZSym.Literal bv) (List.mem_cons_self _ _)
              simp only [List.append_assoc, readSyms]
              rw [symCode_reads ll Ll hokl hLl bv hc.1 hc.2]
              simp only [Option.some_bind]
              rw [if_pos hbv]
              rw [hih (acc ++ [LZSym.Literal bv]) rest
                (fun s hs => hOK s (List.mem_cons_of_mem _ hs)) ht hfl]
              simp
            · rw [if_neg hc] at hx
              simp at hx
          | MatchSym l d =>
            have hsOK : symOK (LZSym.MatchSym l d) :=
              hOK _ (List.mem_cons_self _ _)
            rcases hsOK with ⟨hl3, hl258, hd1, hd32768⟩
            rcases lengthToSym_spec l hl3 hl258 with
              ⟨s, e, lbase, ev, hl2s, hlinfo, hlbase, hlev, hs257, hs285⟩
            rcases distToSym_spec d hd1 hd32768 with
              ⟨ds, de, dbase, dev, hd2s, hdinfo, hdbase, hdev, hds29⟩
            simp only [writeSym] at hx
            rw [hl2s, hd2s] at hx
            have hx2 : (if s < ll.length ∧ ll.getD s 0 ≠ 0 ∧ ds < dl.length ∧
                dl.getD ds 0 ≠ 0 then
                some (symCode ll s ++ natBitsLSB ev e ++ symCode dl ds ++ natBitsLSB dev de)
              else none) = some a := hx
            by_cases hc : s < ll.length ∧ ll.getD s 0 ≠ 0 ∧ ds < dl.length ∧ dl.getD ds 0 ≠ 0
            · rw [if_pos hc] at hx2
              simp only [Option.some.injEq] at hx2
              subst hx2
              simp only [List.append_assoc, readSyms]
              rw [symCode_reads ll Ll hokl hLl s hc.1 hc.2.1]
              simp only [Option.some_bind]
              rw [if_neg (by omega), if_neg (by omega), hlinfo]
              simp only [Option.some_bind]
              rw [readBits_natBitsLSB e ev _, Nat.mod_eq_of_lt hlev]
              simp only [Option.some_bind]
              rw [symCode_reads dl Ld hokd hLd ds hc.2.2.1 hc.2.2.2]
              simp only [Option.some_bind]
              rw [hdinfo]
              simp only [Option.some_bind]
              rw [readBits_natBitsLSB de dev _, Nat.mod_eq_of_lt hdev]
              simp only [Option.some_bind]
              rw [hlbase, hdbase]
              rw [hih (acc ++ [LZSym.MatchSym l d]) rest
                (fun s2 hs2 => hOK s2 (List.mem_cons_of_mem _ hs2)) ht hfl]
              simp
            · rw [if_neg hc] at hx2
              simp at hx2

/-- Conformant expansion of the meta-alphabet sequence (§4.I): a literal
length emits itself and becomes the new previous value; 16 repeats the
previous value; 17/18 emit zeros (and the last emitted value becomes 0). -/
def elExpand : List EncodedLength → Nat → List Nat
  | [], _ => []
  | EncodedLength.Length v :: rest, _ => v :: elExpand rest v
  | EncodedLength.CopyPrevious n :: rest, prev =>
    List.replicate n prev ++ elExpand rest prev
  | EncodedLength.RepeatZero3Bits n :: rest, prev =>
    List.replicate n 0 ++ elExpand rest (if n = 0 then prev else 0)
  | EncodedLength.RepeatZero7Bits n :: rest, prev =>
    List.replicate n 0 ++ elExpand rest (if n = 0 then prev else 0)

theorem elExpand_rep_copy (m : Nat) : ∀ (k : Nat) (es : List EncodedLength) (v : Nat),
    elExpand (List.replicate k (EncodedLength.CopyPrevious m) ++ es) v =
      List.replicate (m * k) v ++ elExpand es v := by
  intro k
  induction k with
  | zero => intro es v; simp
  | succ j ih =>
    intro es v
    rw [List.replicate_succ, List.cons_append]
    simp only [elExpand]
    rw [ih es v]
    rw [show m * (j + 1) = m + m * j from by ring, List.replicate_add, List.append_assoc]

theorem elExpand_rep_len (v : Nat) : ∀ (k : Nat) (es : List EncodedLength) (p : Nat),
    elExpand (List.replicate k (EncodedLength.Length v) ++ es) p =
      List.replicate k v ++ elExpand es (if k = 0 then p else v) := by
  intro k
  induction k with
  | zero => intro es p; simp
  | succ j ih =>
    intro es p
    rw [List.replicate_succ, List.cons_append]
    simp only [elExpand]
    rw [ih es v]
    cases j with
    | zero => simp
    | succ j2 => simp [List.replicate_succ]

theorem elExpand_rep_rz7 (m : Nat) : ∀ (k : Nat) (es : List EncodedLength) (p : Nat),
    1 ≤ m →
    elExpand (List.replicate k (EncodedLength.RepeatZero7Bits m) ++ es) p =
      List.replicate (m * k) 0 ++ elExpand es (if k = 0 then p else 0) := by
  intro k
  induction k with
  | zero => intro es p _; simp
  | succ j ih =>
    intro es p hm
    rw [if_neg (by omega : ¬(j + 1 = 0))]
    rw [List.replicate_succ, List.cons_append]
    simp only [elExpand]
    rw [if_neg (by omega : ¬(m = 0))]
    rw [ih es 0 hm, ite_self]
    rw [show m * (j + 1) = m + m * j from by ring, List.replicate_add, List.append_assoc]

theorem splitRuns_join : ∀ l : List Nat,
    (splitRuns l).flatMap (fun q => List.replicate q.2 q.1) = l := by
  intro l
  induction l with
  | nil => rfl
  | cons a t ih =>
    simp only [splitRuns]
    cases hs : splitRuns t with
    | nil =>
      rw [hs] at ih
      simp at ih
      simp [ih.symm]
    | cons q rest =>
      obtain ⟨b, k⟩ := q
      rw [hs] at ih
      show ((if a = b then (b, k + 1) :: rest else
        (a, 1) :: (b, k) :: rest).flatMap fun q => List.replicate q.2 q.1) = a :: t
      by_cases hab : a = b
      · rw [if_pos hab]
        simp only [List.flatMap_cons] at ih ⊢
        rw [List.replicate_succ, hab]
        simp only [List.cons_append]
        rw [ih]
      · rw [if_neg hab]
        simp only [List.flatMap_cons] at ih ⊢
        rw [ih]
        simp

theorem splitRuns_pos : ∀ (l : List Nat) (q : Nat × Nat), q ∈ splitRuns l → 1 ≤ q.2 := by
  intro l
  induction l with
  | nil => intro q hq; simp [splitRuns] at hq
  | cons a t ih =>
    intro q hq
    simp only [splitRuns] at hq
    cases hs : splitRuns t with
    | nil =>
      rw [hs] at hq
      simp at hq
      rw [hq]
    | cons q2 rest =>
      obtain ⟨b, k⟩ := q2
      rw [hs] at hq
      have hq2 : q ∈ (if a = b then (b, k + 1) :: rest else
          (a, 1) :: (b, k) :: rest) := hq
      by_cases hab : a = b
      · rw [if_pos hab] at hq2
        rcases List.mem_cons.mp hq2 with h | h
        · rw [h]
          simp
        · exact ih q (by rw [hs]; exact List.mem_cons_of_mem _ h)
      · rw [if_neg hab] at hq2
        rcases List.mem_cons.mp hq2 with h | h
        · rw [h]
        · exact ih q (by rw [hs]; exact h)

theorem elExpand_runs : ∀ (runs : List (Nat × Nat)) (p : Nat),
    (∀ q ∈ runs, 1 ≤ q.2) →
    elExpand (runs.flatMap encodeRun) p =
      runs.flatMap (fun q => List.replicate q.2 q.1) := by
  intro runs
  induction runs with
  | nil =>
    intro p _
    rfl
  | cons q rest ih =>
    intro p hpos
    obtain ⟨v, r⟩ := q
    have hr : 1 ≤ r := hpos (v, r) (List.mem_cons_self _ _)
    have hrest : ∀ q2 ∈ rest, 1 ≤ q2.2 := fun q2 hq2 => hpos q2 (List.mem_cons_of_mem _ hq2)
    simp only [List.flatMap_cons]
    by_cases hv : v = 0
    · subst hv
      have he : encodeRun (0, r) = emitZeroRun r := by
        simp [encodeRun]
      rw [he]
      unfold emitZeroRun
      by_cases h3 : r < 3
      · rw [if_pos h3]
        rw [elExpand_rep_len 0 r _ p]
        rw [if_neg (by omega : ¬(r = 0))]
        rw [ih 0 hrest]
      · rw [if_neg h3]
        rw [List.append_assoc]
        rw [elExpand_rep_rz7 138 (r / 138) _ p (by omega)]
        by_cases hm0 : r % 138 = 0
        · rw [if_pos hm0]
          rw [List.nil_append, ih _ hrest]
          rw [show (138 : Nat) * (r / 138) = r from by omega]
        · rw [if_neg hm0]
          by_cases hlt3 : r % 138 < 3
          · rw [if_pos hlt3]
            rw [elExpand_rep_len 0 (r % 138) _ _]
            rw [if_neg hm0]
            rw [ih 0 hrest]
            rw [← List.append_assoc, ← List.replicate_add]
            rw [show 138 * (r / 138) + r % 138 = r from by omega]
          · rw [if_neg hlt3]
            by_cases hle10 : r % 138 ≤ 10
            · rw [if_pos hle10]
              simp only [List.singleton_append, List.append_eq, List.nil_append, elExpand]
              rw [if_neg hm0, ih 0 hrest]
              rw [← List.append_assoc, ← List.replicate_add]
              rw [show 138 * (r / 138) + r % 138 = r from by omega]
            · rw [if_neg hle10]
              simp only [List.singleton_append, List.append_eq, List.nil_append, elExpand]
              rw [if_neg hm0, ih 0 hrest]
              rw [← List.append_assoc, ← List.replicate_add]
              rw [show 138 * (r / 138) + r % 138 = r from by omega]
    · have he : encodeRun (v, r) = emitNonzeroRun v r := by
        simp [encodeRun, hv]
      rw [he]
      unfold emitNonzeroRun
      simp only [List.cons_append, List.append_eq, elExpand]
      rw [List.append_assoc]
      rw [elExpand_rep_copy 6 ((r - 1) / 6) _ v]
      have hrep : List.replicate r v = v :: List.replicate (r - 1) v := by
        rw [show r = (r - 1) + 1 from by omega, List.replicate_succ]
        simp
      by_cases h36 : 3 ≤ (r - 1) % 6
      · rw [if_pos h36]
        simp only [List.singleton_append, List.append_eq, List.nil_append, elExpand]
        rw [ih v hrest]
        rw [← List.append_assoc, ← List.replicate_add]
        rw [show 6 * ((r - 1) / 6) + (r - 1) % 6 = r - 1 from by omega]
        rw [hrep]
        simp [List.cons_append]
      · rw [if_neg h36]
        rw [elExpand_rep_len v ((r - 1) % 6) _ v]
        rw [ite_self]
        rw [ih v hrest]
        rw [← List.append_assoc, ← List.replicate_add]
        rw [show 6 * ((r - 1) / 6) + (r - 1) % 6 = r - 1 from by omega]
        rw [hrep]
        simp [List.cons_append]

theorem elExpand_encode_lengths (l : List Nat) (p : Nat) :
    elExpand (encode_lengths l).1 p = l := by
  show elExpand ((splitRuns l).flatMap encodeRun) p = l
  rw [elExpand_runs (splitRuns l) p (splitRuns_pos l)]
  exact splitRuns_join l

/-- Tight ranges of the emitted meta symbols (§4.I): repeat symbols carry
counts inside the representable extra-bit ranges. -/
def elTight : EncodedLength → Prop
  | EncodedLength.Length n => n ≤ 15
  | EncodedLength.CopyPrevious n => 3 ≤ n ∧ n ≤ 6
  | EncodedLength.RepeatZero3Bits n => 3 ≤ n ∧ n ≤ 10
  | EncodedLength.RepeatZero7Bits n => 11 ≤ n ∧ n ≤ 138

theorem emitZeroRun_elTight (r : Nat) : ∀ e ∈ emitZeroRun r, elTight e := by
  intro e he
  unfold emitZeroRun at he
  by_cases h3 : r < 3
  · rw [if_pos h3] at he
    rw [List.eq_of_mem_replicate he]
    show (0 : Nat) ≤ 15
    omega
  · rw [if_neg h3] at he
    rcases List.mem_append.mp he with h | h
    · rw [List.eq_of_mem_replicate h]
      exact ⟨by omega, by omega⟩
    · by_cases hm0 : r % 138 = 0
      · rw [if_pos hm0] at h
        simp at h
      · rw [if_neg hm0] at h
        by_cases hlt3 : r % 138 < 3
        · rw [if_pos hlt3] at h
          rw [List.eq_of_mem_replicate h]
          show (0 : Nat) ≤ 15
          omega
        · rw [if_neg hlt3] at h
          by_cases hle10 : r % 138 ≤ 10
          · rw [if_pos hle10] at h
            rw [List.mem_singleton.mp h]
            exact ⟨by omega, by omega⟩
          · rw [if_neg hle10] at h
            rw [List.mem_singleton.mp h]
            exact ⟨by omega, Nat.le_of_lt_succ (by
              have := Nat.mod_lt r (show 0 < 138 from by omega)
              omega)⟩

theorem emitNonzeroRun_elTight (v r : Nat) (hv : v ≤ 15) :
    ∀ e ∈ emitNonzeroRun v r, elTight e := by
  intro e he
  unfold emitNonzeroRun at he
  rcases List.mem_cons.mp he with h | h
  · rw [h]
    exact hv
  · rcases List.mem_append.mp h with h2 | h2
    · rw [List.eq_of_mem_replicate h2]
      exact ⟨by omega, by omega⟩
    · by_cases h36 : 3 ≤ (r - 1) % 6
      · rw [if_pos h36] at h2
        rw [List.mem_singleton.mp h2]
        have := Nat.mod_lt (r - 1) (show 0 < 6 from by omega)
        exact ⟨h36, by omega⟩
      · rw [if_neg h36] at h2
        rw [List.eq_of_mem_replicate h2]
        exact hv

theorem encode_lengths_elTight (l : List Nat) (hl : ∀ v ∈ l, v ≤ 15) :
    ∀ e ∈ (encode_lengths l).1, elTight e := by
  intro e he
  have he2 : e ∈ (splitRuns l).flatMap encodeRun := he
  rcases List.mem_flatMap.mp he2 with ⟨q, hq, hqe⟩
  unfold encodeRun at hqe
  by_cases hq0 : q.1 = 0
  · rw [if_pos hq0] at hqe
    exact emitZeroRun_elTight q.2 e hqe
  · rw [if_neg hq0] at hqe
    exact emitNonzeroRun_elTight q.1 q.2 (hl q.1 (splitRuns_val_mem l q hq)) e hqe

/-- The code-length reading loop of a conformant dynamic-header decoder:
read meta-coded symbols and expand them (literal, repeat-previous,
repeat-zero) until `target` lengths have been produced. -/
def readLens (codes : List HuffmanCode) : Nat → Nat → List Nat → Nat → List Bool →
    Option (List Nat × List Bool)
  | 0, _, _, _, _ => none
  | fuel + 1, target, acc, prev, bits =>
    if target ≤ acc.length then some (acc, bits)
    else
      (readSym codes 8 0 0 bits).bind (fun p1 =>
        if p1.1 ≤ 15 then readLens codes fuel target (acc ++ [p1.1]) p1.1 p1.2
        else if p1.1 = 16 then
          (readBits 2 p1.2).bind (fun p2 =>
            readLens codes fuel target (acc ++ List.replicate (p2.1 + 3) prev) prev p2.2)
        else if p1.1 = 17 then
          (readBits 3 p1.2).bind (fun p2 =>
            readLens codes fuel target (acc ++ List.replicate (p2.1 + 3) 0) 0 p2.2)
        else if p1.1 = 18 then
          (readBits 7 p1.2).bind (fun p2 =>
            readLens codes fuel target (acc ++ List.replicate (p2.1 + 11) 0) 0 p2.2)
        else none)

theorem metaSym_reads (M : List Nat) (hok : lensOK M 7) (sym : Nat) (hs : sym < M.length)
    (hn : M.getD sym 0 ≠ 0) (rest : List Bool) :
    readSym (create_codes M) 8 0 0
      (natBitsLSB ((create_codes M).getD sym ⟨0, 0⟩).code
        ((create_codes M).getD sym ⟨0, 0⟩).length ++ rest) = some (sym, rest) := by
  rw [create_codes_length_field M sym hs]
  refine readSym_correct M 7 hok sym hs hn 8 ?_ rest
  have := hok.1 _ (getD_mem_of_lt M sym hs)
  omega

theorem readLens_correct (M : List Nat) (hok : lensOK M 7) (hM : M.length = 19) :
    ∀ (es : List EncodedLength) (ws : List (Nat × Nat)) (acc : List Nat) (prev : Nat)
      (rest : List Bool) (fuel target : Nat),
      (∀ e ∈ es, elTight e) →
      (∀ e ∈ es, M.getD (elSymbol e) 0 ≠ 0) →
      writeLengthCodes (create_codes M) es = some ws →
      es.length < fuel →
      target = acc.length + (elExpand es prev).length →
      readLens (create_codes M) fuel target acc prev (writeEvents ws ++ rest) =
        some (acc ++ elExpand es prev, rest) := by
  intro es
  induction es with
  | nil =>
    intro ws acc prev rest fuel target _ _ hw hfuel ht
    have hws : ws = [] := by
      unfold writeLengthCodes at hw
      exact ((Option.some.injEq _ _).mp hw).symm
    subst hws
    cases fuel with
    | zero => omega
    | succ f =>
      simp only [elExpand, List.length_nil, Nat.add_zero] at ht
      simp only [readLens, writeEvents, List.flatMap_nil, List.nil_append]
      rw [if_pos (by omega)]
      simp [elExpand]
  | cons e es2 ih =>
    intro ws acc prev rest fuel target hT hU hw hfuel ht
    cases fuel with
    | zero => simp at hfuel
    | succ f =>
      have hTe : elTight e := hT e (List.mem_cons_self _ _)
      have hUe : M.getD (elSymbol e) 0 ≠ 0 := hU e (List.mem_cons_self _ _)
      have hT2 : ∀ x ∈ es2, elTight x := fun x hx => hT x (List.mem_cons_of_mem _ hx)
      have hU2 : ∀ x ∈ es2, M.getD (elSymbol x) 0 ≠ 0 :=
        fun x hx => hU x (List.mem_cons_of_mem _ hx)
      have hf2 : es2.length < f := by
        simp only [List.length_cons] at hfuel
        omega
      cases e with
      | Length n =>
        have hn15 : n ≤ 15 := hTe
        have hn19 : n < (create_codes M).length := by
          rw [create_codes_length, hM]
          omega
        have hnM : n < M.length := by
          rw [hM]
          omega
        unfold writeLengthCodes at hw
        rw [getElem?_eq_some_getD (create_codes M) ⟨0, 0⟩ n hn19] at hw
        cases hrec : writeLengthCodes (create_codes M) es2 with
        | none =>
          rw [hrec] at hw
          simp at hw
        | some ws2 =>
          rw [hrec] at hw
          simp only [Option.some.injEq] at hw
          subst hw
          simp only [writeEvents, List.flatMap_cons, List.append_assoc]
          simp only [elExpand, List.length_cons] at ht
          simp only [readLens]
          rw [if_neg (by omega)]
          have hsym := metaSym_reads M hok n hnM (by exact hUe) (writeEvents ws2 ++ rest)
          rw [show (writeEvents ws2 ++ rest : List Bool) =
            ws2.flatMap (fun w => natBitsLSB w.1 w.2) ++ rest from rfl] at hsym
          rw [hsym]
          simp only [Option.some_bind]
          rw [if_pos hn15]
          have hI := ih ws2 (acc ++ [n]) n rest f target hT2 hU2 hrec hf2
            (by rw [List.length_append]; simp; omega)
          unfold writeEvents at hI
          rw [hI]
          simp [elExpand, List.append_assoc]
      | CopyPrevious n =>
        obtain ⟨hn3, hn6⟩ := hTe
        have h16 : (16 : Nat) < (create_codes M).length := by
          rw [create_codes_length, hM]
          omega
        have h16M : (16 : Nat) < M.length := by
          rw [hM]
          omega
        unfold writeLengthCodes at hw
        rw [show COPY_PREVIOUS = 16 from rfl] at hw
        rw [getElem?_eq_some_getD (create_codes M) ⟨0, 0⟩ 16 h16] at hw
        cases hrec : writeLengthCodes (create_codes M) es2 with
        | none =>
          rw [hrec] at hw
          simp at hw
        | some ws2 =>
          rw [hrec] at hw
          have hw2 : (if 3 ≤ n then
              some ((((create_codes M).getD 16 ⟨0, 0⟩).code,
                ((create_codes M).getD 16 ⟨0, 0⟩).length) :: (n - 3, 2) :: ws2)
            else none) = some ws := hw
          rw [if_pos hn3] at hw2
          simp only [Option.some.injEq] at hw2
          subst hw2
          simp only [writeEvents, List.flatMap_cons, List.append_assoc]
          simp only [elExpand] at ht
          rw [List.length_append, List.length_replicate] at ht
          simp only [readLens]
          rw [if_neg (by omega)]
          have hsym := metaSym_reads M hok 16 h16M (by exact hUe)
            (natBitsLSB (n - 3) 2 ++ (ws2.flatMap (fun w => natBitsLSB w.1 w.2) ++ rest))
          rw [hsym]
          simp only [Option.some_bind]
          norm_num
          rw [readBits_natBitsLSB 2 (n - 3) _]
          rw [Nat.mod_eq_of_lt (by omega : n - 3 < 2 ^ 2)]
          simp only [Option.some_bind]
          rw [show n - 3 + 3 = n from by omega]
          have hI := ih ws2 (acc ++ List.replicate n prev) prev rest f target hT2 hU2 hrec hf2
            (by rw [List.length_append, List.length_replicate]; omega)
          unfold writeEvents at hI
          rw [hI]
          simp [elExpand, List.append_assoc]
      | RepeatZero3Bits n =>
        obtain ⟨hn3, hn10⟩ := hTe
        have h17 : (17 : Nat) < (create_codes M).length := by
          rw [create_codes_length, hM]
          omega
        have h17M : (17 : Nat) < M.length := by
          rw [hM]
          omega
        have hEx : elExpand (EncodedLength.RepeatZero3Bits n :: es2) prev =
            List.replicate n 0 ++ elExpand es2 0 := by
          simp only [elExpand]
          rw [if_neg (by omega)]
        unfold writeLengthCodes at hw
        rw [show REPEAT_ZERO_3_BITS = 17 from rfl] at hw
        rw [getElem?_eq_some_getD (create_codes M) ⟨0, 0⟩ 17 h17] at hw
        cases hrec : writeLengthCodes (create_codes M) es2 with
        | none =>
          rw [hrec] at hw
          simp at hw
        | some ws2 =>
          rw [hrec] at hw
          have hw2 : (if 3 ≤ n then
              some ((((create_codes M).getD 17 ⟨0, 0⟩).code,
                ((create_codes M).getD 17 ⟨0, 0⟩).length) :: (n - 3, 3) :: ws2)
            else none) = some ws := hw
          rw [if_pos hn3] at hw2
          simp only [Option.some.injEq] at hw2
          subst hw2
          rw [hEx] at ht ⊢
          rw [List.length_append, List.length_replicate] at ht
          simp only [writeEvents, List.flatMap_cons, List.append_assoc]
          simp only [readLens]
          rw [if_neg (by omega)]
          have hsym := metaSym_reads M hok 17 h17M (by exact hUe)
            (natBitsLSB (n - 3) 3 ++ (ws2.flatMap (fun w => natBitsLSB w.1 w.2) ++ rest))
          rw [hsym]
          simp only [Option.some_bind]
          norm_num
          rw [readBits_natBitsLSB 3 (n - 3) _]
          rw [Nat.mod_eq_of_lt (by omega : n - 3 < 2 ^ 3)]
          simp only [Option.some_bind]
          rw [show n - 3 + 3 = n from by omega]
          have hI := ih ws2 (acc ++ List.replicate n 0) 0 rest f target hT2 hU2 hrec hf2
            (by rw [List.length_append, List.length_replicate]; omega)
          unfold writeEvents at hI
          rw [hI]
          simp [List.append_assoc]
      | RepeatZero7Bits n =>
        obtain ⟨hn11, hn138⟩ := hTe
        have h18 : (18 : Nat) < (create_codes M).length := by
          rw [create_codes_length, hM]
          omega
        have h18M : (18 : Nat) < M.length := by
          rw [hM]
          omega
        have hEx : elExpand (EncodedLength.RepeatZero7Bits n :: es2) prev =
            List.replicate n 0 ++ elExpand es2 0 := by
          simp only [elExpand]
          rw [if_neg (by omega)]
        unfold writeLengthCodes at hw
        rw [show REPEAT_ZERO_7_BITS = 18 from rfl] at hw
        rw [getElem?_eq_some_getD (create_codes M) ⟨0, 0⟩ 18 h18] at hw
        cases hrec : writeLengthCodes (create_codes M) es2 with
        | none =>
          rw [hrec] at hw
          simp at hw
        | some ws2 =>
          rw [hrec] at hw
          have hw2 : (if 11 ≤ n then
              some ((((create_codes M).getD 18 ⟨0, 0⟩).code,
                ((create_codes M).getD 18 ⟨0, 0⟩).length) :: (n - 11, 7) :: ws2)
            else none) = some ws := hw
          rw [if_pos (by omega : 11 ≤ n)] at hw2
          simp only [Option.some.injEq] at hw2
          subst hw2
          rw [hEx] at ht ⊢
          rw [List.length_append, List.length_replicate] at ht
          simp only [writeEvents, List.flatMap_cons, List.append_assoc]
          simp only [readLens]
          rw [if_neg (by omega)]
          have hsym := metaSym_reads M hok 18 h18M (by exact hUe)
            (natBitsLSB (n - 11) 7 ++ (ws2.flatMap (fun w => natBitsLSB w.1 w.2) ++ rest))
          rw [hsym]
          simp only [Option.some_bind]
          norm_num
          rw [readBits_natBitsLSB 7 (n - 11) _]
          rw [Nat.mod_eq_of_lt (by omega : n - 11 < 2 ^ 7)]
          simp only [Option.some_bind]
          rw [show n - 11 + 11 = n from by omega]
          have hI := ih ws2 (acc ++ List.replicate n 0) 0 rest f target hT2 hU2 hrec hf2
            (by rw [List.length_append, List.length_replicate]; omega)
          unfold writeEvents at hI
          rw [hI]
          simp [List.append_assoc]

/-- The fixed inverse of `HUFFMAN_LENGTH_ORDER`: the position at which each
meta symbol's code length is transmitted. -/
def INV_LENGTH_ORDER : List Nat :=
  [3, 17, 15, 13, 11, 9, 7, 5, 4, 6, 8, 10, 12, 14, 16, 18, 0, 1, 2]

/-- Read `k` 3-bit values (the permuted meta code lengths). -/
def read3x : Nat → List Bool → Option (List Nat × List Bool)
  | 0, bits => some ([], bits)
  | k + 1, bits =>
    (readBits 3 bits).bind (fun p =>
      (read3x k p.2).bind (fun q => some (p.1 :: q.1, q.2)))

theorem read3x_correct : ∀ (vs : List Nat) (rest : List Bool),
    (∀ v ∈ vs, v < 8) →
    read3x vs.length (writeEvents (vs.map (fun v => (v, 3))) ++ rest) =
      some (vs, rest) := by
  intro vs
  induction vs with
  | nil =>
    intro rest _
    rfl
  | cons v t ih =>
    intro rest hv
    simp only [List.map_cons, writeEvents, List.flatMap_cons, List.append_assoc,
      List.length_cons, read3x]
    rw [readBits_natBitsLSB 3 v _]
    rw [Nat.mod_eq_of_lt (show v < 2 ^ 3 from hv v (List.mem_cons_self _ _))]
    simp only [Option.some_bind]
    have hI := ih rest (fun x hx => hv x (List.mem_cons_of_mem _ hx))
    unfold writeEvents at hI
    rw [hI]
    simp

/-- Rebuild the 19 meta code lengths from the transmitted (permuted) values;
untransmitted positions default to 0. -/
def unpermuteLens (vs : List Nat) : List Nat :=
  (List.range 19).map (fun i => vs.getD (INV_LENGTH_ORDER.getD i 0) 0)

theorem unpermuteLens_eq (M : List Nat) (hM : M.length = 19) :
    unpermuteLens (HUFFMAN_LENGTH_ORDER.map (fun n => M.getD n 0)) = M := by
  unfold unpermuteLens
  apply List.ext_getElem
  · simp [hM]
  · intro i h1 h2
    simp only [List.getElem_map, List.getElem_range]
    rw [← List.getD_eq_getElem M 0 h2]
    have h19 : i < 19 := by
      rw [hM] at h2
      exact h2
    interval_cases i <;> rfl

theorem elExpand_length_ge : ∀ (es : List EncodedLength), (∀ e ∈ es, elTight e) →
    ∀ p, es.length ≤ (elExpand es p).length := by
  intro es
  induction es with
  | nil =>
    intro _ p
    simp
  | cons e t ih =>
    intro hT p
    have hI := ih (fun x hx => hT x (List.mem_cons_of_mem _ hx))
    have hTe := hT e (List.mem_cons_self _ _)
    cases e with
    | Length n =>
      simp only [elExpand, List.length_cons]
      have := hI n
      omega
    | CopyPrevious n =>
      obtain ⟨h3, _⟩ := hTe
      simp only [elExpand, List.length_append, List.length_replicate, List.length_cons]
      have := hI p
      omega
    | RepeatZero3Bits n =>
      obtain ⟨h3, _⟩ := hTe
      simp only [elExpand, List.length_append, List.length_replicate, List.length_cons]
      have := hI (if n = 0 then p else 0)
      omega
    | RepeatZero7Bits n =>
      obtain ⟨h3, _⟩ := hTe
      simp only [elExpand, List.length_append, List.length_replicate, List.length_cons]
      have := hI (if n = 0 then p else 0)
      omega

theorem elExpand_encode_append (ll dl : List Nat) (p : Nat) :
    elExpand ((encode_lengths ll).1 ++ (encode_lengths dl).1) p = ll ++ dl := by
  show elExpand ((splitRuns ll).flatMap encodeRun ++ (splitRuns dl).flatMap encodeRun) p =
    ll ++ dl
  rw [← List.flatMap_append]
  rw [elExpand_runs _ p (by
    intro q hq
    rcases List.mem_append.mp hq with h | h
    · exact splitRuns_pos ll q h
    · exact splitRuns_pos dl q h)]
  rw [List.flatMap_append, splitRuns_join, splitRuns_join]

/-- A conformant decoder's dynamic-header reader: HLIT, HDIST, HCLEN, the
permuted meta code lengths, then the run-length-coded lengths of both
alphabets, split at HLIT+257. -/
def readDynHeader (bits : List Bool) : Option ((List Nat × List Nat) × List Bool) :=
  (readBits 5 bits).bind (fun h1 =>
    (readBits 5 h1.2).bind (fun h2 =>
      (readBits 4 h2.2).bind (fun h3 =>
        (read3x (h3.1 + 4) h3.2).bind (fun pv =>
          (readLens (create_codes (unpermuteLens pv.1))
              (h1.1 + 257 + (h2.1 + 1) + 1) (h1.1 + 257 + (h2.1 + 1)) [] 0 pv.2).bind
            (fun pl =>
              some ((pl.1.take (h1.1 + 257), pl.1.drop (h1.1 + 257)), pl.2))))))

theorem readDynHeader_correct (ll dl : List Nat) (ws : List (Nat × Nat)) (rest : List Bool)
    (h1 : 257 ≤ ll.length) (h2 : ll.length ≤ 286)
    (h3 : 1 ≤ dl.length) (h4 : dl.length ≤ 30)
    (h5 : ∀ v ∈ ll, v ≤ 15) (h6 : ∀ v ∈ dl, v ≤ 15)
    (hmok : lensOK (metaLengths ll dl) 7)
    (hmuse : ∀ e ∈ (encode_lengths ll).1 ++ (encode_lengths dl).1,
      (metaLengths ll dl).getD (elSymbol e) 0 ≠ 0)
    (hw : write_huffman_lengths ll dl = some ws) :
    readDynHeader (writeEvents ws ++ rest) = some ((ll, dl), rest) := by
  have hMlen : (metaLengths ll dl).length = 19 := metaLengths_length ll dl
  unfold write_huffman_lengths at hw
  rw [if_pos (⟨by have hnl : NUM_LITERALS_AND_LENGTHS = 286 := rfl; omega,
    by have hnd : NUM_DISTANCE_CODES = 30 := rfl; omega⟩ :
      ll.length ≤ NUM_LITERALS_AND_LENGTHS ∧ dl.length ≤ NUM_DISTANCE_CODES)] at hw
  rw [show rSub ll.length 257 = some (ll.length - 257) from by
    unfold rSub; rw [if_pos h1]] at hw
  rw [show rSub dl.length 1 = some (dl.length - 1) from by
    unfold rSub; rw [if_pos h3]] at hw
  rw [show rSub (metaLengths ll dl).length 4 = some ((metaLengths ll dl).length - 4) from by
    unfold rSub; rw [if_pos (by omega)]] at hw
  rw [writePermutedLengths_eq (metaLengths ll dl) hMlen] at hw
  cases henc : writeLengthCodes (create_codes (metaLengths ll dl))
      ((encode_lengths ll).1 ++ (encode_lengths dl).1) with
  | none =>
    rw [henc] at hw
    simp at hw
  | some encW =>
    rw [henc] at hw
    simp only [Option.some.injEq] at hw
    subst hw
    unfold readDynHeader
    simp only [writeEvents, List.flatMap_cons, List.flatMap_append, List.append_assoc]
    rw [show HLIT_BITS = 5 from rfl, show HDIST_BITS = 5 from rfl,
      show HCLEN_BITS = 4 from rfl]
    rw [readBits_natBitsLSB 5 (ll.length - 257) _]
    rw [Nat.mod_eq_of_lt (by omega : ll.length - 257 < 2 ^ 5)]
    simp only [Option.some_bind]
    rw [readBits_natBitsLSB 5 (dl.length - 1) _]
    rw [Nat.mod_eq_of_lt (by omega : dl.length - 1 < 2 ^ 5)]
    simp only [Option.some_bind]
    rw [hMlen]
    rw [readBits_natBitsLSB 4 (19 - 4) _]
    rw [Nat.mod_eq_of_lt (by omega : 19 - 4 < 2 ^ 4)]
    simp only [Option.some_bind]
    have hvs : ∀ v ∈ HUFFMAN_LENGTH_ORDER.map
        (fun n => (metaLengths ll dl).getD n 0), v < 8 := by
      intro v hv
      rcases List.mem_map.mp hv with ⟨n, hn, hvn⟩
      have hn19 : n < 19 := by
        have hall : ∀ m ∈ HUFFMAN_LENGTH_ORDER, m < 19 := by decide
        exact hall n hn
      have := hmok.1 _ (getD_mem_of_lt (metaLengths ll dl) n (by omega))
      omega
    have h3x := read3x_correct
      (HUFFMAN_LENGTH_ORDER.map (fun n => (metaLengths ll dl).getD n 0))
      (writeEvents encW ++ rest) hvs
    rw [List.map_map] at h3x
    rw [List.length_map] at h3x
    rw [show HUFFMAN_LENGTH_ORDER.length = 19 from rfl] at h3x
    rw [show ((fun v => (v, 3)) ∘ fun n => (metaLengths ll dl).getD n 0) =
      (fun n => ((metaLengths ll dl).getD n 0, 3)) from rfl] at h3x
    unfold writeEvents at h3x
    rw [show (19 : Nat) - 4 + 4 = 19 from rfl]
    rw [h3x]
    simp only [Option.some_bind]
    rw [unpermuteLens_eq (metaLengths ll dl) hMlen]
    have hTall : ∀ e ∈ (encode_lengths ll).1 ++ (encode_lengths dl).1, elTight e := by
      intro e he
      rcases List.mem_append.mp he with h | h
      · exact encode_lengths_elTight ll h5 e h
      · exact encode_lengths_elTight dl h6 e h
    have hexp := elExpand_encode_append ll dl 0
    have hlenle := elExpand_length_ge _ hTall 0
    rw [hexp] at hlenle
    have hrl := readLens_correct (metaLengths ll dl) hmok hMlen
      ((encode_lengths ll).1 ++ (encode_lengths dl).1) encW [] 0 rest
      (ll.length - 257 + 257 + (dl.length - 1 + 1) + 1)
      (ll.length - 257 + 257 + (dl.length - 1 + 1))
      hTall hmuse henc
      (by
        have hle := hlenle
        rw [List.length_append, List.length_append] at hle
        rw [List.length_append]
        omega)
      (by
        rw [hexp, List.length_append]
        simp
        omega)
    rw [hexp] at hrl
    unfold writeEvents at hrl
    rw [hrl]
    simp only [Option.some_bind, List.nil_append]
    rw [show ll.length - 257 + 257 = ll.length from by omega]
    rw [List.take_left, List.drop_left]

/-- The fixed literal/length code lengths (§4.J): 8 for 0..=143, 9 for
144..=255, 7 for 256..=279, 8 for 280..=287. -/
def fixedLitLens : List Nat :=
  List.replicate 144 8 ++ List.replicate 112 9 ++ List.replicate 24 7 ++ List.replicate 8 8

/-- The fixed distance code lengths (§4.J): 5 bits for all 30 codes. -/
def fixedDistLens : List Nat := List.replicate 30 5

/-- The literal/length symbol an LZ77 symbol is coded with (§3). -/
def litLenSymOf : LZSym → Nat
  | LZSym.Literal b => b
  | LZSym.MatchSym l _ =>
    match lengthToSym l with
    | some (s, _, _) => s
    | none => 0

/-- The distance code a match is coded with, if any (§3). -/
def distSymOf : LZSym → Option Nat
  | LZSym.Literal _ => none
  | LZSym.MatchSym _ d =>
    match distToSym d with
    | some (s, _, _) => some s
    | none => none

/-- The literal/length histogram of a block (§4.G), end-of-block included
with frequency 1. -/
def litFreqs (syms : List LZSym) : List Nat :=
  (List.range 286).map (fun s =>
    syms.countP (fun x => litLenSymOf x = s) + (if s = 256 then 1 else 0))

/-- The distance histogram of a block (§4.G). -/
def distFreqs (syms : List LZSym) : List Nat :=
  (List.range 30).map (fun s => syms.countP (fun x => distSymOf x = some s))

/-- One past the last nonzero entry of a length vector. -/
def lastNonzero (l : List Nat) : Nat :=
  l.length - (l.reverse.takeWhile (fun v => v = 0)).length

/-- Trim trailing zeros, keeping at least `minLen` entries (§4.I: `hlit` and
`hdist` are the minimum sizes producing a trailing-zero-free vector). -/
def trimTo (minLen : Nat) (l : List Nat) : List Nat :=
  l.take (max minLen (lastNonzero l))

/-- The literal/length code lengths a block is coded with. -/
def blockLitLens (syms : List LZSym) : List Nat :=
  trimTo 257 (huffman_lengths_from_frequency (litFreqs syms) 15)

/-- The distance code lengths a block is coded with. -/
def blockDistLens (syms : List LZSym) : List Nat :=
  trimTo 1 (huffman_lengths_from_frequency (distFreqs syms) 15)

/-- The §4.H/§4.I contract the block writer relies on before emitting a
dynamic block; the writer validates it at runtime and treats a violation as
a broken invariant (§7, modelled as `none`). -/
def dynOK (ll dl : List Nat) : Prop :=
  257 ≤ ll.length ∧ ll.length ≤ 286 ∧ 1 ≤ dl.length ∧ dl.length ≤ 30 ∧
  lensOK ll 15 ∧ lensOK dl 15 ∧ lensOK (metaLengths ll dl) 7 ∧
  (∀ e ∈ (encode_lengths ll).1 ++ (encode_lengths dl).1,
    (metaLengths ll dl).getD (elSymbol e) 0 ≠ 0) ∧
  ll.getD 256 0 ≠ 0

instance dynOK_dec (ll dl : List Nat) : Decidable (dynOK ll dl) := by
  unfold dynOK
  infer_instance

/-- A dynamic block (§4.J): header bits `BTYPE=10`, the §4.I header, the
coded symbols, the end-of-block code. -/
def dynamicBlock (syms : List LZSym) (bfinal : Bool) : Option (List Bool) :=
  if dynOK (blockLitLens syms) (blockDistLens syms) then
    (write_huffman_lengths (blockLitLens syms) (blockDistLens syms)).bind (fun hdr =>
      (writeSyms (blockLitLens syms) (blockDistLens syms) syms).bind (fun body =>
        some ((bfinal :: natBitsLSB 2 2) ++
          (writeEvents hdr ++ (body ++ symCode (blockLitLens syms) 256)))))
  else none

/-- A fixed block (§4.J): `BTYPE=01`, symbols under the fixed tables. -/
def fixedBlock (syms : List LZSym) (bfinal : Bool) : Option (List Bool) :=
  (writeSyms fixedLitLens fixedDistLens syms).bind (fun body =>
    some ((bfinal :: natBitsLSB 1 2) ++ (body ++ symCode fixedLitLens 256)))

/-- A stored block (§4.J): `BTYPE=00`, align to a byte boundary, LEN, NLEN
(one's complement), then the raw bytes; LEN is a 16-bit field. -/
def storedBlock (bytes : List Nat) (bfinal : Bool) (pos : Nat) : Option (List Bool) :=
  if bytes.length ≤ 65535 then
    some ((bfinal :: natBitsLSB 0 2) ++
      (List.replicate ((8 - (pos + 3) % 8) % 8) false ++
        (natBitsLSB bytes.length 16 ++
          (natBitsLSB (65535 - bytes.length) 16 ++ bytesToBits bytes))))
  else none

/-- `Σ f_i · len_i` over a frequency and a length vector. -/
def dotSum (a b : List Nat) : Nat := ((a.zip b).map (fun p => p.1 * p.2)).sum

/-- Estimated bit size of the block body under the fixed tables (§4.J). -/
def fixedEst (syms : List LZSym) : Nat :=
  dotSum (litFreqs syms) fixedLitLens + dotSum (distFreqs syms) fixedDistLens

/-- Estimated bit size of a dynamic block: body plus the meta-table cost
(§4.J). -/
def dynEst (syms : List LZSym) (ll dl : List Nat) : Nat :=
  dotSum (litFreqs syms) ll + dotSum (distFreqs syms) dl +
    (14 + 57 + dotSum (mergedFreqs ll dl) (metaLengths ll dl))

/-- Estimated bit size of a stored block: `8 · byte_count + alignment + 40`
(§4.J). -/
def storedEst (n pos : Nat) : Nat := 8 * n + (8 - (pos + 3) % 8) % 8 + 40

/-- Modelled from the spec (§4.J): one block of the writer.  The encoding is
chosen by comparing the three size estimates (ties toward dynamic, then
fixed, then stored); dynamic is unavailable when the distance histogram is
all-zero (§4.H failure clause), stored when the run exceeds the 16-bit LEN
field. -/
def writeBlock (x : List Nat) (off : Nat) (syms : List LZSym) (bfinal : Bool)
    (pos : Nat) : Option (List Bool) :=
  let n := (syms.map symBytes).sum
  let de := dynEst syms (blockLitLens syms) (blockDistLens syms)
  let fe := fixedEst syms
  let se := storedEst n pos
  if (¬ ∀ v ∈ distFreqs syms, v = 0) ∧ de ≤ fe ∧ (de ≤ se ∨ 65535 < n) then
    dynamicBlock syms bfinal
  else if fe ≤ se ∨ 65535 < n then
    fixedBlock syms bfinal
  else
    storedBlock ((x.drop off).take n) bfinal pos

/-- Split the symbol stream into blocks of at most 16384 symbols (§3: the
block buffer is bounded; a final empty block carries the end marker). -/
def chunkList : Nat → List LZSym → List (List LZSym)
  | 0, _ => []
  | _, [] => []
  | fuel + 1, l => l.take 16384 :: chunkList fuel (l.drop 16384)

def symChunks (syms : List LZSym) : List (List LZSym) :=
  if syms.isEmpty then [[]] else chunkList syms.length syms

/-- Modelled from the spec (§4.J/§4.K): emit every block, the last one with
`BFINAL=1`, tracking the byte offset and the bit position. -/
def writeBlocks (x : List Nat) : List (List LZSym) → Nat → Nat → Option (List Bool)
  | [], _, _ => none
  | [c], off, pos => writeBlock x off c true pos
  | c :: c2 :: rest, off, pos =>
    (writeBlock x off c false pos).bind (fun bits =>
      (writeBlocks x (c2 :: rest) (off + (c.map symBytes).sum) (pos + bits.length)).bind
        (fun more => some (bits ++ more)))

/-- Modelled from the spec: the DEFLATE stream of the whole input
(`compress_data_dynamic_n`, source absent): LZ77-compress, split into
blocks, emit, flush the bit writer with zero padding (§4.K `Finish`). -/
def deflate_stream (x : List Nat) (opts : CompressionOptions) : Option (List Bool) :=
  writeBlocks x (symChunks (lz77_compress x opts)) 0 0

/-- `lib.rs::deflate_bytes_conf` (lines 108–116), modelled from the spec: the
final byte vector of the compressor (§7 panics are `none`). -/
def deflate_bytes_conf (x : List Nat) (opts : CompressionOptions) : Option (List Nat) :=
  (deflate_stream x opts).bind (fun bits => some (bitsToBytes bits))

/-- `lib.rs::deflate_bytes` (lines 119–121): the default-options wrapper. -/
def deflate_bytes (x : List Nat) : Option (List Nat) :=
  deflate_bytes_conf x CompressionLevel.Default.toOptions

/-- Read `k` aligned bytes (the payload of a stored block). -/
def readBytesN : Nat → List Bool → Option (List Nat × List Bool)
  | 0, bits => some ([], bits)
  | k + 1, bits =>
    (readBits 8 bits).bind (fun p =>
      (readBytesN k p.2).bind (fun q => some (p.1 :: q.1, q.2)))

/-- A conformant DEFLATE decoder: read blocks until `BFINAL`; `pos` counts
the bits consumed so far, used to find the byte alignment of stored
blocks. -/
def inflateLoop : Nat → Nat → List Bool → List Nat → Option (List Nat)
  | _, 0, _, _ => none
  | pos, fuel + 1, bits, out =>
    (readBits 1 bits).bind (fun bf =>
      (readBits 2 bf.2).bind (fun bt =>
        if bt.1 = 0 then
          (readBits ((8 - (pos + 3) % 8) % 8) bt.2).bind (fun pd =>
            (readBits 16 pd.2).bind (fun len =>
              (readBits 16 len.2).bind (fun nlen =>
                if nlen.1 = 65535 - len.1 then
                  (readBytesN len.1 nlen.2).bind (fun bs =>
                    if bf.1 = 1 then some (out ++ bs.1)
                    else inflateLoop (pos + (bits.length - bs.2.length)) fuel bs.2
                      (out ++ bs.1))
                else none)))
        else if bt.1 = 1 then
          (readSyms fixedLitLens fixedDistLens (bt.2.length + 1) bt.2 []).bind (fun sy =>
            if bf.1 = 1 then some (resolveSyms sy.1 out)
            else inflateLoop (pos + (bits.length - sy.2.length)) fuel sy.2
              (resolveSyms sy.1 out))
        else if bt.1 = 2 then
          (readDynHeader bt.2).bind (fun hd =>
            (readSyms hd.1.1 hd.1.2 (hd.2.length + 1) hd.2 []).bind (fun sy =>
              if bf.1 = 1 then some (resolveSyms sy.1 out)
              else inflateLoop (pos + (bits.length - sy.2.length)) fuel sy.2
                (resolveSyms sy.1 out)))
        else none))

/-- A conformant DEFLATE decoder over a byte vector; trailing padding bits
of the last byte are ignored. -/
def inflate (bytes : List Nat) : Option (List Nat) :=
  inflateLoop 0 ((bytesToBits bytes).length + 1) (bytesToBits bytes) []

theorem readBytesN_correct : ∀ (bs : List Nat) (rest : List Bool),
    (∀ b ∈ bs, b < 256) →
    readBytesN bs.length (bytesToBits bs ++ rest) = some (bs, rest) := by
  intro bs
  induction bs with
  | nil =>
    intro rest _
    rfl
  | cons b t ih =>
    intro rest hb
    simp only [bytesToBits, List.flatMap_cons, List.append_assoc, List.length_cons,
      readBytesN]
    rw [readBits_natBitsLSB 8 b _]
    rw [Nat.mod_eq_of_lt (show b < 2 ^ 8 from hb b (List.mem_cons_self _ _))]
    simp only [Option.some_bind]
    have hI := ih rest (fun y hy => hb y (List.mem_cons_of_mem _ hy))
    unfold bytesToBits at hI
    rw [hI]
    simp

theorem copyMatch_length (d : Nat) : ∀ (k : Nat) (out : List Nat),
    (copyMatch d k out).length = out.length + k := by
  intro k
  induction k with
  | zero => intro out; rfl
  | succ j ih =>
    intro out
    simp only [copyMatch]
    rw [ih]
    simp
    omega

theorem copyMatch_ext (d : Nat) : ∀ (k : Nat) (out : List Nat),
    ∃ t, copyMatch d k out = out ++ t := by
  intro k
  induction k with
  | zero =>
    intro out
    exact ⟨[], by simp [copyMatch]⟩
  | succ j ih =>
    intro out
    rcases ih (out ++ [out.getD (out.length - d) 0]) with ⟨t, ht⟩
    exact ⟨out.getD (out.length - d) 0 :: t, by simp only [copyMatch]; rw [ht]; simp⟩

theorem resolveSyms_length : ∀ (l : List LZSym) (out : List Nat),
    (resolveSyms l out).length = out.length + (l.map symBytes).sum := by
  intro l
  induction l with
  | nil =>
    intro out
    simp [resolveSyms]
  | cons s t ih =>
    intro out
    cases s with
    | Literal b =>
      simp only [resolveSyms, List.map_cons, List.sum_cons]
      rw [ih]
      simp [symBytes]
      omega
    | MatchSym ln d =>
      simp only [resolveSyms, List.map_cons, List.sum_cons]
      rw [ih, copyMatch_length]
      simp [symBytes]
      omega

theorem resolveSyms_ext : ∀ (l : List LZSym) (out : List Nat),
    ∃ t, resolveSyms l out = out ++ t := by
  intro l
  induction l with
  | nil =>
    intro out
    exact ⟨[], by simp [resolveSyms]⟩
  | cons s t ih =>
    intro out
    cases s with
    | Literal b =>
      rcases ih (out ++ [b]) with ⟨t2, ht2⟩
      exact ⟨b :: t2, by simp only [resolveSyms]; rw [ht2]; simp⟩
    | MatchSym ln d =>
      rcases copyMatch_ext d ln out with ⟨t1, ht1⟩
      rcases ih (copyMatch d ln out) with ⟨t2, ht2⟩
      refine ⟨t1 ++ t2, ?_⟩
      simp only [resolveSyms]
      rw [ht2, ht1]
      simp

theorem chunkList_join : ∀ (fuel : Nat) (l : List LZSym), l.length ≤ fuel →
    (chunkList fuel l).flatMap id = l := by
  intro fuel
  induction fuel with
  | zero =>
    intro l hl
    have : l = [] := List.eq_nil_of_length_eq_zero (by omega)
    subst this
    rfl
  | succ f ih =>
    intro l hl
    cases l with
    | nil => rfl
    | cons a t =>
      simp only [chunkList, List.flatMap_cons, id]
      rw [ih ((a :: t).drop 16384) (by
        rw [List.length_drop]
        simp only [List.length_cons] at hl ⊢
        omega)]
      exact List.take_append_drop 16384 (a :: t)

theorem symChunks_join (syms : List LZSym) : (symChunks syms).flatMap id = syms := by
  unfold symChunks
  by_cases he : syms.isEmpty
  · rw [if_pos he]
    rw [List.isEmpty_iff] at he
    subst he
    rfl
  · rw [if_neg he]
    exact chunkList_join syms.length syms (Nat.le_refl _)

theorem symCode_length (lens : List Nat) (s : Nat) :
    (symCode lens s).length = ((create_codes lens).getD s ⟨0, 0⟩).length := by
  unfold symCode
  rw [natBitsLSB_length]

theorem writeSyms_length_ge (ll dl : List Nat) : ∀ (syms : List LZSym) (body : List Bool),
    writeSyms ll dl syms = some body → syms.length ≤ body.length := by
  intro syms
  induction syms with
  | nil =>
    intro body _
    simp
  | cons s t ih =>
    intro body hw
    unfold writeSyms at hw
    cases hx : writeSym ll dl s with
    | none =>
      rw [hx] at hw
      simp at hw
    | some a =>
      cases ht : writeSyms ll dl t with
      | none =>
        rw [hx, ht] at hw
        simp at hw
      | some b =>
        rw [hx, ht] at hw
        simp only [Option.some.injEq] at hw
        subst hw
        have hb := ih b ht
        have ha : 1 ≤ a.length := by
          cases s with
          | Literal bv =>
            simp only [writeSym] at hx
            by_cases hc : bv < ll.length ∧ ll.getD bv 0 ≠ 0
            · rw [if_pos hc] at hx
              simp only [Option.some.injEq] at hx
              subst hx
              rw [symCode_length, create_codes_length_field ll bv hc.1]
              omega
            · rw [if_neg hc] at hx
              simp at hx
          | MatchSym l d =>
            simp only [writeSym] at hx
            cases hls : lengthToSym l with
            | none =>
              rw [hls] at hx
              simp at hx
            | some pl =>
              cases hds : distToSym d with
              | none =>
                rw [hls, hds] at hx
                simp at hx
              | some pd =>
                obtain ⟨s2, e2, ev2⟩ := pl
                obtain ⟨ds2, de2, dev2⟩ := pd
                rw [hls, hds] at hx
                have hx2 : (if s2 < ll.length ∧ ll.getD s2 0 ≠ 0 ∧ ds2 < dl.length ∧
                    dl.getD ds2 0 ≠ 0 then
                    some (symCode ll s2 ++ natBitsLSB ev2 e2 ++ symCode dl ds2 ++
                      natBitsLSB dev2 de2)
                  else none) = some a := hx
                by_cases hc : s2 < ll.length ∧ ll.getD s2 0 ≠ 0 ∧ ds2 < dl.length ∧
                    dl.getD ds2 0 ≠ 0
                · rw [if_pos hc] at hx2
                  simp only [Option.some.injEq] at hx2
                  subst hx2
                  simp only [List.length_append]
                  rw [symCode_length, create_codes_length_field ll s2 hc.1]
                  have := hc.2.1
                  omega
                · rw [if_neg hc] at hx2
                  simp at hx2
        simp only [List.length_cons, List.length_append]
        omega

set_option maxRecDepth 40000 in
theorem fixedLit_lensOK : lensOK fixedLitLens 15 := by decide

set_option maxRecDepth 40000 in
theorem fixedDist_lensOK : lensOK fixedDistLens 15 := by decide

set_option maxRecDepth 40000 in
theorem fixedLit_vals : ∀ v ∈ fixedLitLens, v ≠ 0 := by decide

set_option maxRecDepth 40000 in
theorem fixedDist_vals : ∀ v ∈ fixedDistLens, v ≠ 0 := by decide

set_option maxRecDepth 40000 in
theorem fixedLit_length : fixedLitLens.length = 288 := by decide

set_option maxRecDepth 40000 in
theorem fixedDist_length : fixedDistLens.length = 30 := by decide

theorem readBits_one (b : Bool) (l : List Bool) :
    readBits 1 (b :: l) = some (if b then 1 else 0, l) := by
  simp [readBits]

theorem writeSym_fixed_some (s : LZSym) (h : symOK s) :
    ∃ a, writeSym fixedLitLens fixedDistLens s = some a := by
  cases s with
  | Literal b =>
    have hb : b < 256 := h
    refine ⟨symCode fixedLitLens b, ?_⟩
    simp only [writeSym]
    rw [if_pos ⟨by rw [fixedLit_length]; omega,
      fixedLit_vals _ (getD_mem_of_lt fixedLitLens b (by rw [fixedLit_length]; omega))⟩]
  | MatchSym l d =>
    rcases h with ⟨h3, h258, h1, h32768⟩
    rcases lengthToSym_spec l h3 h258 with ⟨s2, e, lb, ev, hl2s, _, _, _, hs257, hs285⟩
    rcases distToSym_spec d h1 h32768 with ⟨ds, de, db, dev, hd2s, _, _, _, hds29⟩
    refine ⟨symCode fixedLitLens s2 ++ natBitsLSB ev e ++ symCode fixedDistLens ds ++
      natBitsLSB dev de, ?_⟩
    simp only [writeSym, hl2s, hd2s]
    rw [if_pos ⟨by rw [fixedLit_length]; omega,
      fixedLit_vals _ (getD_mem_of_lt fixedLitLens s2 (by rw [fixedLit_length]; omega)),
      by rw [fixedDist_length]; omega,
      fixedDist_vals _ (getD_mem_of_lt fixedDistLens ds (by rw [fixedDist_length]; omega))⟩]

theorem writeSyms_fixed_some : ∀ (syms : List LZSym), (∀ s ∈ syms, symOK s) →
    ∃ body, writeSyms fixedLitLens fixedDistLens syms = some body := by
  intro syms
  induction syms with
  | nil =>
    intro _
    exact ⟨[], rfl⟩
  | cons s t ih =>
    intro h
    rcases writeSym_fixed_some s (h s (List.mem_cons_self _ _)) with ⟨a, ha⟩
    rcases ih (fun y hy => h y (List.mem_cons_of_mem _ hy)) with ⟨b, hb⟩
    exact ⟨a ++ b, by simp only [writeSyms, ha, hb]⟩

set_option maxHeartbeats 3200000 in
theorem writeBlock_decodes (x : List Nat) (off : Nat) (c : List LZSym) (bfinal : Bool)
    (pos : Nat) (bits : List Bool) (hxb : ∀ b ∈ x, b < 256)
    (hsym : ∀ s ∈ c, symOK s)
    (hres : resolveSyms c (x.take off) = x.take (off + (c.map symBytes).sum))
    (hoffn : off + (c.map symBytes).sum ≤ x.length)
    (hw : writeBlock x off c bfinal pos = some bits)
    (rest : List Bool) (f : Nat) :
    inflateLoop pos (f + 1) (bits ++ rest) (x.take off) =
      (if bfinal then some (x.take (off + (c.map symBytes).sum))
       else inflateLoop (pos + bits.length) f rest
         (x.take (off + (c.map symBytes).sum))) := by
  have hw2 : (if (¬ ∀ v ∈ distFreqs c, v = 0) ∧
      dynEst c (blockLitLens c) (blockDistLens c) ≤ fixedEst c ∧
      (dynEst c (blockLitLens c) (blockDistLens c) ≤
        storedEst ((c.map symBytes).sum) pos ∨ 65535 < (c.map symBytes).sum) then
      dynamicBlock c bfinal
    else if fixedEst c ≤ storedEst ((c.map symBytes).sum) pos ∨
        65535 < (c.map symBytes).sum then
      fixedBlock c bfinal
    else storedBlock ((x.drop off).take ((c.map symBytes).sum)) bfinal pos) =
      some bits := hw
  clear hw
  by_cases hD : (¬ ∀ v ∈ distFreqs c, v = 0) ∧
      dynEst c (blockLitLens c) (blockDistLens c) ≤ fixedEst c ∧
      (dynEst c (blockLitLens c) (blockDistLens c) ≤
        storedEst ((c.map symBytes).sum) pos ∨ 65535 < (c.map symBytes).sum)
  · -- dynamic block
    rw [if_pos hD] at hw2
    unfold dynamicBlock at hw2
    by_cases hOK : dynOK (blockLitLens c) (blockDistLens c)
    · rw [if_pos hOK] at hw2
      obtain ⟨h257, h286, hd1, hd30, hokll, hokdl, hmok, hmuse, heob⟩ := hOK
      cases hhdr : write_huffman_lengths (blockLitLens c) (blockDistLens c) with
      | none =>
        rw [hhdr] at hw2
        simp at hw2
      | some hdr =>
        rw [hhdr] at hw2
        simp only [Option.some_bind] at hw2
        cases hbody : writeSyms (blockLitLens c) (blockDistLens c) c with
        | none =>
          rw [hbody] at hw2
          simp at hw2
        | some body =>
          rw [hbody] at hw2
          simp only [Option.some_bind, Option.some.injEq] at hw2
          subst hw2
          simp only [List.cons_append, List.append_assoc]
          simp only [inflateLoop]
          rw [readBits_one]
          simp only [Option.some_bind]
          rw [readBits_natBitsLSB 2 2 _]
          rw [show (2 : Nat) % 2 ^ 2 = 2 from by norm_num]
          simp only [Option.some_bind]
          norm_num
          have hhd := readDynHeader_correct (blockLitLens c) (blockDistLens c) hdr
            (body ++ (symCode (blockLitLens c) 256 ++ rest)) h257 h286 hd1 hd30
            (fun v hv => hokll.1 v hv) (fun v hv => hokdl.1 v hv) hmok hmuse hhdr
          rw [hhd]
          simp only [Option.some_bind]
          have hrs := readSyms_correct (blockLitLens c) (blockDistLens c) 15 15
            hokll hokdl (Nat.le_refl 15) (Nat.le_refl 15) (by omega) heob c body
            ((body ++ (symCode (blockLitLens c) 256 ++ rest)).length + 1) [] rest hsym hbody
            (by
              have := writeSyms_length_ge (blockLitLens c) (blockDistLens c) c body hbody
              rw [List.length_append]
              omega)
          rw [hrs]
          simp only [Option.some_bind, List.nil_append]
          cases bfinal with
          | true =>
            rw [if_pos rfl, if_pos rfl, hres]
          | false =>
            simp only [Bool.false_eq_true, if_false]
            rw [hres]
            refine congrArg
              (fun z => inflateLoop z f rest (x.take (off + (c.map symBytes).sum))) ?_
            omega
    · rw [if_neg hOK] at hw2
      simp at hw2
  · -- fixed or stored
    rw [if_neg hD] at hw2
    by_cases hF : fixedEst c ≤ storedEst ((c.map symBytes).sum) pos ∨
        65535 < (c.map symBytes).sum
    · -- fixed block
      rw [if_pos hF] at hw2
      unfold fixedBlock at hw2
      cases hbody : writeSyms fixedLitLens fixedDistLens c with
      | none =>
        rw [hbody] at hw2
        simp at hw2
      | some body =>
        rw [hbody] at hw2
        simp only [Option.some_bind, Option.some.injEq] at hw2
        subst hw2
        simp only [List.cons_append, List.append_assoc]
        simp only [inflateLoop]
        rw [readBits_one]
        simp only [Option.some_bind]
        rw [readBits_natBitsLSB 2 1 _]
        rw [show (1 : Nat) % 2 ^ 2 = 1 from by norm_num]
        simp only [Option.some_bind]
        rw [if_neg (show ¬(1 : Nat) = 0 from by decide), if_pos trivial]
        have h256 : (256 : Nat) < fixedLitLens.length := by
          rw [fixedLit_length]
          omega
        have heobf : fixedLitLens.getD 256 0 ≠ 0 :=
          fixedLit_vals _ (getD_mem_of_lt fixedLitLens 256 h256)
        have hrs := readSyms_correct fixedLitLens fixedDistLens 15 15
          fixedLit_lensOK fixedDist_lensOK (Nat.le_refl 15) (Nat.le_refl 15) h256 heobf
          c body ((body ++ (symCode fixedLitLens 256 ++ rest)).length + 1) [] rest hsym hbody
          (by
            have := writeSyms_length_ge fixedLitLens fixedDistLens c body hbody
            rw [List.length_append]
            omega)
        rw [hrs]
        simp only [Option.some_bind, List.nil_append]
        cases bfinal with
        | true =>
          simp only [eq_self_iff_true, if_true, hres]
        | false =>
          simp only [Bool.false_eq_true, if_false]
          rw [hres]
          norm_num
          congr 1
          try simp only [List.length_cons, List.length_append]
          omega
    · -- stored block
      rw [if_neg hF] at hw2
      unfold storedBlock at hw2
      by_cases h65 : ((x.drop off).take ((c.map symBytes).sum)).length ≤ 65535
      · rw [if_pos h65] at hw2
        rw [Option.some.injEq] at hw2
        subst hw2
        have hblen : ((x.drop off).take ((c.map symBytes).sum)).length =
            (c.map symBytes).sum := by
          rw [List.length_take, List.length_drop]
          omega
        simp only [List.cons_append, List.append_assoc]
        simp only [inflateLoop]
        rw [readBits_one]
        simp only [Option.some_bind]
        rw [readBits_natBitsLSB 2 0 _]
        rw [show (0 : Nat) % 2 ^ 2 = 0 from by norm_num]
        simp only [Option.some_bind]
        rw [if_pos trivial]
        rw [← natBitsLSB_zero ((8 - (pos + 3) % 8) % 8)]
        rw [readBits_natBitsLSB ((8 - (pos + 3) % 8) % 8) 0 _]
        rw [Nat.zero_mod]
        simp only [Option.some_bind]
        rw [readBits_natBitsLSB 16 ((x.drop off).take ((c.map symBytes).sum)).length _]
        rw [Nat.mod_eq_of_lt (by omega :
          ((x.drop off).take ((c.map symBytes).sum)).length < 2 ^ 16)]
        simp only [Option.some_bind]
        rw [readBits_natBitsLSB 16
          (65535 - ((x.drop off).take ((c.map symBytes).sum)).length) _]
        rw [Nat.mod_eq_of_lt (by omega :
          65535 - ((x.drop off).take ((c.map symBytes).sum)).length < 2 ^ 16)]
        simp only [Option.some_bind]
        rw [if_pos trivial]
        have hbv : ∀ b ∈ (x.drop off).take ((c.map symBytes).sum), b < 256 := by
          intro b hb
          exact hxb b (List.mem_of_mem_drop (List.mem_of_mem_take hb))
        have hrb := readBytesN_correct ((x.drop off).take ((c.map symBytes).sum)) rest hbv
        rw [hrb]
        simp only [Option.some_bind]
        have hout : x.take off ++ (x.drop off).take ((c.map symBytes).sum) =
            x.take (off + (c.map symBytes).sum) := by
          rw [List.take_add]
        cases bfinal with
        | true =>
          simp only [eq_self_iff_true, if_true, hout]
        | false =>
          simp only [Bool.false_eq_true, if_false]
          rw [hout]
          norm_num
          refine congrArg
            (fun z => inflateLoop z f rest (x.take (off + (c.map symBytes).sum))) ?_
          simp only [List.length_cons, List.length_append, List.length_replicate,
            natBitsLSB_length]
          rw [bytesToBits_length]
          omega
      · rw [if_neg h65] at hw2
        simp at hw2

theorem writeBlock_length_pos (x : List Nat) (off : Nat) (c : List LZSym) (bfinal : Bool)
    (pos : Nat) (bits : List Bool) (hw : writeBlock x off c bfinal pos = some bits) :
    1 ≤ bits.length := by
  have hw2 : (if (¬ ∀ v ∈ distFreqs c, v = 0) ∧
      dynEst c (blockLitLens c) (blockDistLens c) ≤ fixedEst c ∧
      (dynEst c (blockLitLens c) (blockDistLens c) ≤
        storedEst ((c.map symBytes).sum) pos ∨ 65535 < (c.map symBytes).sum) then
      dynamicBlock c bfinal
    else if fixedEst c ≤ storedEst ((c.map symBytes).sum) pos ∨
        65535 < (c.map symBytes).sum then
      fixedBlock c bfinal
    else storedBlock ((x.drop off).take ((c.map symBytes).sum)) bfinal pos) = some bits := hw
  by_cases hD : (¬ ∀ v ∈ distFreqs c, v = 0) ∧
      dynEst c (blockLitLens c) (blockDistLens c) ≤ fixedEst c ∧
      (dynEst c (blockLitLens c) (blockDistLens c) ≤
        storedEst ((c.map symBytes).sum) pos ∨ 65535 < (c.map symBytes).sum)
  · rw [if_pos hD] at hw2
    unfold dynamicBlock at hw2
    by_cases hOK : dynOK (blockLitLens c) (blockDistLens c)
    · rw [if_pos hOK] at hw2
      cases hhdr : write_huffman_lengths (blockLitLens c) (blockDistLens c) with
      | none =>
        rw [hhdr] at hw2
        simp at hw2
      | some ws =>
        rw [hhdr] at hw2
        cases hbody : writeSyms (blockLitLens c) (blockDistLens c) c with
        | none =>
          rw [hbody] at hw2
          simp at hw2
        | some body =>
          rw [hbody] at hw2
          simp only [Option.some_bind, Option.some.injEq] at hw2
          subst hw2
          simp
    · rw [if_neg hOK] at hw2
      simp at hw2
  · rw [if_neg hD] at hw2
    by_cases hF : fixedEst c ≤ storedEst ((c.map symBytes).sum) pos ∨
        65535 < (c.map symBytes).sum
    · rw [if_pos hF] at hw2
      unfold fixedBlock at hw2
      cases hbody : writeSyms fixedLitLens fixedDistLens c with
      | none =>
        rw [hbody] at hw2
        simp at hw2
      | some body =>
        rw [hbody] at hw2
        simp only [Option.some_bind, Option.some.injEq] at hw2
        subst hw2
        simp
    · rw [if_neg hF] at hw2
      unfold storedBlock at hw2
      by_cases h65 : ((x.drop off).take ((c.map symBytes).sum)).length ≤ 65535
      · rw [if_pos h65] at hw2
        rw [Option.some.injEq] at hw2
        subst hw2
        simp
      · rw [if_neg h65] at hw2
        simp at hw2

theorem writeBlocks_length_ge (x : List Nat) : ∀ (chunks : List (List LZSym)) (off pos : Nat)
    (bits : List Bool), writeBlocks x chunks off pos = some bits →
    chunks.length ≤ bits.length := by
  intro chunks
  induction chunks with
  | nil =>
    intro off pos bits hw
    exact absurd hw (by simp [writeBlocks])
  | cons c rest2 ih =>
    intro off pos bits hw
    cases rest2 with
    | nil =>
      have hw1 : writeBlock x off c true pos = some bits := hw
      have h1 := writeBlock_length_pos x off c true pos bits hw1
      simpa using h1
    | cons c2 r2 =>
      have hw2 : (writeBlock x off c false pos).bind (fun b1 =>
          (writeBlocks x (c2 :: r2) (off + (c.map symBytes).sum)
            (pos + b1.length)).bind (fun more => some (b1 ++ more))) = some bits := hw
      cases hb : writeBlock x off c false pos with
      | none =>
        rw [hb] at hw2
        simp at hw2
      | some b1 =>
        rw [hb] at hw2
        simp only [Option.some_bind] at hw2
        cases hm : writeBlocks x (c2 :: r2) (off + (c.map symBytes).sum)
            (pos + b1.length) with
        | none =>
          rw [hm] at hw2
          simp at hw2
        | some more =>
          rw [hm] at hw2
          simp only [Option.some_bind, Option.some.injEq] at hw2
          subst hw2
          have h1 := writeBlock_length_pos x off c false pos b1 hb
          have h2 := ih _ _ more hm
          simp only [List.length_cons, List.length_append] at h2 ⊢
          omega

theorem writeBlocks_decode (x : List Nat) (hxb : ∀ b ∈ x, b < 256) :
    ∀ (chunks : List (List LZSym)) (off pos : Nat) (bits rest : List Bool) (f : Nat),
    (∀ s ∈ chunks.flatMap id, symOK s) →
    resolveSyms (chunks.flatMap id) (x.take off) = x →
    off + (((chunks.flatMap id).map symBytes).sum) = x.length →
    writeBlocks x chunks off pos = some bits →
    chunks.length ≤ f →
    inflateLoop pos (f + 1) (bits ++ rest) (x.take off) = some x := by
  intro chunks
  induction chunks with
  | nil =>
    intro off pos bits rest f _ _ _ hw _
    exact absurd hw (by simp [writeBlocks])
  | cons c rest2 ih =>
    intro off pos bits rest f hsym hall hlen hw hf
    have hsymc : ∀ s ∈ c, symOK s := by
      intro s hs
      refine hsym s ?_
      simp only [List.flatMap_cons, id, List.mem_append]
      exact Or.inl hs
    have hlen2 : off + ((c.map symBytes).sum +
        (((rest2.flatMap id).map symBytes).sum)) = x.length := by
      simp only [List.flatMap_cons, id, List.map_append, List.sum_append] at hlen
      exact hlen
    have hoffn : off + (c.map symBytes).sum ≤ x.length := by omega
    have hall2 : resolveSyms (rest2.flatMap id) (resolveSyms c (x.take off)) = x := by
      simp only [List.flatMap_cons, id] at hall
      rw [resolveSyms_append] at hall
      exact hall
    rcases resolveSyms_ext (rest2.flatMap id) (resolveSyms c (x.take off)) with ⟨t2, ht2⟩
    have hxeq : resolveSyms c (x.take off) ++ t2 = x := by
      rw [← ht2]
      exact hall2
    have hAlen : (resolveSyms c (x.take off)).length = off + (c.map symBytes).sum := by
      rw [resolveSyms_length, List.length_take]
      omega
    have hres : resolveSyms c (x.take off) = x.take (off + (c.map symBytes).sum) := by
      have h3 : (resolveSyms c (x.take off) ++ t2).take (off + (c.map symBytes).sum) =
          resolveSyms c (x.take off) := List.take_left' hAlen
      rw [hxeq] at h3
      exact h3.symm
    cases rest2 with
    | nil =>
      have hw1 : writeBlock x off c true pos = some bits := hw
      have hfin := writeBlock_decodes x off c true pos bits hxb hsymc hres hoffn hw1 rest f
      rw [if_pos rfl] at hfin
      have hallx : off + (c.map symBytes).sum = x.length := by
        simp only [List.flatMap_nil, List.map_nil, List.sum_nil] at hlen2
        omega
      rw [hallx, List.take_length] at hfin
      exact hfin
    | cons c2 r2 =>
      have hw2 : (writeBlock x off c false pos).bind (fun b1 =>
          (writeBlocks x (c2 :: r2) (off + (c.map symBytes).sum)
            (pos + b1.length)).bind (fun more => some (b1 ++ more))) = some bits := hw
      cases hb : writeBlock x off c false pos with
      | none =>
        rw [hb] at hw2
        simp at hw2
      | some b1 =>
        rw [hb] at hw2
        simp only [Option.some_bind] at hw2
        cases hm : writeBlocks x (c2 :: r2) (off + (c.map symBytes).sum)
            (pos + b1.length) with
        | none =>
          rw [hm] at hw2
          simp at hw2
        | some more =>
          rw [hm] at hw2
          simp only [Option.some_bind, Option.some.injEq] at hw2
          subst hw2
          obtain ⟨f2, rfl⟩ : ∃ f2, f = f2 + 1 := by
            refine ⟨f - 1, ?_⟩
            simp only [List.length_cons] at hf
            omega
          have hstep := writeBlock_decodes x off c false pos b1 hxb hsymc hres hoffn hb
            (more ++ rest) (f2 + 1)
          simp only [Bool.false_eq_true, if_false] at hstep
          rw [List.append_assoc, hstep]
          rw [hres] at hall2
          exact ih (off + (c.map symBytes).sum) (pos + b1.length) more rest f2
            (by
              intro s hs
              refine hsym s ?_
              simp only [List.flatMap_cons, id, List.mem_append] at hs ⊢
              tauto)
            hall2
            (by omega)
            hm
            (by
              simp only [List.length_cons] at hf ⊢
              omega)

/-- C1: round-trip — for every byte sequence `x` (all elements bytes) and
every configuration, whenever the compressor succeeds a conformant DEFLATE
decoder applied to the output of `deflate_bytes_conf x opts` yields exactly
`x`. -/
theorem deflate_round_trip (x : List Nat) (opts : CompressionOptions) (out : List Nat)
    (hxb : ∀ b ∈ x, b < 256) (hw : deflate_bytes_conf x opts = some out) :
    inflate out = some x := by
  unfold deflate_bytes_conf deflate_stream at hw
  cases hs : writeBlocks x (symChunks (lz77_compress x opts)) 0 0 with
  | none =>
    rw [hs] at hw
    simp at hw
  | some bits =>
    rw [hs] at hw
    simp only [Option.some_bind, Option.some.injEq] at hw
    subst hw
    unfold inflate
    rcases bytesToBits_bitsToBytes bits with ⟨pad, hpad⟩
    rw [hpad]
    have hspec := lz77_compress_spec x opts hxb
    have hj := symChunks_join (lz77_compress x opts)
    have hsym : ∀ s ∈ (symChunks (lz77_compress x opts)).flatMap id, symOK s := by
      rw [hj]
      exact hspec.2
    have hall : resolveSyms ((symChunks (lz77_compress x opts)).flatMap id)
        (x.take 0) = x := by
      rw [hj, List.take_zero]
      exact hspec.1
    have hlen : 0 + (((symChunks (lz77_compress x opts)).flatMap id).map symBytes).sum
        = x.length := by
      rw [hj]
      have h2 := resolveSyms_length (lz77_compress x opts) []
      rw [hspec.1] at h2
      simp only [List.length_nil] at h2
      omega
    have hfl := writeBlocks_length_ge x _ _ _ _ hs
    have hmain := writeBlocks_decode x hxb (symChunks (lz77_compress x opts)) 0 0 bits pad
      ((bits ++ pad).length) hsym hall hlen hs
      (by
        rw [List.length_append]
        omega)
    simpa using hmain

/-- Witness input for the round-trip theorem: 60 distinct bytes. -/
def wX : List Nat := (List.range 60).map (fun i => 180 + i)

def wOpts : CompressionOptions := CompressionLevel.Fast.toOptions

/-- The compressor's output on `wX` (one stored block). -/
def wOut : List Nat := [1, 60, 0, 195, 255] ++ (List.range 60).map (fun i => 180 + i)

set_option maxRecDepth 100000 in
theorem deflate_round_trip_witness :
    deflate_bytes_conf wX wOpts = some wOut ∧ inflate wOut = some wX := by
  have hww : deflate_bytes_conf wX wOpts = some wOut := by decide
  exact ⟨hww, deflate_round_trip wX wOpts wOut (by decide) hww⟩
